import Mathlib

/-!
# lua-chan: named blocking queues

A shallow embedding of `src/lua-chan.c`.  Objects that the C code reaches through
pointers live in explicit memories indexed by address (`Nat`, with `0` for `NULL`);
every function takes the memory, the pointers the C function takes, and returns the
new memory together with the C return value.

`int` is 32-bit two's complement: the value stored by every `++` and `--` on an
`int` field is reduced with `wrap32`.  The comparisons `q->count + 1 > q->limit`
and `q->count + 1 <= q->limit` of `queue_send` store nothing; a sum of two `int`s
that overflows is not a value of the C program, and the compiled test is the
comparison of the exact sum with the limit (`count >= limit`, `count < limit`),
so they are decided on the mathematical value of `count + 1`.
-/

namespace LuaChan

/-! ## Machine integers -/

/-- Largest value of a C `int`. -/
def INT_MAX : Int := 2147483647

/-- Smallest value of a C `int`. -/
def INT_MIN : Int := -2147483648

/-- Result of an `int` operation whose mathematical value is `x`, reduced to the
32-bit two's-complement range. -/
def wrap32 (x : Int) : Int := (x + 2147483648) % 4294967296 - 2147483648

/-! ## Data model -/

/-- The anonymous union at the start of `struct msg_t`. -/
inductive msg_payload where
  | str (bytes : List Nat)
  | num (x : Float)
  | bool_val (b : Int)

/-- C `struct msg_t`. -/
structure msg_t where
  payload : msg_payload := msg_payload.bool_val 0
  str_len : Nat := 0
  type : Int := 0
  next : Nat := 0

/-- C `struct queue_t` (the mutex and the two condition variables are part of the
execution model, not of the data). `name` holds the `char` values of the string
without the terminating zero. -/
structure queue_t where
  name : List Int := []
  msg_head : Nat := 0
  msg_tail : Nat := 0
  limit : Int := 0
  count : Int := 0
  prev : Nat := 0
  next : Nat := 0
  refs : Int := 0
  bucket : Int := 0

/-- C `struct entry_t`: one bucket of the registry. -/
structure entry_t where
  head : Nat := 0
  tail : Nat := 0

/-- The memory the module works on: message objects and queue objects by address,
the static table `_queues`, and the addresses handed to `free` (in call order). -/
structure World where
  msgs : Nat → msg_t
  queues : Nat → queue_t
  _queues : Int → entry_t
  freed_queues : List Nat
  freed_msgs : List Nat

/-- Memory at program start: the static table is zero-initialised, nothing freed. -/
def World.init : World where
  msgs := fun _ => {}
  queues := fun _ => {}
  _queues := fun _ => {}
  freed_queues := []
  freed_msgs := []

/-- The characters of a C string up to (not including) the first zero. -/
def cstr (s : List Int) : List Int := s.takeWhile (fun c => c != 0)

/-! ## Queue engine -/

/-- C `queue_create`; `q` is the block returned by `malloc`.  The field `bucket` is
not written and keeps whatever the block held. -/
def queue_create (W : World) (q : Nat) (name : List Int) (limit : Int) : World :=
  let Q := W.queues q
  let Q' := { Q with
    name := cstr name
    msg_head := 0
    msg_tail := 0
    limit := limit
    count := 0
    prev := 0
    next := 0
    refs := 1 }
  { W with queues := Function.update W.queues q Q' }

/-- Loop condition of `queue_send` apart from `timeout != 0`:
`q->limit >= 0 && q->count + 1 > q->limit`, with `count + 1` the exact sum (at
`count == INT_MAX` the test holds for every limit `>= 0`). -/
def send_blocked (Q : queue_t) : Bool :=
  decide (Q.limit ≥ 0) && decide (Q.count + 1 > Q.limit)

/-- Lines 163-180 of `queue_send`: link the message at the tail when the queue is
unbounded or has room (`q->limit < 0 || q->count + 1 <= q->limit`, with
`count + 1` the exact sum), otherwise drop the local pointer; return
`msg ? 1 : 0`.  The stored `q->count ++` is reduced to 32 bits. -/
def send_finish (W : World) (q msg : Nat) : World × Int :=
  let Q := W.queues q
  if Q.limit < 0 ∨ Q.count + 1 ≤ Q.limit then
    -- msg->next = NULL;
    let M1 := Function.update W.msgs msg { (W.msgs msg) with next := 0 }
    -- if (q->msg_tail) q->msg_tail->next = msg;
    let M2 := if Q.msg_tail ≠ 0 then
        Function.update M1 Q.msg_tail { (M1 Q.msg_tail) with next := msg }
      else M1
    -- q->msg_tail = msg; if (q->msg_head == NULL) q->msg_head = msg; q->count ++;
    let Q' := { Q with
      msg_tail := msg
      msg_head := if Q.msg_head = 0 then msg else Q.msg_head
      count := wrap32 (Q.count + 1) }
    ({ W with msgs := M2, queues := Function.update W.queues q Q' },
      if msg ≠ 0 then 1 else 0)
  else
    (W, 0)

/-- C `queue_send` run with no other thread touching the queue.  When the loop
condition holds, a timed wait (`timeout > 0`) comes back with `ETIMEDOUT` and the
loop is left by `break`; an untimed wait (`timeout < 0`) is never signalled and
the call does not return (`none`). -/
def queue_send (W : World) (q msg : Nat) (timeout : Int) : Option (World × Int) :=
  if timeout ≠ 0 ∧ send_blocked (W.queues q) = true then
    if timeout > 0 then some (send_finish W q msg) else none
  else
    some (send_finish W q msg)

/-- Lines 189-193 of `queue_recv`: a bounded queue gets one unit of credit. -/
def recv_enter (W : World) (q : Nat) : World :=
  let Q := W.queues q
  if Q.limit ≥ 0 then
    { W with queues := Function.update W.queues q { Q with limit := wrap32 (Q.limit + 1) } }
  else W

/-- Loop condition of `queue_recv` apart from `timeout != 0`: `q->count <= 0`. -/
def recv_blocked (Q : queue_t) : Bool := decide (Q.count ≤ 0)

/-- Lines 208-220 of `queue_recv`: when `count > 0` take the head pointer, unlink
the message it points to (if it is not `NULL`) and decrement `count`; returns the
pointer (`0` for `NULL`). -/
def recv_dequeue (W : World) (q : Nat) : World × Nat :=
  let Q := W.queues q
  if Q.count > 0 then
    let msg := Q.msg_head
    if msg ≠ 0 then
      -- q->msg_head = msg->next; if (q->msg_head == NULL) q->msg_tail = NULL;
      -- msg->next = NULL; q->count --;
      let nxt := (W.msgs msg).next
      let Q' := { Q with
        msg_head := nxt
        msg_tail := if nxt = 0 then 0 else Q.msg_tail
        count := wrap32 (Q.count - 1) }
      ({ W with
          msgs := Function.update W.msgs msg { (W.msgs msg) with next := 0 }
          queues := Function.update W.queues q Q' }, msg)
    else
      ({ W with queues := Function.update W.queues q { Q with count := wrap32 (Q.count - 1) } },
        msg)
  else (W, 0)

/-- Lines 222-223 of `queue_recv`: `if (q->limit > 0) q->limit --;`. -/
def recv_revoke (W : World) (q : Nat) : World :=
  let Q := W.queues q
  if Q.limit > 0 then
    { W with queues := Function.update W.queues q { Q with limit := wrap32 (Q.limit - 1) } }
  else W

/-- Lines 208-226 of `queue_recv`: dequeue, then take the credit back. -/
def recv_finish (W : World) (q : Nat) : World × Nat :=
  let r := recv_dequeue W q
  (recv_revoke r.1 q, r.2)

/-- C `queue_recv` run with no other thread touching the queue: a timed wait on an
empty queue ends with `ETIMEDOUT`, an untimed wait on an empty queue never
returns (`none`). -/
def queue_recv (W : World) (q : Nat) (timeout : Int) : Option (World × Nat) :=
  let W1 := recv_enter W q
  if timeout ≠ 0 ∧ recv_blocked (W1.queues q) = true then
    if timeout > 0 then some (recv_finish W1 q) else none
  else
    some (recv_finish W1 q)

/-! ## Reference counting and the registry -/

/-- C `BUCKET_SIZE`. -/
def BUCKET_SIZE : Int := 16

/-- The loop of `name_hash`: `hash += ch; hash &= 0xff;` for every character up to
the terminating zero. -/
def name_hash_loop : List Int → Int → Int
  | [], hash => hash
  | ch :: rest, hash =>
    if ch = 0 then hash else name_hash_loop rest (Int.land (hash + ch) 0xff)

/-- C `name_hash`. -/
def name_hash (name : List Int) : Int :=
  Int.land (name_hash_loop name 0) (BUCKET_SIZE - 1)

/-- The test `strcmp(a, b) == 0`. -/
def strcmp_eq (a b : List Int) : Bool := decide (cstr a = cstr b)

/-- The loop of `bucket_search` started at queue pointer `q`, with a bound on the
number of iterations; `none` when the bound is reached, `some 0` for `NULL`. -/
def bucket_scan (Q : Nat → queue_t) (name : List Int) : Nat → Nat → Option Nat
  | 0, q => if q = 0 then some 0 else none
  | fuel + 1, q =>
    if q = 0 then some 0
    else if strcmp_eq (Q q).name name = true then some q
    else bucket_scan Q name fuel (Q q).next

/-- C `bucket_search`. -/
def bucket_search (fuel : Nat) (W : World) (bucket : Int) (name : List Int) : Option Nat :=
  bucket_scan W.queues name fuel (W._queues bucket).head

/-- The memory with `q->refs` set to `r`. -/
def set_refs (W : World) (q : Nat) (r : Int) : World :=
  { W with queues := Function.update W.queues q { (W.queues q) with refs := r } }

/-- C `queue_acquire`: `refs = ++ q->refs`. -/
def queue_acquire (W : World) (q : Nat) : World × Int :=
  let refs := wrap32 ((W.queues q).refs + 1)
  (set_refs W q refs, refs)

/-- Lines 271-278 of `queues_add`: append `q` to the list of bucket `hash`. -/
def queues_link (W : World) (q : Nat) (hash : Int) : World :=
  let E := W._queues hash
  -- q->next = NULL; q->prev = _queues[hash].tail;
  let Q1 := Function.update W.queues q { (W.queues q) with next := 0, prev := E.tail }
  -- if (_queues[hash].tail) _queues[hash].tail->next = q;
  let Q2 := if E.tail ≠ 0 then
      Function.update Q1 E.tail { (Q1 E.tail) with next := q }
    else Q1
  -- _queues[hash].tail = q; if (!_queues[hash].head) _queues[hash].head = q;
  let E' : entry_t := { head := if E.head = 0 then q else E.head, tail := q }
  -- q->bucket = hash;
  let Q3 := Function.update Q2 q { (Q2 q) with bucket := hash }
  { W with queues := Q3, _queues := Function.update W._queues hash E' }

/-- C `queues_add`. -/
def queues_add (fuel : Nat) (W : World) (q : Nat) : Option (World × Int) :=
  let hash := name_hash (W.queues q).name
  match bucket_search fuel W hash (W.queues q).name with
  | none => none
  | some found => if found ≠ 0 then some (W, 0) else some (queues_link W q hash, 1)

/-- C `queues_get`; returns the queue pointer (`0` for `NULL`). -/
def queues_get (fuel : Nat) (W : World) (name : List Int) : Option (World × Nat) :=
  let hash := name_hash name
  match bucket_search fuel W hash name with
  | none => none
  | some q => if q ≠ 0 then some ((queue_acquire W q).1, q) else some (W, q)

/-- First statement of `queues_detach`:
`if (q->prev) q->prev->next = q->next; else _queues[q->bucket].head = q->next;`. -/
def detach_pred (W : World) (q : Nat) : World :=
  let Q := W.queues q
  if Q.prev ≠ 0 then
    { W with queues :=
        Function.update W.queues Q.prev { (W.queues Q.prev) with next := Q.next } }
  else
    { W with _queues :=
        Function.update W._queues Q.bucket { (W._queues Q.bucket) with head := Q.next } }

/-- Second statement of `queues_detach`:
`if (q->next) q->next->prev = q->prev; else _queues[q->bucket].tail = q->prev;`. -/
def detach_succ (W : World) (q : Nat) : World :=
  let Q := W.queues q
  if Q.next ≠ 0 then
    { W with queues :=
        Function.update W.queues Q.next { (W.queues Q.next) with prev := Q.prev } }
  else
    { W with _queues :=
        Function.update W._queues Q.bucket { (W._queues Q.bucket) with tail := Q.prev } }

/-- Last statements of `queues_detach`: `q->next = q->prev = NULL; q->bucket = -1;`. -/
def detach_reset (W : World) (q : Nat) : World :=
  { W with queues :=
      Function.update W.queues q { (W.queues q) with next := 0, prev := 0, bucket := -1 } }

/-- C `queues_detach`. -/
def queues_detach (W : World) (q : Nat) : World :=
  detach_reset (detach_succ (detach_pred W q) q) q

/-- The loop of `queue_destroy`: free every message of the chain starting at `p`,
with a bound on the number of iterations; returns the extended list of freed
message addresses. -/
def free_msgs (M : Nat → msg_t) : Nat → Nat → List Nat → Option (List Nat)
  | 0, p, acc => if p = 0 then some acc else none
  | fuel + 1, p, acc =>
    if p = 0 then some acc else free_msgs M fuel (M p).next (acc ++ [p])

/-- C `queue_destroy`: `free(q)`, then free the messages still queued. -/
def queue_destroy (fuel : Nat) (W : World) (q : Nat) : Option World :=
  let msgs := (W.queues q).msg_head
  let W1 := { W with freed_queues := W.freed_queues ++ [q] }
  match free_msgs W.msgs fuel msgs W1.freed_msgs with
  | none => none
  | some fm => some { W1 with freed_msgs := fm }

/-- C `queue_release`: `refs = -- q->refs`; at zero the queue is detached and then
destroyed. -/
def queue_release (fuel : Nat) (W : World) (q : Nat) : Option (World × Int) :=
  let refs := wrap32 ((W.queues q).refs - 1)
  let W1 := set_refs W q refs
  let W2 := if refs = 0 then queues_detach W1 q else W1
  if refs = 0 then
    match queue_destroy fuel W2 q with
    | none => none
    | some W3 => some (W3, refs)
  else some (W2, refs)

/-! ## Sequences of calls on one queue -/

/-- One call on a queue. -/
inductive QOp where
  | send (msg : Nat) (timeout : Int)
  | recv (timeout : Int)

/-- What a sequence of calls has returned so far: the results of the `queue_send`
calls and of the `queue_recv` calls, each in call order. -/
structure QLog where
  sends : List Int := []
  recvs : List Nat := []

/-- Perform the calls one after the other on queue `q`; `none` when a call never
returns. -/
def run_ops (q : Nat) : World → QLog → List QOp → Option (World × QLog)
  | W, log, [] => some (W, log)
  | W, log, QOp.send msg timeout :: ops =>
    match queue_send W q msg timeout with
    | none => none
    | some r => run_ops q r.1 { log with sends := log.sends ++ [r.2] } ops
  | W, log, QOp.recv timeout :: ops =>
    match queue_recv W q timeout with
    | none => none
    | some r => run_ops q r.1 { log with recvs := log.recvs ++ [r.2] } ops

/-- The messages passed to `queue_send` by a sequence of calls, in call order. -/
def sent_msgs : List QOp → List Nat
  | [] => []
  | QOp.send msg _ :: ops => msg :: sent_msgs ops
  | QOp.recv _ :: ops => sent_msgs ops

/-- The address `p` starts a `next`-chain through exactly the messages `l`, ending
in `NULL`. -/
def MsgChain (M : Nat → msg_t) : Nat → List Nat → Prop
  | p, [] => p = 0
  | p, a :: l => p = a ∧ a ≠ 0 ∧ MsgChain M (M a).next l

/-- Last address of a list, `0` (`NULL`) for the empty list. -/
def last_or_null (l : List Nat) : Nat := l.getLast?.getD 0

/-- Queue `q` holds exactly the messages `l`, head first: `msg_head` starts the
chain `l`, `msg_tail` is its last message, no message occurs twice. -/
def Holds (W : World) (q : Nat) (l : List Nat) : Prop :=
  MsgChain W.msgs (W.queues q).msg_head l ∧ l.Nodup ∧
    (W.queues q).msg_tail = last_or_null l

/-- Message `m` is linked into queue `q`. -/
def Linked (W : World) (q m : Nat) : Prop :=
  ∃ l, MsgChain W.msgs (W.queues q).msg_head l ∧ m ∈ l

/-- The caller's side of the contract of a sequence of calls: every message handed
to `queue_send` is a real message (`msg != NULL`) that is not in the queue at
that moment. -/
def ops_ok (q : Nat) : World → List QOp → Prop
  | _, [] => True
  | W, QOp.send msg timeout :: ops =>
    msg ≠ 0 ∧ ¬ Linked W q msg ∧
      ∀ r, queue_send W q msg timeout = some r → ops_ok q r.1 ops
  | W, QOp.recv timeout :: ops =>
    ∀ r, queue_recv W q timeout = some r → ops_ok q r.1 ops

/-! ## Threads

Several threads, each inside one call on queue `q`.  A thread holds the queue lock
from `queue_lock` (or from its return out of a condition wait) up to its next
condition wait or its `queue_unlock`; such a stretch is one atomic segment.
`pthread_cond_wait` releases the lock and blocks; `pthread_cond_signal` selects
one blocked waiter of that condition variable, which then has to take the lock
again before it goes on.  Senders wait on `send_sig`, receivers on `recv_sig`. -/

/-- The call a thread is executing. -/
inductive Call where
  | send (msg : Nat) (timeout : Int)
  | recv (timeout : Int)
  deriving DecidableEq

/-- Where a thread is in its call: before `queue_lock`; blocked in a condition wait
(`signalled` once a `pthread_cond_signal` has selected it); or returned, with
the value returned (0 or 1 for `queue_send`, the message pointer for
`queue_recv`). -/
inductive Pc where
  | start
  | waiting (signalled : Bool)
  | done (ret : Nat)
  deriving DecidableEq

/-- A thread. -/
structure Thread where
  call : Call
  pc : Pc
  deriving DecidableEq

/-- The memory together with the threads working on queue `q`. -/
structure Sys where
  W : World
  threads : List Thread

/-- What the scheduler lets happen next: thread `i` runs its next segment (it is
before `queue_lock`, or it was signalled); thread `i` returns from its
condition wait without having been signalled; the timed wait of thread `i`
returns `ETIMEDOUT`. -/
inductive Ev where
  | run (i : Nat)
  | spurious (i : Nat)
  | expire (i : Nat)
  deriving DecidableEq

/-- The thread is inside `queue_send` (its waits are on `send_sig`). -/
def Call.is_send : Call → Bool
  | Call.send _ _ => true
  | Call.recv _ => false

/-- The thread is inside `queue_recv` (its waits are on `recv_sig`). -/
def Call.is_recv : Call → Bool
  | Call.send _ _ => false
  | Call.recv _ => true

/-- C `pthread_cond_signal`: the first thread blocked on the condition variable
(one of the calls selected by `cv`) and not yet signalled becomes signalled. -/
def cond_signal (cv : Call → Bool) : List Thread → List Thread
  | [] => []
  | t :: ts =>
    if cv t.call = true ∧ t.pc = Pc.waiting false then
      { t with pc := Pc.waiting true } :: ts
    else t :: cond_signal cv ts

/-- One segment of thread `i` (whose record is `t`).  `entry`: the segment starts at
`queue_lock` (for `queue_recv` it then runs lines 189-193); otherwise it starts
at the return from a condition wait.  `expired`: that wait was a timed wait and
returned non-zero, so the loop is left by `break`. -/
def advance (q : Nat) (s : Sys) (i : Nat) (t : Thread) (entry expired : Bool) : Sys :=
  match t.call with
  | Call.send msg timeout =>
    let Q := s.W.queues q
    if timeout ≠ 0 ∧ send_blocked Q = true ∧ expired = false then
      { s with threads := s.threads.set i { t with pc := Pc.waiting false } }
    else
      -- lines 163-180; `pthread_cond_signal(&q->recv_sig)` only when the message is linked
      let r := send_finish s.W q msg
      let ths := if Q.limit < 0 ∨ Q.count + 1 ≤ Q.limit then
          cond_signal Call.is_recv s.threads
        else s.threads
      { W := r.1, threads := ths.set i { t with pc := Pc.done r.2.toNat } }
  | Call.recv timeout =>
    -- lines 189-193, with `pthread_cond_signal(&q->send_sig)`
    let W1 := if entry = true then recv_enter s.W q else s.W
    let ths1 := if entry = true ∧ (s.W.queues q).limit ≥ 0 then
        cond_signal Call.is_send s.threads
      else s.threads
    if timeout ≠ 0 ∧ recv_blocked (W1.queues q) = true ∧ expired = false then
      { W := W1, threads := ths1.set i { t with pc := Pc.waiting false } }
    else
      -- lines 208-226; `pthread_cond_signal(&q->send_sig)` only when `count > 0`
      let r := recv_finish W1 q
      let ths2 := if (W1.queues q).count > 0 then cond_signal Call.is_send ths1 else ths1
      { W := r.1, threads := ths2.set i { t with pc := Pc.done r.2 } }

/-- The timeout argument of a call. -/
def Call.timeout : Call → Int
  | Call.send _ timeout => timeout
  | Call.recv timeout => timeout

/-- One scheduling step; `none` when the event cannot happen in this state. -/
def step (q : Nat) (s : Sys) : Ev → Option Sys
  | Ev.run i =>
    match s.threads.get? i with
    | none => none
    | some t =>
      if t.pc = Pc.start then some (advance q s i t true false)
      else if t.pc = Pc.waiting true then some (advance q s i t false false)
      else none
  | Ev.spurious i =>
    match s.threads.get? i with
    | none => none
    | some t =>
      if t.pc = Pc.waiting false then some (advance q s i t false false) else none
  | Ev.expire i =>
    match s.threads.get? i with
    | none => none
    | some t =>
      if (t.pc = Pc.waiting false ∨ t.pc = Pc.waiting true) ∧ t.call.timeout > 0 then
        some (advance q s i t false true)
      else none

/-- A sequence of scheduling steps. -/
def exec (q : Nat) : Sys → List Ev → Option Sys
  | s, [] => some s
  | s, e :: es =>
    match step q s e with
    | none => none
    | some s' => exec q s' es

/-- The event is a `run`: a segment entered at `queue_lock` or after a signal. -/
def Ev.is_run : Ev → Bool
  | Ev.run _ => true
  | _ => false

/-- Every thread has returned from its call. -/
def all_done (s : Sys) : Prop := ∀ t ∈ s.threads, ∃ r, t.pc = Pc.done r

/-- One sender handing over `m` and one receiver, both blocking without timeout. -/
def rendezvous_threads (m : Nat) (p₀ p₁ : Pc) : List Thread :=
  [{ call := Call.send m (-1), pc := p₀ }, { call := Call.recv (-1), pc := p₁ }]

/-- The states a rendezvous on a queue of limit 0 passes through. -/
inductive Phase where
  | fresh | sender_waits | receiver_waits | both_wait | handed_over | finished
  deriving DecidableEq

/-- The number of `run` segments that can have been executed when a phase is reached. -/
def Phase.rank : Phase → Nat
  | Phase.fresh => 0
  | Phase.sender_waits => 1
  | Phase.receiver_waits => 1
  | Phase.both_wait => 2
  | Phase.handed_over => 3
  | Phase.finished => 4

/-- The program counters of sender and receiver in a phase. -/
def Phase.pcs (m : Nat) : Phase → Pc × Pc
  | Phase.fresh => (Pc.start, Pc.start)
  | Phase.sender_waits => (Pc.waiting false, Pc.start)
  | Phase.receiver_waits => (Pc.start, Pc.waiting false)
  | Phase.both_wait => (Pc.waiting true, Pc.waiting false)
  | Phase.handed_over => (Pc.done 1, Pc.waiting true)
  | Phase.finished => (Pc.done 1, Pc.done m)

/-- The limit, the count and the queued messages in a phase. -/
def Phase.queue (m : Nat) : Phase → Int × Int × List Nat
  | Phase.fresh => (0, 0, [])
  | Phase.sender_waits => (0, 0, [])
  | Phase.receiver_waits => (1, 0, [])
  | Phase.both_wait => (1, 0, [])
  | Phase.handed_over => (1, 1, [m])
  | Phase.finished => (0, 0, [])

/-- The system is in phase `p` of the rendezvous of message `m` on queue `q`. -/
def in_phase (q m : Nat) (p : Phase) (s : Sys) : Prop :=
  s.threads = rendezvous_threads m (p.pcs m).1 (p.pcs m).2 ∧
    (s.W.queues q).limit = (p.queue m).1 ∧ (s.W.queues q).count = (p.queue m).2.1 ∧
    Holds s.W q (p.queue m).2.2

/-! ## Registry states -/

/-- The address `p` starts a doubly linked list through exactly the queues `l`:
`next` leads from each queue to its successor and from the last one to `NULL`,
`prev` leads from each queue to its predecessor and from the first one to
`before`. -/
def QList (Q : Nat → queue_t) : Nat → Nat → List Nat → Prop
  | _, p, [] => p = 0
  | before, p, a :: l => p = a ∧ a ≠ 0 ∧ (Q a).prev = before ∧ QList Q a (Q a).next l

/-- The registry holds exactly the queues `B b` in bucket `b`, in list order:
each bucket is a doubly linked list from `head` to `tail`; every queue sits in
the bucket of its name's hash and records that index; no two registered queues
have the same name. -/
def Registry (W : World) (B : Int → List Nat) : Prop :=
  (∀ b, QList W.queues 0 (W._queues b).head (B b) ∧
    (W._queues b).tail = last_or_null (B b) ∧ (B b).Nodup) ∧
  (∀ b, ∀ a ∈ B b, name_hash (W.queues a).name = b ∧ (W.queues a).bucket = b) ∧
  (∀ b b', ∀ a ∈ B b, ∀ a' ∈ B b',
    cstr (W.queues a).name = cstr (W.queues a').name → a = a')

/-- `k` calls of `queues_get(name)` in a row; `none` when one of them does not
return, otherwise the final memory and the pointers returned. -/
def get_times (fuel : Nat) (name : List Int) : Nat → World → Option (World × List Nat)
  | 0, W => some (W, [])
  | k + 1, W =>
    match queues_get fuel W name with
    | none => none
    | some r =>
      match get_times fuel name k r.1 with
      | none => none
      | some r' => some (r'.1, r.2 :: r'.2)

/-- `k` calls of `queue_release(q)` in a row; `none` when one of them does not
return, otherwise the final memory and the counts returned. -/
def release_times (fuel : Nat) (q : Nat) : Nat → World → Option (World × List Int)
  | 0, W => some (W, [])
  | k + 1, W =>
    match queue_release fuel W q with
    | none => none
    | some r =>
      match release_times fuel q k r.1 with
      | none => none
      | some r' => some (r'.1, r.2 :: r'.2)

/-! ## Bytes and `char` -/

/-- The value of a `char` that holds byte `b`: `b` itself where `char` is unsigned,
and `b - 256` for `b ≥ 128` where `char` is signed. -/
def char_val (char_signed : Bool) (b : Nat) : Int :=
  if char_signed = true ∧ 128 ≤ b then (b : Int) - 256 else (b : Int)

/-- The bytes of a string read as `char` values. -/
def as_chars (char_signed : Bool) (s : List Nat) : List Int := s.map (char_val char_signed)

/-- The bytes of a C string: those before the first zero byte. -/
def c_bytes (s : List Nat) : List Nat := s.takeWhile (fun b => b != 0)

/-! ## Deadlines -/

/-- Result of a `long` operation whose mathematical value is `x`, reduced to the
64-bit two's-complement range. -/
def wrap64 (x : Int) : Int :=
  (x + 9223372036854775808) % 18446744073709551616 - 9223372036854775808

/-- C `struct timespec`, with 64-bit `time_t` and `long`. -/
structure timespec where
  tv_sec : Int
  tv_nsec : Int

/-- C `timeout_to_timespec`: `now` is what `clock_gettime(CLOCK_REALTIME, ts)` stores
into `*ts`; the result is the final `*ts` and the return value. -/
def timeout_to_timespec (now : timespec) (timeout : Int) (ts : timespec) : timespec × Int :=
  if timeout < 0 then (ts, 0)
  else
    -- clock_gettime(CLOCK_REALTIME, ts);
    let ts1 := now
    -- ts->tv_nsec += timeout * 1000000L;
    let ts2 : timespec :=
      { ts1 with tv_nsec := wrap64 (ts1.tv_nsec + wrap64 (timeout * 1000000)) }
    -- ts->tv_sec += ts->tv_nsec / 1000000000L;
    let ts3 : timespec :=
      { ts2 with tv_sec := wrap64 (ts2.tv_sec + Int.tdiv ts2.tv_nsec 1000000000) }
    -- ts->tv_nsec = ts->tv_nsec % 1000000000L;
    ({ ts3 with tv_nsec := Int.tmod ts3.tv_nsec 1000000000 }, 1)

/-! ## Receives in flight -/

/-- The thread is inside `queue_recv` between its entry segment and its exit
segment: it has granted its credit and is blocked in a wait. -/
def Thread.in_recv (t : Thread) : Bool :=
  match t.call, t.pc with
  | Call.recv _, Pc.waiting _ => true
  | _, _ => false

/-- The number of `queue_recv` calls in flight. -/
def in_flight (s : Sys) : Nat := s.threads.countP Thread.in_recv

/-- Threads that have not reached `queue_lock` yet, one for each call. -/
def start_threads (calls : List Call) : List Thread :=
  calls.map (fun c => { call := c, pc := Pc.start })

/-- Where a queue created with limit `n` stands while some receives are in flight:
each of them has its unit of credit in `limit`, and `count` is within `limit`. -/
def Admission (q : Nat) (n : Int) (s : Sys) : Prop :=
  (s.W.queues q).limit = n + in_flight s ∧ 0 ≤ (s.W.queues q).count ∧
    (s.W.queues q).count ≤ n + in_flight s

/-- Two thread lists that agree, position by position, on which threads are
receives in flight. -/
def same_flight (ths ths' : List Thread) : Prop :=
  List.Forall₂ (fun t t' => t'.in_recv = t.in_recv) ths ths'

/-! ## Handles on registered queues -/

/-- A call on the registry. `add q name limit` stands for `queue_create(name, limit)`,
which builds the queue in the block `q` that `malloc` returns, followed by
`queues_add` (and by `queue_destroy` of the new queue when its name is taken, as
in `chan_new`). -/
inductive RegOp where
  | add (q : Nat) (name : List Int) (limit : Int)
  | get (name : List Int)
  | release (q : Nat)

/-- The memory together with what the callers and the allocator hold: `handles` is
the queue pointer once for every handle that has been handed out and not
released yet; `live` are the queue blocks that `malloc` has returned and `free`
has not been given. -/
structure RegState where
  W : World
  handles : List Nat
  live : List Nat

/-- One call.  `add` is `queue_create` in the block `q` followed by `queues_add`,
and by `queue_destroy(q)` when `queues_add` returns 0 (lines 468-471 of
`chan_new`); a successful `queues_add` and a successful `queues_get` hand out a
handle on the queue; `queue_release` uses one handle up and, when it returns 0,
has freed the block.  `none` when the call does not return within the bound on
loop iterations, or when `queue_release` is called with a pointer to a block
that is not allocated: what the C program does then is undefined. -/
def reg_step (fuel : Nat) (s : RegState) : RegOp → Option RegState
  | RegOp.add q name limit =>
    match queues_add fuel (queue_create s.W q name limit) q with
    | none => none
    | some r =>
      if r.2 ≠ 0 then some { W := r.1, handles := q :: s.handles, live := q :: s.live }
      else
        match queue_destroy fuel r.1 q with
        | none => none
        | some W' => some { W := W', handles := s.handles, live := s.live }
  | RegOp.get name =>
    match queues_get fuel s.W name with
    | none => none
    | some r =>
      some { W := r.1, handles := if r.2 ≠ 0 then r.2 :: s.handles else s.handles,
             live := s.live }
  | RegOp.release q =>
    if q ∈ s.live then
      match queue_release fuel s.W q with
      | none => none
      | some r =>
        some { W := r.1, handles := s.handles.erase q,
               live := if r.2 = 0 then s.live.erase q else s.live }
    else none

/-- A sequence of calls; `none` when one of them has no defined result. -/
def reg_run (fuel : Nat) : RegState → List RegOp → Option RegState
  | s, [] => some s
  | s, op :: ops =>
    match reg_step fuel s op with
    | none => none
    | some s' => reg_run fuel s' ops

/-- The contract of one call: `malloc` returns a block that is not `NULL` and not
allocated at that moment (it may have been freed before); only a handle is
released. -/
def reg_pre (s : RegState) : RegOp → Prop
  | RegOp.add q _ _ => q ≠ 0 ∧ q ∉ s.live
  | RegOp.get _ => True
  | RegOp.release q => q ∈ s.handles

/-- The contract along a sequence of calls; as `reg_step` uses a handle up when it is
released, no handle is released twice. -/
def reg_ok (fuel : Nat) : RegState → List RegOp → Prop
  | _, [] => True
  | s, op :: ops =>
    reg_pre s op ∧ ∀ s', reg_step fuel s op = some s' → reg_ok fuel s' ops

/-- The bound on the handles of one call: `queue_release(q)` is not called while more
than `2^32` handles on `q` are outstanding. -/
def release_pre (s : RegState) : RegOp → Prop
  | RegOp.release q => s.handles.count q ≤ 4294967296
  | _ => True

/-- The bound on the handles along a sequence of calls. -/
def handles_in_range (fuel : Nat) : RegState → List RegOp → Prop
  | _, [] => True
  | s, op :: ops =>
    release_pre s op ∧ ∀ s', reg_step fuel s op = some s' → handles_in_range fuel s' ops

/-- The registry holds the queues `B`, none of them holds a message; the allocated
queue blocks are the queues of the registry; every handle is on an allocated
queue; and the count of an allocated queue is the number of handles on it,
reduced to 32 bits. -/
def RegInv (s : RegState) (B : Int → List Nat) : Prop :=
  Registry s.W B ∧ (∀ b, ∀ a ∈ B b, (s.W.queues a).msg_head = 0) ∧
    s.live.Nodup ∧ (∀ a, a ∈ s.live ↔ ∃ b, a ∈ B b) ∧
    (∀ a ∈ s.handles, a ∈ s.live) ∧
    ∀ a ∈ s.live, a ≠ 0 ∧ 1 ≤ s.handles.count a ∧
      (s.W.queues a).refs = wrap32 (s.handles.count a)

/-! ## The Lua side

The functions registered with Lua take their arguments from the Lua stack and push
their results there.  The stack of a call is the list of its arguments (index 1
first); a function returns the values it has pushed and returns, or raises a Lua
error. -/

/-- Lua 5.1 `LUA_TBOOLEAN` (`lua.h`). -/
def LUA_TBOOLEAN : Int := 1

/-- Lua 5.1 `LUA_TNUMBER` (`lua.h`). -/
def LUA_TNUMBER : Int := 3

/-- Lua 5.1 `LUA_TSTRING` (`lua.h`). -/
def LUA_TSTRING : Int := 4

/-- A Lua value as the C API presents it.  A string is a byte sequence of any length
(zero bytes included); `object` stands for a table, function, full userdata or
thread at the given address. -/
inductive lua_value where
  | nil
  | boolean (b : Bool)
  | lightuserdata (p : Nat)
  | number (x : Float)
  | string (s : List Nat)
  | object (p : Nat)

/-- The conversions that Lua's core supplies: `lua_number2str`, `luaO_str2d` (which
fails on text that is not a numeral) and `lua_number2integer`. -/
structure lua_conv where
  number2str : Float → List Nat
  str2number : List Nat → Option Float
  number2integer : Float → Int

/-- How a function registered with Lua ends: it returns the values it pushed, or
`lua_error` raises the value on top of the stack; `undefined` stands for a read
of a member of the message union other than the one that was stored. -/
inductive lua_result where
  | ret (pushed : List lua_value)
  | error (value : lua_value)
  | undefined

/-- The value at a stack index, `none` for an index beyond the top. -/
def lua_index (L : List lua_value) (index : Nat) : Option lua_value :=
  if index = 0 then none else L.get? (index - 1)

/-- Lua `lua_isstring`: true for a string and for a number. -/
def lua_isstring (L : List lua_value) (index : Nat) : Bool :=
  match lua_index L index with
  | some (lua_value.string _) => true
  | some (lua_value.number _) => true
  | _ => false

/-- Lua `lua_isnumber`: true for a number and for a string convertible to one. -/
def lua_isnumber (conv : lua_conv) (L : List lua_value) (index : Nat) : Bool :=
  match lua_index L index with
  | some (lua_value.number _) => true
  | some (lua_value.string s) => (conv.str2number s).isSome
  | _ => false

/-- Lua `lua_isboolean`. -/
def lua_isboolean (L : List lua_value) (index : Nat) : Bool :=
  match lua_index L index with
  | some (lua_value.boolean _) => true
  | _ => false

/-- Lua `lua_tolstring`: the bytes of a string, the text of a number, `none` for
`NULL`. -/
def lua_tolstring (conv : lua_conv) (L : List lua_value) (index : Nat) : Option (List Nat) :=
  match lua_index L index with
  | some (lua_value.string s) => some s
  | some (lua_value.number x) => some (conv.number2str x)
  | _ => none

/-- Lua `lua_tonumber`. -/
def lua_tonumber (conv : lua_conv) (L : List lua_value) (index : Nat) : Float :=
  match lua_index L index with
  | some (lua_value.number x) => x
  | some (lua_value.string s) => (conv.str2number s).getD 0
  | _ => 0

/-- Lua `lua_tointeger`. -/
def lua_tointeger (conv : lua_conv) (L : List lua_value) (index : Nat) : Int :=
  match lua_index L index with
  | some (lua_value.number x) => conv.number2integer x
  | some (lua_value.string s) =>
    match conv.str2number s with
    | some x => conv.number2integer x
    | none => 0
  | _ => 0

/-- Lua `lua_toboolean`: 0 for `false`, `nil` and an absent value, 1 otherwise. -/
def lua_toboolean (L : List lua_value) (index : Nat) : Int :=
  match lua_index L index with
  | none => 0
  | some lua_value.nil => 0
  | some (lua_value.boolean b) => if b = true then 1 else 0
  | _ => 1

/-- Lua `lua_topointer`. -/
def lua_topointer (L : List lua_value) (index : Nat) : Nat :=
  match lua_index L index with
  | some (lua_value.lightuserdata p) => p
  | some (lua_value.object p) => p
  | _ => 0

/-- Lua `lua_pushstring` of a C string literal: the value pushed. -/
def lua_pushstring (s : String) : lua_value :=
  lua_value.string (s.toList.map Char.toNat)

/-- C `_usage_send`. -/
def _usage_send : String := "chan:send(string|number|boolean, timeout = -1)"

/-- C `_usage_recv`. -/
def _usage_recv : String := "chan:recv(timeout = -1)"

/-- C `_usage_new`. -/
def _usage_new : String := "chan.new(name, limit = 0)"

/-- C `_lua_arg_string`: the bytes of the argument, the default when the argument is
absent and there is one, otherwise the usage error. -/
def _lua_arg_string (conv : lua_conv) (L : List lua_value) (index : Nat)
    (def_val : Option (List Nat)) (usage : String) : Except lua_value (List Nat) :=
  if L.length ≥ index then
    match lua_tolstring conv L index with
    | some str => Except.ok str
    | none => Except.error (lua_pushstring usage)
  else
    match def_val with
    | some d => Except.ok d
    | none => Except.error (lua_pushstring usage)

/-- C `_lua_arg_integer`; the cast `(int)lua_tointeger(...)` keeps the low 32 bits. -/
def _lua_arg_integer (conv : lua_conv) (L : List lua_value) (index : Nat) (optional : Bool)
    (def_val : Int) (usage : String) : Except lua_value Int :=
  if L.length ≥ index then
    if lua_isnumber conv L index = true then Except.ok (wrap32 (lua_tointeger conv L index))
    else Except.error (lua_pushstring usage)
  else if optional = true then Except.ok def_val
  else Except.error (lua_pushstring usage)

/-- C `_lua_arg_queue`. -/
def _lua_arg_queue (L : List lua_value) : Except lua_value Nat :=
  if lua_topointer L 1 = 0 then Except.error (lua_pushstring "invalid queue object")
  else Except.ok (lua_topointer L 1)

/-- Lines 365-369 of `chan_send`: the type tag chosen for the value to send, `none`
when the usage error is raised.  The tests are made in the order of the code. -/
def send_type (conv : lua_conv) (L : List lua_value) : Option Int :=
  if lua_isstring L 2 = true then some LUA_TSTRING
  else if lua_isnumber conv L 2 = true then some LUA_TNUMBER
  else if lua_isboolean L 2 = true then some LUA_TBOOLEAN
  else none

/-- Lines 373-398 of `chan_send`: the message written into the block `M` that `malloc`
returned.  A string is copied with its length and followed by a zero byte;
fields that the code does not write keep what the block held. -/
def send_msg (conv : lua_conv) (L : List lua_value) (type : Int) (M : msg_t) : msg_t :=
  if type = LUA_TSTRING then
    let str := (lua_tolstring conv L 2).getD []
    { M with payload := msg_payload.str (str ++ [0]), str_len := str.length, type := type }
  else if type = LUA_TNUMBER then
    { M with payload := msg_payload.num (lua_tonumber conv L 2), type := type }
  else if type = LUA_TBOOLEAN then
    { M with payload := msg_payload.bool_val (lua_toboolean L 2), type := type }
  else { M with type := type }

/-- C `chan_send`; `m` is the block that `malloc` returns for the message. -/
def chan_send (conv : lua_conv) (W : World) (m : Nat) (L : List lua_value) :
    Option (World × lua_result) :=
  match _lua_arg_queue L with
  | Except.error e => some (W, lua_result.error e)
  | Except.ok q =>
    if L.length < 2 then some (W, lua_result.error (lua_pushstring _usage_send))
    else
      match send_type conv L with
      | none => some (W, lua_result.error (lua_pushstring _usage_send))
      | some type =>
        match _lua_arg_integer conv L 3 true (-1) _usage_send with
        | Except.error e => some (W, lua_result.error e)
        | Except.ok timeout =>
          let W1 := { W with msgs := Function.update W.msgs m (send_msg conv L type (W.msgs m)) }
          -- ret = queue_send(q, msg, timeout); if (!ret) free(msg);
          match queue_send W1 q m timeout with
          | none => none
          | some r =>
            let W2 := if r.2 = 0 then { r.1 with freed_msgs := r.1.freed_msgs ++ [m] } else r.1
            some (W2, lua_result.ret [lua_value.boolean (decide (r.2 ≠ 0))])

/-- The `switch` of `chan_recv`: what is pushed for a message, by its type tag. -/
def recv_push (M : msg_t) : lua_result :=
  if M.type = LUA_TSTRING then
    -- lua_pushlstring(L, msg->str, msg->str_len);
    match M.payload with
    | msg_payload.str bytes => lua_result.ret [lua_value.string (bytes.take M.str_len)]
    | _ => lua_result.undefined
  else if M.type = LUA_TNUMBER then
    match M.payload with
    | msg_payload.num x => lua_result.ret [lua_value.number x]
    | _ => lua_result.undefined
  else if M.type = LUA_TBOOLEAN then
    match M.payload with
    | msg_payload.bool_val b => lua_result.ret [lua_value.boolean (decide (b ≠ 0))]
    | _ => lua_result.undefined
  else lua_result.error (lua_pushstring "bad internal state")

/-- C `chan_recv`. -/
def chan_recv (conv : lua_conv) (W : World) (L : List lua_value) :
    Option (World × lua_result) :=
  match _lua_arg_queue L with
  | Except.error e => some (W, lua_result.error e)
  | Except.ok q =>
    match _lua_arg_integer conv L 2 true (-1) _usage_recv with
    | Except.error e => some (W, lua_result.error e)
    | Except.ok timeout =>
      match queue_recv W q timeout with
      | none => none
      | some r =>
        if r.2 ≠ 0 then
          match recv_push (r.1.msgs r.2) with
          | lua_result.ret pushed =>
            -- free (msg);
            some ({ r.1 with freed_msgs := r.1.freed_msgs ++ [r.2] }, lua_result.ret pushed)
          | other => some (r.1, other)
        else some (r.1, lua_result.ret [lua_value.nil])

/-- C `chan_new`; `q` is the block that `malloc` returns inside `queue_create`, and
`char_signed` tells how the platform reads the bytes of the name as `char`. -/
def chan_new (conv : lua_conv) (fuel : Nat) (char_signed : Bool) (W : World) (q : Nat)
    (L : List lua_value) : Option (World × lua_result) :=
  match _lua_arg_string conv L 1 none _usage_new with
  | Except.error e => some (W, lua_result.error e)
  | Except.ok name =>
    match _lua_arg_integer conv L 2 true 0 _usage_new with
    | Except.error e => some (W, lua_result.error e)
    | Except.ok limit =>
      match queues_add fuel (queue_create W q (as_chars char_signed name) limit) q with
      | none => none
      | some r =>
        if r.2 = 0 then
          match queue_destroy fuel r.1 q with
          | none => none
          | some W' =>
            some (W', lua_result.ret [lua_value.nil, lua_pushstring "chan name duplicated"])
        else some (r.1, lua_result.ret [lua_value.lightuserdata q])

/-! ## Locks -/

/-- Two message records carry the same value: they agree on the type tag, the
payload and the string length (the link `next` may differ). -/
def same_content (M M' : msg_t) : Prop :=
  M'.payload = M.payload ∧ M'.str_len = M.str_len ∧ M'.type = M.type

/-- No `queue_send` of the sequence of calls links a message while `count` is
`INT_MAX`: whenever a send is admitted (`limit < 0` or `count + 1 <= limit`),
`count` is below `INT_MAX`. -/
def count_in_range (q : Nat) : World → List QOp → Prop
  | _, [] => True
  | W, QOp.send msg timeout :: ops =>
    (((W.queues q).limit < 0 ∨ (W.queues q).count + 1 ≤ (W.queues q).limit) →
        (W.queues q).count < 2147483647) ∧
      ∀ r, queue_send W q msg timeout = some r → count_in_range q r.1 ops
  | W, QOp.recv timeout :: ops =>
    ∀ r, queue_recv W q timeout = some r → count_in_range q r.1 ops

/-- The calls `queue_send(q, m, 0)`, `queue_recv(q, 0)`, `k` times over. -/
def send_recv_pairs (m : Nat) : Nat → List QOp
  | 0 => []
  | k + 1 => QOp.send m 0 :: QOp.recv 0 :: send_recv_pairs m k

/-! ## Arithmetic of `int` -/

theorem wrap32_of_range (x : Int) (h1 : -2147483648 ≤ x) (h2 : x ≤ 2147483647) :
    wrap32 x = x := by
  unfold wrap32; omega

theorem wrap32_range (x : Int) : -2147483648 ≤ wrap32 x ∧ wrap32 x ≤ 2147483647 := by
  unfold wrap32; omega

theorem wrap32_add_wrap32 (x y : Int) : wrap32 (wrap32 x + y) = wrap32 (x + y) := by
  unfold wrap32; omega

/-! ## Chains of messages -/

theorem last_or_null_nil : last_or_null [] = 0 := rfl

theorem last_or_null_singleton (a : Nat) : last_or_null [a] = a := rfl

theorem last_or_null_cons_cons (a b : Nat) (l : List Nat) :
    last_or_null (a :: b :: l) = last_or_null (b :: l) := by
  simp [last_or_null]

theorem last_or_null_concat (l : List Nat) (a : Nat) : last_or_null (l ++ [a]) = a := by
  simp [last_or_null]

theorem last_or_null_mem (l : List Nat) (h : l ≠ []) : last_or_null l ∈ l := by
  induction l with
  | nil => exact absurd rfl h
  | cons a t ih =>
    cases t with
    | nil => simp [last_or_null]
    | cons b t =>
      rw [last_or_null_cons_cons]
      exact List.mem_cons_of_mem _ (ih (by simp))

/-- A chain does not contain `NULL`. -/
theorem msg_chain_zero_not_mem {M : Nat → msg_t} {l : List Nat} :
    ∀ {p : Nat}, MsgChain M p l → 0 ∉ l := by
  induction l with
  | nil => intro p _; simp
  | cons a t ih =>
    intro p h
    obtain ⟨_, ha, ht⟩ := h
    simp only [List.mem_cons, not_or]
    exact ⟨fun h0 => ha h0.symm, ih ht⟩

/-- The chain starting at an address is unique. -/
theorem MsgChain.unique {M : Nat → msg_t} {l₁ : List Nat} :
    ∀ {p : Nat} {l₂ : List Nat}, MsgChain M p l₁ → MsgChain M p l₂ → l₁ = l₂ := by
  induction l₁ with
  | nil =>
    intro p l₂ h1 h2
    cases l₂ with
    | nil => rfl
    | cons b t =>
      obtain ⟨hb, hb0, _⟩ := h2
      exact absurd (hb.symm.trans h1) hb0
  | cons a t ih =>
    intro p l₂ h1 h2
    obtain ⟨ha, ha0, ht⟩ := h1
    cases l₂ with
    | nil => exact absurd (ha.symm.trans h2) ha0
    | cons b t₂ =>
      obtain ⟨hb, _, ht₂⟩ := h2
      have hab : a = b := ha.symm.trans hb
      subst hab
      rw [ih ht ht₂]

/-- Writing a message that is not on the chain leaves the chain as it is. -/
theorem MsgChain.update_of_not_mem {M : Nat → msg_t} {l : List Nat} (x : Nat) (v : msg_t) :
    ∀ {p : Nat}, MsgChain M p l → x ∉ l → MsgChain (Function.update M x v) p l := by
  induction l with
  | nil => intro p h _; exact h
  | cons a t ih =>
    intro p h hx
    obtain ⟨ha, ha0, ht⟩ := h
    simp only [List.mem_cons, not_or] at hx
    refine ⟨ha, ha0, ?_⟩
    rw [Function.update_noteq (Ne.symm hx.1)]
    exact ih ht hx.2

/-- Pointing the last message of a chain at a fresh message whose `next` is `NULL`
extends the chain by that message. -/
theorem msg_chain_snoc {M : Nat → msg_t} {l : List Nat} (msg : Nat) (hm0 : msg ≠ 0)
    (hnext : (M msg).next = 0) :
    ∀ {p : Nat}, MsgChain M p l → l ≠ [] → l.Nodup → msg ∉ l →
      MsgChain (Function.update M (last_or_null l) { (M (last_or_null l)) with next := msg })
        p (l ++ [msg]) := by
  induction l with
  | nil => intro p _ h; exact absurd rfl h
  | cons a t ih =>
    intro p h _ hnd hml
    obtain ⟨ha, ha0, ht⟩ := h
    simp only [List.mem_cons, not_or] at hml
    cases t with
    | nil =>
      have h0 : (M a).next = 0 := ht
      refine ⟨ha, ha0, ?_⟩
      simp only [last_or_null_singleton, Function.update_same]
      refine ⟨rfl, hm0, ?_⟩
      rw [Function.update_noteq hml.1]
      exact hnext
    | cons b t =>
      rw [last_or_null_cons_cons]
      have hlast : last_or_null (b :: t) ∈ b :: t := last_or_null_mem _ (by simp)
      have hne : a ≠ last_or_null (b :: t) := by
        intro h
        rw [← h] at hlast
        exact (List.nodup_cons.mp hnd).1 hlast
      refine ⟨ha, ha0, ?_⟩
      rw [Function.update_noteq hne]
      exact ih ht (by simp) (List.nodup_cons.mp hnd).2 hml.2

/-! ## One call: `queue_send` -/

/-- The queue has room for one more message (the test of line 163). -/
theorem send_finish_reject (W : World) (q msg : Nat)
    (h : ¬ ((W.queues q).limit < 0 ∨ (W.queues q).count + 1 ≤ (W.queues q).limit)) :
    send_finish W q msg = (W, 0) := by
  simp only [send_finish, h, if_false]

theorem send_finish_ret (W : World) (q msg : Nat) (hm : msg ≠ 0)
    (h : (W.queues q).limit < 0 ∨ (W.queues q).count + 1 ≤ (W.queues q).limit) :
    (send_finish W q msg).2 = 1 := by
  simp only [send_finish, h, if_true, hm, ne_eq, not_false_eq_true]

theorem send_finish_queue (W : World) (q msg : Nat)
    (h : (W.queues q).limit < 0 ∨ (W.queues q).count + 1 ≤ (W.queues q).limit) :
    (send_finish W q msg).1.queues q =
      { (W.queues q) with
        msg_tail := msg
        msg_head := if (W.queues q).msg_head = 0 then msg else (W.queues q).msg_head
        count := wrap32 ((W.queues q).count + 1) } := by
  simp only [send_finish, h, if_true, Function.update_same]

theorem send_finish_limit (W : World) (q msg : Nat) :
    ((send_finish W q msg).1.queues q).limit = (W.queues q).limit := by
  by_cases h : (W.queues q).limit < 0 ∨ (W.queues q).count + 1 ≤ (W.queues q).limit
  · rw [send_finish_queue W q msg h]
  · rw [send_finish_reject W q msg h]

theorem send_finish_holds (W : World) (q msg : Nat) (l : List Nat) (hm : msg ≠ 0)
    (h : (W.queues q).limit < 0 ∨ (W.queues q).count + 1 ≤ (W.queues q).limit)
    (hl : Holds W q l) (hml : msg ∉ l) :
    Holds (send_finish W q msg).1 q (l ++ [msg]) := by
  obtain ⟨hc, hnd, ht⟩ := hl
  have hnd' : (l ++ [msg]).Nodup := by
    rw [List.nodup_append]
    refine ⟨hnd, List.nodup_singleton _, ?_⟩
    intro a ha hb
    rw [List.mem_singleton] at hb
    exact hml (hb ▸ ha)
  refine ⟨?_, hnd', ?_⟩
  · rw [send_finish_queue W q msg h]
    simp only [send_finish, h, if_true]
    cases l with
    | nil =>
      have hh : (W.queues q).msg_head = 0 := hc
      have htl : (W.queues q).msg_tail = 0 := ht
      simp only [hh, htl, ne_eq, not_true_eq_false, if_false, if_true, List.nil_append]
      exact ⟨rfl, hm, by simp [MsgChain]⟩
    | cons a t =>
      have hh : (W.queues q).msg_head = a := hc.1
      have ha0 : a ≠ 0 := hc.2.1
      have hlast : last_or_null (a :: t) ∈ a :: t := last_or_null_mem _ (by simp)
      have h0 : (0 : Nat) ∉ a :: t := msg_chain_zero_not_mem hc
      have htl0 : (W.queues q).msg_tail ≠ 0 := by
        rw [ht]; intro h; rw [h] at hlast; exact h0 hlast
      simp only [hh, ha0, htl0, ne_eq, not_false_eq_true, if_true, if_false]
      rw [ht]
      have hc1 : MsgChain (Function.update W.msgs msg { (W.msgs msg) with next := 0 })
          (W.queues q).msg_head (a :: t) := MsgChain.update_of_not_mem msg _ hc hml
      rw [hh] at hc1
      exact msg_chain_snoc msg hm (by simp) hc1 (by simp) hnd hml
  · rw [send_finish_queue W q msg h, last_or_null_concat]

/-! ## One call: `queue_recv` -/

theorem holds_congr {W W' : World} {q : Nat} {l : List Nat} (hm : W'.msgs = W.msgs)
    (hh : (W'.queues q).msg_head = (W.queues q).msg_head)
    (ht : (W'.queues q).msg_tail = (W.queues q).msg_tail) (h : Holds W q l) :
    Holds W' q l := by
  unfold Holds at *
  rw [hm, hh, ht]
  exact h

theorem recv_enter_msgs (W : World) (q : Nat) : (recv_enter W q).msgs = W.msgs := by
  unfold recv_enter
  simp only
  split <;> rfl

theorem recv_enter_queue (W : World) (q : Nat) :
    (recv_enter W q).queues q =
      { (W.queues q) with
        limit := if (W.queues q).limit ≥ 0 then wrap32 ((W.queues q).limit + 1)
          else (W.queues q).limit } := by
  unfold recv_enter
  split <;> simp [*]

theorem recv_revoke_msgs (W : World) (q : Nat) : (recv_revoke W q).msgs = W.msgs := by
  unfold recv_revoke
  simp only
  split <;> rfl

theorem recv_revoke_queue (W : World) (q : Nat) :
    (recv_revoke W q).queues q =
      { (W.queues q) with
        limit := if (W.queues q).limit > 0 then wrap32 ((W.queues q).limit - 1)
          else (W.queues q).limit } := by
  unfold recv_revoke
  split <;> simp [*]

theorem recv_enter_holds {W : World} {q : Nat} {l : List Nat} (h : Holds W q l) :
    Holds (recv_enter W q) q l :=
  holds_congr (recv_enter_msgs W q) (by rw [recv_enter_queue]) (by rw [recv_enter_queue]) h

theorem recv_revoke_holds {W : World} {q : Nat} {l : List Nat} (h : Holds W q l) :
    Holds (recv_revoke W q) q l :=
  holds_congr (recv_revoke_msgs W q) (by rw [recv_revoke_queue]) (by rw [recv_revoke_queue]) h

/-- Nothing to take: `count <= 0`. -/
theorem recv_dequeue_empty (W : World) (q : Nat) (h : (W.queues q).count ≤ 0) :
    recv_dequeue W q = (W, 0) := by
  have h' : ¬ (W.queues q).count > 0 := not_lt.mpr h
  simp only [recv_dequeue, h', if_false]

theorem recv_dequeue_limit (W : World) (q : Nat) :
    ((recv_dequeue W q).1.queues q).limit = (W.queues q).limit := by
  unfold recv_dequeue
  simp only
  split
  · split <;> simp
  · rfl

theorem recv_dequeue_count (W : World) (q : Nat) (h : (W.queues q).count > 0) :
    ((recv_dequeue W q).1.queues q).count = wrap32 ((W.queues q).count - 1) := by
  unfold recv_dequeue
  simp only [h, if_true]
  split <;> simp

/-- With `count > 0` and the messages `a :: l` in the queue, the head `a` is returned
and `l` stays. -/
theorem recv_dequeue_holds (W : World) (q a : Nat) (l : List Nat)
    (h : (W.queues q).count > 0) (hl : Holds W q (a :: l)) :
    (recv_dequeue W q).2 = a ∧ Holds (recv_dequeue W q).1 q l := by
  obtain ⟨hc, hnd, ht⟩ := hl
  obtain ⟨hh, ha0, hrest⟩ := hc
  have hh0 : (W.queues q).msg_head ≠ 0 := by rw [hh]; exact ha0
  have hal : a ∉ l := (List.nodup_cons.mp hnd).1
  refine ⟨?_, ?_, (List.nodup_cons.mp hnd).2, ?_⟩
  · simp only [recv_dequeue, h, if_true, hh0, ne_eq, not_false_eq_true]
    exact hh
  · simp only [recv_dequeue, h, if_true, hh0, ne_eq, not_false_eq_true, Function.update_same]
    rw [hh]
    exact MsgChain.update_of_not_mem a _ hrest hal
  · simp only [recv_dequeue, h, if_true, hh0, ne_eq, not_false_eq_true, Function.update_same]
    rw [hh]
    cases l with
    | nil =>
      have : (W.msgs a).next = 0 := hrest
      simp [this, last_or_null]
    | cons b t =>
      have hb : (W.msgs a).next = b := hrest.1
      have hb0 : b ≠ 0 := hrest.2.1
      simp only [hb, hb0, if_false]
      rw [ht, last_or_null_cons_cons]

/-- With `count > 0` but no message linked, `NULL` is returned and only `count`
changes. -/
theorem recv_dequeue_holds_nil (W : World) (q : Nat) (hl : Holds W q []) :
    (recv_dequeue W q).2 = 0 ∧ Holds (recv_dequeue W q).1 q [] := by
  have hh : (W.queues q).msg_head = 0 := hl.1
  by_cases hc : (W.queues q).count > 0
  · have e : recv_dequeue W q =
        ({ W with queues := (Function.update W.queues q
            { (W.queues q) with count := wrap32 ((W.queues q).count - 1) }) }, 0) := by
      simp only [recv_dequeue, hc, if_true, hh, ne_eq, not_true_eq_false, if_false]
    rw [e]
    exact ⟨rfl, holds_congr (W := W) rfl (by simp) (by simp) hl⟩
  · rw [recv_dequeue_empty W q (not_lt.mp hc)]
    exact ⟨rfl, hl⟩

/-! ## When the calls return -/

theorem queue_send_zero (W : World) (q msg : Nat) :
    queue_send W q msg 0 = some (send_finish W q msg) := by
  simp [queue_send]

theorem queue_send_admit (W : World) (q msg : Nat) (timeout : Int)
    (h : (W.queues q).limit < 0 ∨ (W.queues q).count + 1 ≤ (W.queues q).limit) :
    queue_send W q msg timeout = some (send_finish W q msg) := by
  have hb : send_blocked (W.queues q) = false := by
    unfold send_blocked
    rcases h with h | h
    · simp [not_le.mpr h]
    · simp [not_lt.mpr h]
  simp [queue_send, hb]

theorem queue_send_timed (W : World) (q msg : Nat) (timeout : Int) (h : 0 ≤ timeout) :
    queue_send W q msg timeout = some (send_finish W q msg) := by
  unfold queue_send
  split
  · rename_i hc
    have : timeout > 0 := lt_of_le_of_ne h (Ne.symm hc.1)
    simp [this]
  · rfl

theorem queue_recv_zero (W : World) (q : Nat) :
    queue_recv W q 0 = some (recv_finish (recv_enter W q) q) := by
  simp [queue_recv]

theorem queue_recv_nonempty (W : World) (q : Nat) (timeout : Int)
    (h : (W.queues q).count > 0) :
    queue_recv W q timeout = some (recv_finish (recv_enter W q) q) := by
  have hb : recv_blocked ((recv_enter W q).queues q) = false := by
    rw [recv_enter_queue]
    simp [recv_blocked, h]
  simp [queue_recv, hb]

theorem queue_recv_timed (W : World) (q : Nat) (timeout : Int) (h : 0 ≤ timeout) :
    queue_recv W q timeout = some (recv_finish (recv_enter W q) q) := by
  unfold queue_recv
  simp only
  split
  · rename_i hc
    have : timeout > 0 := lt_of_le_of_ne h (Ne.symm hc.1)
    simp [this]
  · rfl

/-- Whenever `queue_send` returns, it returns what lines 163-180 compute. -/
theorem queue_send_some (W : World) (q msg : Nat) (timeout : Int) (r : World × Int)
    (h : queue_send W q msg timeout = some r) : r = send_finish W q msg := by
  unfold queue_send at h
  split at h
  · split at h
    · exact (Option.some.inj h).symm
    · exact absurd h (by simp)
  · exact (Option.some.inj h).symm

/-- Whenever `queue_recv` returns, it returns what lines 189-193 and 208-226
compute. -/
theorem queue_recv_some (W : World) (q : Nat) (timeout : Int) (r : World × Nat)
    (h : queue_recv W q timeout = some r) : r = recv_finish (recv_enter W q) q := by
  unfold queue_recv at h
  simp only at h
  split at h
  · split at h
    · exact (Option.some.inj h).symm
    · exact absurd h (by simp)
  · exact (Option.some.inj h).symm

/-! ## The body of `queue_recv` as a whole -/

theorem recv_dequeue_ret (W : World) (q : Nat) (h : (W.queues q).count > 0) :
    (recv_dequeue W q).2 = (W.queues q).msg_head := by
  unfold recv_dequeue
  simp only [h, if_true]
  split <;> rfl

/-- With `count > 0` the body of `queue_recv` returns the head pointer. -/
theorem recv_body_ret (W : World) (q : Nat) (h : (W.queues q).count > 0) :
    (recv_finish (recv_enter W q) q).2 = (W.queues q).msg_head := by
  have hc : ((recv_enter W q).queues q).count > 0 := by rw [recv_enter_queue]; exact h
  unfold recv_finish
  simp only
  rw [recv_dequeue_ret _ q hc, recv_enter_queue]

theorem recv_finish_limit (W : World) (q : Nat) :
    ((recv_finish W q).1.queues q).limit =
      if (W.queues q).limit > 0 then wrap32 ((W.queues q).limit - 1) else (W.queues q).limit := by
  unfold recv_finish
  simp only
  rw [recv_revoke_queue, recv_dequeue_limit]

theorem recv_body_limit (W : World) (q : Nat) :
    ((recv_finish (recv_enter W q) q).1.queues q).limit =
      if (if (W.queues q).limit ≥ 0 then wrap32 ((W.queues q).limit + 1)
          else (W.queues q).limit) > 0
      then wrap32 ((if (W.queues q).limit ≥ 0 then wrap32 ((W.queues q).limit + 1)
          else (W.queues q).limit) - 1)
      else (if (W.queues q).limit ≥ 0 then wrap32 ((W.queues q).limit + 1)
          else (W.queues q).limit) := by
  rw [recv_finish_limit, recv_enter_queue]

/-- The credit is given back: below `INT_MAX` the limit after the body equals the
limit before. -/
theorem recv_body_limit_restored (W : World) (q : Nat) (h : (W.queues q).limit < 2147483647) :
    ((recv_finish (recv_enter W q) q).1.queues q).limit = (W.queues q).limit := by
  rw [recv_body_limit]
  by_cases h0 : (W.queues q).limit ≥ 0
  · have e : wrap32 ((W.queues q).limit + 1) = (W.queues q).limit + 1 :=
      wrap32_of_range _ (by omega) (by omega)
    simp only [h0, if_true, e]
    have hp : (W.queues q).limit + 1 > 0 := by omega
    simp only [hp, if_true]
    rw [wrap32_of_range _ (by omega) (by omega)]
    omega
  · have hn : ¬ (W.queues q).limit > 0 := by omega
    simp only [h0, if_false, hn]

theorem recv_body_count_empty (W : World) (q : Nat) (h : (W.queues q).count ≤ 0) :
    ((recv_finish (recv_enter W q) q).1.queues q).count = (W.queues q).count := by
  have hc : ((recv_enter W q).queues q).count ≤ 0 := by rw [recv_enter_queue]; exact h
  unfold recv_finish
  simp only
  rw [recv_revoke_queue, recv_dequeue_empty _ q hc, recv_enter_queue]

theorem recv_body_count (W : World) (q : Nat) (h : (W.queues q).count > 0) :
    ((recv_finish (recv_enter W q) q).1.queues q).count = wrap32 ((W.queues q).count - 1) := by
  have hc : ((recv_enter W q).queues q).count > 0 := by rw [recv_enter_queue]; exact h
  unfold recv_finish
  simp only
  rw [recv_revoke_queue]
  simp only
  rw [recv_dequeue_count _ q hc, recv_enter_queue]

theorem recv_body_ret_empty (W : World) (q : Nat) (h : (W.queues q).count ≤ 0) :
    (recv_finish (recv_enter W q) q).2 = 0 := by
  have hc : ((recv_enter W q).queues q).count ≤ 0 := by rw [recv_enter_queue]; exact h
  unfold recv_finish
  simp only
  rw [recv_dequeue_empty _ q hc]

theorem recv_body_holds_empty (W : World) (q : Nat) (l : List Nat)
    (h : (W.queues q).count ≤ 0) (hl : Holds W q l) :
    Holds (recv_finish (recv_enter W q) q).1 q l := by
  have hc : ((recv_enter W q).queues q).count ≤ 0 := by rw [recv_enter_queue]; exact h
  unfold recv_finish
  simp only
  rw [recv_dequeue_empty _ q hc]
  exact recv_revoke_holds (recv_enter_holds hl)

theorem recv_body_holds_cons (W : World) (q a : Nat) (l : List Nat)
    (h : (W.queues q).count > 0) (hl : Holds W q (a :: l)) :
    (recv_finish (recv_enter W q) q).2 = a ∧ Holds (recv_finish (recv_enter W q) q).1 q l := by
  have hc : ((recv_enter W q).queues q).count > 0 := by rw [recv_enter_queue]; exact h
  have hd := recv_dequeue_holds (recv_enter W q) q a l hc (recv_enter_holds hl)
  unfold recv_finish
  exact ⟨hd.1, recv_revoke_holds hd.2⟩

theorem recv_body_holds_nil (W : World) (q : Nat) (hl : Holds W q []) :
    (recv_finish (recv_enter W q) q).2 = 0 ∧ Holds (recv_finish (recv_enter W q) q).1 q [] := by
  have hd := recv_dequeue_holds_nil (recv_enter W q) q (recv_enter_holds hl)
  unfold recv_finish
  exact ⟨hd.1, recv_revoke_holds hd.2⟩

/-- What the body of `queue_recv` does to the queue contents, whatever `count` says:
either `NULL` is returned and the contents stay, or the first message is returned
and the rest stays. -/
theorem recv_body_cases (W : World) (q : Nat) (l : List Nat) (hl : Holds W q l) :
    ((recv_finish (recv_enter W q) q).2 = 0 ∧ Holds (recv_finish (recv_enter W q) q).1 q l) ∨
    (∃ a t, l = a :: t ∧ a ≠ 0 ∧ (recv_finish (recv_enter W q) q).2 = a ∧
      Holds (recv_finish (recv_enter W q) q).1 q t) := by
  by_cases hc : (W.queues q).count > 0
  · cases l with
    | nil => exact Or.inl (recv_body_holds_nil W q hl)
    | cons a t =>
      have h := recv_body_holds_cons W q a t hc hl
      exact Or.inr ⟨a, t, rfl, hl.1.2.1, h.1, h.2⟩
  · have hc' : (W.queues q).count ≤ 0 := not_lt.mp hc
    exact Or.inl ⟨recv_body_ret_empty W q hc', recv_body_holds_empty W q l hc' hl⟩

/-! ## Sequences of calls -/

theorem queue_create_queue (W : World) (q : Nat) (name : List Int) (limit : Int) :
    (queue_create W q name limit).queues q =
      { (W.queues q) with
        name := cstr name, msg_head := 0, msg_tail := 0, limit := limit, count := 0
        prev := 0, next := 0, refs := 1 } := by
  simp [queue_create]

theorem queue_create_holds (W : World) (q : Nat) (name : List Int) (limit : Int) :
    Holds (queue_create W q name limit) q [] := by
  refine ⟨?_, List.nodup_nil, ?_⟩
  · show ((queue_create W q name limit).queues q).msg_head = 0
    rw [queue_create_queue]
  · rw [queue_create_queue]; rfl

theorem not_mem_of_not_linked {W : World} {q m : Nat} {l : List Nat} (hl : Holds W q l)
    (h : ¬ Linked W q m) : m ∉ l :=
  fun hm => h ⟨l, hl.1, hm⟩

/-- FIFO invariant of a run on an unbounded queue: the messages sent so far are the
non-`NULL` messages received so far followed by the messages still queued. -/
theorem run_ops_fifo (q : Nat) : ∀ (ops : List QOp) (W : World) (log : QLog) (l pre : List Nat),
    (W.queues q).limit < 0 → Holds W q l → ops_ok q W ops →
    (∀ t, QOp.recv t ∈ ops → t = 0) → (∀ r ∈ log.sends, r = 1) →
    pre = log.recvs.filter (fun m => decide (m ≠ 0)) ++ l →
    ∃ W' log' l', run_ops q W log ops = some (W', log') ∧ (∀ r ∈ log'.sends, r = 1) ∧
      log'.sends.length = log.sends.length + (sent_msgs ops).length ∧
      Holds W' q l' ∧
      pre ++ sent_msgs ops = log'.recvs.filter (fun m => decide (m ≠ 0)) ++ l' := by
  intro ops
  induction ops with
  | nil =>
    intro W log l pre _ hl _ _ hs hpre
    exact ⟨W, log, l, rfl, hs, by simp [sent_msgs], hl, by simp [sent_msgs, hpre]⟩
  | cons op ops ih =>
    intro W log l pre hlim hl hok hrecv hs hpre
    cases op with
    | send msg timeout =>
      obtain ⟨hm0, hnl, hcont⟩ := hok
      have hml : msg ∉ l := not_mem_of_not_linked hl hnl
      have hadm : (W.queues q).limit < 0 ∨
          (W.queues q).count + 1 ≤ (W.queues q).limit := Or.inl hlim
      have hsend := queue_send_admit W q msg timeout hadm
      have hret := send_finish_ret W q msg hm0 hadm
      have hW1 := send_finish_holds W q msg l hm0 hadm hl hml
      have hlim1 : ((send_finish W q msg).1.queues q).limit < 0 := by
        rw [send_finish_limit]; exact hlim
      obtain ⟨W', log', l', hrun, hs', hlen, hl', hpre'⟩ :=
        ih (send_finish W q msg).1
          { log with sends := log.sends ++ [(send_finish W q msg).2] } (l ++ [msg])
          (pre ++ [msg]) hlim1 hW1 (hcont _ hsend)
          (fun t ht => hrecv t (List.mem_cons_of_mem _ ht))
          (by
            intro r hr
            simp only [List.mem_append, List.mem_singleton] at hr
            rcases hr with hr | hr
            · exact hs r hr
            · rw [hr, hret])
          (by simp [hpre])
      refine ⟨W', log', l', ?_, hs', ?_, hl', ?_⟩
      · simp only [run_ops, hsend]
        exact hrun
      · simp only [List.length_append, List.length_singleton] at hlen
        simp only [sent_msgs, List.length_cons]
        omega
      · simp only [sent_msgs]
        rw [← hpre']
        simp
    | recv timeout =>
      have ht0 : timeout = 0 := hrecv timeout (List.mem_cons_self _ _)
      subst ht0
      have hrecv0 := queue_recv_zero W q
      have hlim1 : ((recv_finish (recv_enter W q) q).1.queues q).limit < 0 := by
        rw [recv_body_limit_restored W q (by omega)]; exact hlim
      have hok1 : ops_ok q (recv_finish (recv_enter W q) q).1 ops := hok _ hrecv0
      have hrecv1 : ∀ t, QOp.recv t ∈ ops → t = 0 :=
        fun t ht => hrecv t (List.mem_cons_of_mem _ ht)
      rcases recv_body_cases W q l hl with ⟨hr, hl1⟩ | ⟨a, t, hlt, ha0, hr, hl1⟩
      · obtain ⟨W', log', l', hrun, hs', hlen, hl', hpre'⟩ :=
          ih (recv_finish (recv_enter W q) q).1
            { log with recvs := log.recvs ++ [(recv_finish (recv_enter W q) q).2] } l pre
            hlim1 hl1 hok1 hrecv1 hs (by simp [hpre, hr])
        refine ⟨W', log', l', ?_, hs', ?_, hl', ?_⟩
        · simp only [run_ops, hrecv0]
          exact hrun
        · simpa [sent_msgs] using hlen
        · simpa [sent_msgs] using hpre'
      · obtain ⟨W', log', l', hrun, hs', hlen, hl', hpre'⟩ :=
          ih (recv_finish (recv_enter W q) q).1
            { log with recvs := log.recvs ++ [(recv_finish (recv_enter W q) q).2] } t pre
            hlim1 hl1 hok1 hrecv1 hs (by simp [hpre, hr, hlt, ha0])
        refine ⟨W', log', l', ?_, hs', ?_, hl', ?_⟩
        · simp only [run_ops, hrecv0]
          exact hrun
        · simpa [sent_msgs] using hlen
        · simpa [sent_msgs] using hpre'

theorem run_ops_append (q : Nat) : ∀ (ops₁ ops₂ : List QOp) (W : World) (log : QLog),
    run_ops q W log (ops₁ ++ ops₂) =
      (run_ops q W log ops₁).bind (fun r => run_ops q r.1 r.2 ops₂) := by
  intro ops₁
  induction ops₁ with
  | nil => intro ops₂ W log; rfl
  | cons op ops ih =>
    intro ops₂ W log
    cases op with
    | send msg timeout =>
      simp only [List.cons_append, run_ops]
      cases queue_send W q msg timeout with
      | none => rfl
      | some r => exact ih ops₂ _ _
    | recv timeout =>
      simp only [List.cons_append, run_ops]
      cases queue_recv W q timeout with
      | none => rfl
      | some r => exact ih ops₂ _ _

/-- A run of sends that are all admitted (unbounded queue, or enough room): every
call returns 1, `count` goes up by the number of calls (as an `int`), the limit
stays, and the messages are appended in call order. -/
theorem run_sends (q : Nat) : ∀ (ss : List (Nat × Int)) (W : World) (log : QLog),
    (-2147483648 ≤ (W.queues q).count ∧ (W.queues q).count ≤ 2147483647) →
    ((W.queues q).limit < 0 ∨
      (0 ≤ (W.queues q).count ∧ (W.queues q).count + ss.length ≤ (W.queues q).limit ∧
        (W.queues q).limit ≤ 2147483647)) →
    (∀ s ∈ ss, s.1 ≠ 0) →
    ∃ W', run_ops q W log (ss.map (fun s => QOp.send s.1 s.2)) =
        some (W', { log with sends := log.sends ++ List.replicate ss.length 1 }) ∧
      (W'.queues q).count = wrap32 ((W.queues q).count + ss.length) ∧
      (W'.queues q).limit = (W.queues q).limit ∧
      (∀ l, Holds W q l → (l ++ ss.map Prod.fst).Nodup → Holds W' q (l ++ ss.map Prod.fst)) := by
  intro ss
  induction ss with
  | nil =>
    intro W log hr _ _
    refine ⟨W, by simp [run_ops], ?_, rfl, ?_⟩
    · simp only [List.length_nil, Nat.cast_zero, add_zero]
      exact (wrap32_of_range _ hr.1 hr.2).symm
    · intro l hl _
      simpa using hl
  | cons s ss ih =>
    intro W log hr hadm hnz
    have hs0 : s.1 ≠ 0 := hnz s (List.mem_cons_self _ _)
    have hlen : ((s :: ss).length : Int) = (ss.length : Int) + 1 := by
      simp only [List.length_cons, Nat.cast_add, Nat.cast_one]
    have hadm1 : (W.queues q).limit < 0 ∨
        (W.queues q).count + 1 ≤ (W.queues q).limit := by
      rcases hadm with h | ⟨h0, h1, h2⟩
      · exact Or.inl h
      · right
        omega
    have hsend := queue_send_admit W q s.1 s.2 hadm1
    have hret := send_finish_ret W q s.1 hs0 hadm1
    have hq := send_finish_queue W q s.1 hadm1
    have hcount : ((send_finish W q s.1).1.queues q).count = wrap32 ((W.queues q).count + 1) := by
      rw [hq]
    have hlimit := send_finish_limit W q s.1
    have hr1 := wrap32_range ((W.queues q).count + 1)
    obtain ⟨W', hrun, hc', hl', hh'⟩ := ih (send_finish W q s.1).1
      { log with sends := log.sends ++ [(send_finish W q s.1).2] }
      (by rw [hcount]; exact hr1)
      (by
        rw [hcount, hlimit]
        rcases hadm with h | ⟨h0, h1, h2⟩
        · exact Or.inl h
        · right
          rw [wrap32_of_range _ (by omega) (by omega)]
          omega)
      (fun x hx => hnz x (List.mem_cons_of_mem _ hx))
    refine ⟨W', ?_, ?_, ?_, ?_⟩
    · simp only [List.map_cons, run_ops, hsend]
      rw [hrun, hret]
      simp [List.replicate_succ, List.append_assoc]
    · rw [hc', hcount, wrap32_add_wrap32, hlen]
      congr 1
      omega
    · rw [hl', hlimit]
    · intro l hl hnd
      have hnd' : ((l ++ [s.1]) ++ ss.map Prod.fst).Nodup := by
        simpa [List.append_assoc] using hnd
      have hml : s.1 ∉ l := by
        intro hmem
        have := List.nodup_append.mp hnd
        exact this.2.2 hmem (by simp)
      have := hh' (l ++ [s.1]) (send_finish_holds W q s.1 l hs0 hadm1 hl hml) hnd'
      simpa [List.append_assoc] using this

/-- Draining: with `count` equal to the number of queued messages, that many
receives return the messages head first and leave the queue empty. -/
theorem run_recvs (q : Nat) : ∀ (l : List Nat) (W : World) (log : QLog),
    Holds W q l → (W.queues q).count = l.length → l.length ≤ 2147483647 →
    ∃ W', run_ops q W log (List.replicate l.length (QOp.recv 0)) =
        some (W', { log with recvs := log.recvs ++ l }) ∧
      Holds W' q [] ∧ (W'.queues q).count = 0 := by
  intro l
  induction l with
  | nil =>
    intro W log hl hc _
    exact ⟨W, by simp [run_ops], hl, by simpa using hc⟩
  | cons a t ih =>
    intro W log hl hc hlen
    simp only [List.length_cons, Nat.cast_add, Nat.cast_one] at hc hlen
    have hpos : (W.queues q).count > 0 := by omega
    have hb := recv_body_holds_cons W q a t hpos hl
    have hcnt := recv_body_count W q hpos
    rw [wrap32_of_range _ (by omega) (by omega)] at hcnt
    obtain ⟨W', hrun, hl', hc'⟩ := ih (recv_finish (recv_enter W q) q).1
      { log with recvs := log.recvs ++ [(recv_finish (recv_enter W q) q).2] }
      hb.2 (by rw [hcnt, hc]; omega) (by omega)
    refine ⟨W', ?_, hl', hc'⟩
    simp only [List.length_cons, List.replicate_succ, run_ops, queue_recv_zero]
    rw [hrun, hb.1]
    simp [List.append_assoc]

/-- Receives on a queue whose `count` is not positive all return `NULL`. -/
theorem run_recvs_empty (q : Nat) : ∀ (n : Nat) (W : World) (log : QLog),
    (W.queues q).count ≤ 0 →
    ∃ W', run_ops q W log (List.replicate n (QOp.recv 0)) =
        some (W', { log with recvs := log.recvs ++ List.replicate n 0 }) := by
  intro n
  induction n with
  | zero => intro W log _; exact ⟨W, by simp [run_ops]⟩
  | succ n ih =>
    intro W log hc
    obtain ⟨W', hrun⟩ := ih (recv_finish (recv_enter W q) q).1
      { log with recvs := log.recvs ++ [(recv_finish (recv_enter W q) q).2] }
      (by rw [recv_body_count_empty W q hc]; exact hc)
    refine ⟨W', ?_⟩
    simp only [List.replicate_succ, run_ops, queue_recv_zero]
    rw [hrun, recv_body_ret_empty W q hc]
    simp [List.append_assoc]

theorem not_linked_of_holds {W : World} {q m : Nat} {l : List Nat} (hl : Holds W q l)
    (h : m ∉ l) : ¬ Linked W q m := by
  rintro ⟨l', hc, hm⟩
  rw [MsgChain.unique hl.1 hc] at h
  exact h hm

/-- Callers that never hand over `NULL` and never hand over the same message twice
keep their side of the contract. -/
theorem ops_ok_of_nodup (q : Nat) : ∀ (ops : List QOp) (W : World) (l : List Nat),
    Holds W q l → (∀ m ∈ sent_msgs ops, m ≠ 0) → (l ++ sent_msgs ops).Nodup →
    ops_ok q W ops := by
  intro ops
  induction ops with
  | nil => intro W l _ _ _; trivial
  | cons op ops ih =>
    intro W l hl hnz hnd
    cases op with
    | send msg timeout =>
      simp only [sent_msgs] at hnz hnd
      have hm0 : msg ≠ 0 := hnz msg (List.mem_cons_self _ _)
      have hml : msg ∉ l := by
        intro hmem
        exact (List.nodup_append.mp hnd).2.2 hmem (List.mem_cons_self _ _)
      refine ⟨hm0, not_linked_of_holds hl hml, ?_⟩
      intro r hr
      rw [queue_send_some W q msg timeout r hr]
      have hnz' : ∀ m ∈ sent_msgs ops, m ≠ 0 := fun m hm => hnz m (List.mem_cons_of_mem _ hm)
      by_cases hadm : (W.queues q).limit < 0 ∨
          (W.queues q).count + 1 ≤ (W.queues q).limit
      · exact ih _ (l ++ [msg]) (send_finish_holds W q msg l hm0 hadm hl hml) hnz'
          (by simpa [List.append_assoc] using hnd)
      · rw [send_finish_reject W q msg hadm]
        refine ih W l hl hnz' ?_
        have hsub : (l ++ sent_msgs ops).Sublist (l ++ msg :: sent_msgs ops) :=
          List.Sublist.append_left (List.sublist_cons_self _ _) l
        exact hnd.sublist hsub
    | recv timeout =>
      simp only [sent_msgs] at hnz hnd
      intro r hr
      rw [queue_recv_some W q timeout r hr]
      rcases recv_body_cases W q l hl with ⟨_, hl1⟩ | ⟨a, t, hlt, _, _, hl1⟩
      · exact ih _ l hl1 hnz hnd
      · refine ih _ t hl1 hnz ?_
        rw [hlt] at hnd
        exact (List.nodup_cons.mp hnd).2

/-- C1 (as amended): on a queue created with `limit < 0`, for every sequence of
`queue_send` calls (any timeout, each handing over a non-`NULL` message that is
not in the queue) and `queue_recv` calls with timeout 0, all calls return, every
`queue_send` returns 1, and the non-`NULL` messages returned by `queue_recv` are
a prefix of the messages sent, in the same order; and for `k ≤ INT_MAX`, `k`
sends of distinct messages followed by `k` receives return exactly those
messages in that order. -/
theorem fifo_unbounded (W0 : World) (q : Nat) (name : List Int) (limit : Int)
    (hlim : limit < 0) :
    (∀ ops : List QOp, (∀ t, QOp.recv t ∈ ops → t = 0) →
      ops_ok q (queue_create W0 q name limit) ops →
      ∃ W' log, run_ops q (queue_create W0 q name limit) {} ops = some (W', log) ∧
        log.sends = List.replicate (sent_msgs ops).length 1 ∧
        log.recvs.filter (fun m => decide (m ≠ 0)) <+: sent_msgs ops) ∧
    (∀ ss : List (Nat × Int), ss.length ≤ 2147483647 → (ss.map Prod.fst).Nodup →
      (∀ s ∈ ss, s.1 ≠ 0) →
      ∃ W', run_ops q (queue_create W0 q name limit) {}
          (ss.map (fun s => QOp.send s.1 s.2) ++ List.replicate ss.length (QOp.recv 0)) =
        some (W', { sends := List.replicate ss.length 1, recvs := ss.map Prod.fst })) := by
  have hq := queue_create_queue W0 q name limit
  have hlim0 : ((queue_create W0 q name limit).queues q).limit < 0 := by rw [hq]; exact hlim
  have hcount0 : ((queue_create W0 q name limit).queues q).count = 0 := by rw [hq]
  constructor
  · intro ops hrecv hok
    obtain ⟨W', log', l', hrun, hs, hlen, _, hpre⟩ :=
      run_ops_fifo q ops (queue_create W0 q name limit) {} [] [] hlim0
        (queue_create_holds W0 q name limit) hok hrecv (by simp) (by simp)
    refine ⟨W', log', hrun, ?_, ?_⟩
    · rw [List.eq_replicate_iff]
      exact ⟨by simpa using hlen, hs⟩
    · simp only [List.nil_append] at hpre
      exact ⟨l', hpre.symm⟩
  · intro ss hk hnd hnz
    obtain ⟨W1, hrun1, hc1, _, hh1⟩ := run_sends q ss (queue_create W0 q name limit) {}
      (by rw [hcount0]; omega) (Or.inl hlim0) hnz
    have hl1 : Holds W1 q (ss.map Prod.fst) := by
      have := hh1 [] (queue_create_holds W0 q name limit) (by simpa using hnd)
      simpa using this
    rw [hcount0, zero_add, wrap32_of_range _ (by omega) (by omega)] at hc1
    obtain ⟨W2, hrun2, _, _⟩ := run_recvs q (ss.map Prod.fst) W1
      { sends := [] ++ List.replicate ss.length 1, recvs := [] } hl1
      (by rw [hc1]; simp) (by simpa using hk)
    refine ⟨W2, ?_⟩
    rw [run_ops_append, hrun1]
    simp only [Option.some_bind, List.length_map] at hrun2 ⊢
    simpa using hrun2

/-- On a fresh unbounded queue, `n` sends with `n = 2^31` leave `count` at `INT_MIN`,
and the `n` receives that follow all return `NULL`. -/
theorem fifo_wraps_general (ss : List (Nat × Int)) (n : Nat) (hlen : ss.length = n)
    (hn : (n : Int) = 2147483648) (hnz : ∀ s ∈ ss, s.1 ≠ 0) :
    ∃ W', run_ops 1 (queue_create World.init 1 [] (-1)) {}
        (ss.map (fun s => QOp.send s.1 s.2) ++ List.replicate n (QOp.recv 0)) =
      some (W', { sends := List.replicate n 1, recvs := List.replicate n 0 }) := by
  have hq := queue_create_queue World.init 1 [] (-1)
  have hlim0 : ((queue_create World.init 1 [] (-1)).queues 1).limit < 0 := by rw [hq]; decide
  have hcount0 : ((queue_create World.init 1 [] (-1)).queues 1).count = 0 := by rw [hq]
  obtain ⟨W1, hrun1, hc1, _, _⟩ := run_sends 1 ss (queue_create World.init 1 [] (-1)) {}
    (by rw [hcount0]; omega) (Or.inl hlim0) hnz
  rw [hcount0, zero_add, hlen, hn] at hc1
  have hneg : (W1.queues 1).count ≤ 0 := by
    rw [hc1]; unfold wrap32; omega
  obtain ⟨W2, hrun2⟩ := run_recvs_empty 1 n W1
    { sends := [] ++ List.replicate n 1, recvs := [] } hneg
  refine ⟨W2, ?_⟩
  rw [run_ops_append, hrun1, hlen]
  simpa using hrun2

/-- C1, counterexample to the claim as stated: `k = 2^31` sends of the distinct
messages `1 .. 2^31` on a fresh unbounded queue all return 1, and the `k`
receives that follow return `NULL` every time instead of the messages sent
(`count` has wrapped to `INT_MIN`). -/
theorem fifo_unbounded_counterexample :
    ∃ W', run_ops 1 (queue_create World.init 1 [] (-1)) {}
        (((List.range' 1 2147483648).map (fun m => (m, (0 : Int)))).map
            (fun s => QOp.send s.1 s.2) ++
          List.replicate 2147483648 (QOp.recv 0)) =
      some (W', { sends := List.replicate 2147483648 1,
                  recvs := List.replicate 2147483648 0 }) :=
  fifo_wraps_general _ 2147483648
    (by rw [List.length_map, List.length_range'])
    (by norm_num)
    (by
      intro s hs
      rw [List.mem_map] at hs
      obtain ⟨m, hm, rfl⟩ := hs
      rw [List.mem_range'_1] at hm
      exact Nat.pos_iff_ne_zero.mp hm.1)

/-- C1, witness: three sends with three different timeouts, interleaved with
receives, and the three-sends-three-receives run. -/
theorem fifo_unbounded_witness :
    (∃ W' log, run_ops 1 (queue_create World.init 1 [120] (-1)) {}
        [QOp.send 5 (-1), QOp.recv 0, QOp.send 7 0, QOp.send 9 3, QOp.recv 0] =
          some (W', log) ∧
        log.sends = List.replicate 3 1 ∧
        log.recvs.filter (fun m => decide (m ≠ 0)) <+: [5, 7, 9]) ∧
    (∃ W', run_ops 1 (queue_create World.init 1 [120] (-1)) {}
        ([QOp.send 5 (-1), QOp.send 7 0, QOp.send 9 3] ++ List.replicate 3 (QOp.recv 0)) =
      some (W', { sends := [1, 1, 1], recvs := [5, 7, 9] })) :=
  ⟨(fifo_unbounded World.init 1 [120] (-1) (by decide)).1
      [QOp.send 5 (-1), QOp.recv 0, QOp.send 7 0, QOp.send 9 3, QOp.recv 0]
      (by intro t ht; simp at ht; exact ht)
      (ops_ok_of_nodup 1 _ _ [] (queue_create_holds _ _ _ _) (by decide) (by decide)),
   (fifo_unbounded World.init 1 [120] (-1) (by decide)).2
      [(5, -1), (7, 0), (9, 3)] (by decide) (by decide) (by decide)⟩

/-! ## Bounded queues -/

/-- Filling a fresh queue of limit `n ≤ INT_MAX` with `n` non-`NULL` messages: every
send (timeout 0) returns 1 and `count` reaches `n`. -/
theorem run_fill (W0 : World) (q : Nat) (name : List Int) (n : Nat) (ms : List Nat)
    (hn : (n : Int) ≤ 2147483647) (hlen : ms.length = n) (hnz : ∀ m ∈ ms, m ≠ 0) :
    ∃ W1, run_ops q (queue_create W0 q name n) {} (ms.map (fun m => QOp.send m 0)) =
        some (W1, { sends := List.replicate n 1, recvs := [] }) ∧
      (W1.queues q).count = n ∧ (W1.queues q).limit = n ∧
      (ms.Nodup → Holds W1 q ms) := by
  have hq := queue_create_queue W0 q name n
  have hcount0 : ((queue_create W0 q name n).queues q).count = 0 := by rw [hq]
  have hlimit0 : ((queue_create W0 q name n).queues q).limit = n := by rw [hq]
  have hslen : (ms.map (fun m => (m, (0 : Int)))).length = n := by
    rw [List.length_map, hlen]
  obtain ⟨W1, hrun1, hc1, hl1, hh1⟩ := run_sends q (ms.map (fun m => (m, (0 : Int))))
    (queue_create W0 q name n) {}
    (by rw [hcount0]; omega)
    (Or.inr (by rw [hcount0, hlimit0, hslen]; omega))
    (by
      intro s hs
      rw [List.mem_map] at hs
      obtain ⟨m, hm, rfl⟩ := hs
      exact hnz m hm)
  rw [List.map_map] at hrun1
  rw [hslen] at hrun1 hc1
  rw [hcount0, zero_add, wrap32_of_range _ (by omega) (by omega)] at hc1
  refine ⟨W1, ?_, hc1, by rw [hl1, hlimit0], ?_⟩
  · exact hrun1
  · intro hnd
    have := hh1 [] (queue_create_holds W0 q name n)
      (by simpa [List.map_map, Function.comp_def] using hnd)
    simpa [List.map_map, Function.comp_def] using this

/-- C2: for every `n` with `1 <= n <= INT_MAX` (every value the `int` field `limit`
can take from 1 on), on a queue freshly created with limit `n`, the first `n`
sends with timeout 0 (of distinct non-`NULL` messages) each return 1, the
`(n+1)`-th send with timeout 0 returns 0, the receive that follows returns the
first message sent, and a further send with timeout 0 returns 1. -/
theorem bounded_fill_drain (W0 : World) (q : Nat) (name : List Int) (n : Nat)
    (ms : List Nat) (x y : Nat) (t : Int)
    (hn1 : 1 ≤ n) (hn2 : (n : Int) ≤ 2147483647) (hlen : ms.length = n)
    (hnd : ms.Nodup) (hnz : ∀ m ∈ ms, m ≠ 0) (hy : y ≠ 0) :
    ∃ W', run_ops q (queue_create W0 q name n) {}
        (ms.map (fun m => QOp.send m 0) ++ [QOp.send x 0, QOp.recv t, QOp.send y 0]) =
      some (W', { sends := List.replicate n 1 ++ [0, 1], recvs := ms.take 1 }) := by
  obtain ⟨W1, hrun1, hc1, hl1, hh1⟩ := run_fill W0 q name n ms hn2 hlen hnz
  have hH1 := hh1 hnd
  -- the send that does not fit
  have hrej : send_finish W1 q x = (W1, 0) := by
    apply send_finish_reject
    rw [hc1, hl1]
    omega
  -- the receive
  have hpos : (W1.queues q).count > 0 := by rw [hc1]; exact_mod_cast hn1
  have hrecv := queue_recv_nonempty W1 q t hpos
  obtain ⟨m, rest, hms⟩ : ∃ m rest, ms = m :: rest := by
    cases ms with
    | nil => simp at hlen; omega
    | cons m rest => exact ⟨m, rest, rfl⟩
  rw [hms] at hH1
  have hb := recv_body_holds_cons W1 q m rest hpos hH1
  have hc2 := recv_body_count W1 q hpos
  rw [hc1, wrap32_of_range _ (by omega) (by omega)] at hc2
  have hl2 := recv_body_limit W1 q
  rw [hl1] at hl2
  -- the send after the receive: there is room again, or (for `n = INT_MAX`) the
  -- credit has wrapped the limit to `INT_MIN` and the queue counts as unbounded
  have hadm : ((recv_finish (recv_enter W1 q) q).1.queues q).limit < 0 ∨
      ((recv_finish (recv_enter W1 q) q).1.queues q).count + 1 ≤
        ((recv_finish (recv_enter W1 q) q).1.queues q).limit := by
    have hge : (n : Int) ≥ 0 := by omega
    rw [if_pos hge] at hl2
    by_cases hmax : (n : Int) < 2147483647
    · right
      rw [wrap32_of_range ((n : Int) + 1) (by omega) (by omega), if_pos (by omega),
        wrap32_of_range _ (by omega) (by omega)] at hl2
      rw [hc2, hl2]
      omega
    · left
      have hn : (n : Int) = 2147483647 := by omega
      rw [hn] at hl2
      have hw : wrap32 (2147483647 + 1) = -2147483648 := by decide
      rw [hw, if_neg (by decide)] at hl2
      rw [hl2]
      decide
  have hret := send_finish_ret _ q y hy hadm
  refine ⟨(send_finish (recv_finish (recv_enter W1 q) q).1 q y).1, ?_⟩
  rw [run_ops_append, hrun1]
  simp only [Option.some_bind, run_ops, queue_send_zero, hrej, hrecv, hb.1, hret, hms]
  simp

/-- C2, witness: the spec's case `n = 1` and the case `n = 3`. -/
theorem bounded_fill_drain_witness :
    (∃ W', run_ops 1 (queue_create World.init 1 [120] (1 : Nat)) {}
        ([QOp.send 5 0] ++ [QOp.send 6 0, QOp.recv 0, QOp.send 7 0]) =
      some (W', { sends := [1, 0, 1], recvs := [5] })) ∧
    (∃ W', run_ops 1 (queue_create World.init 1 [120] (3 : Nat)) {}
        ([QOp.send 5 0, QOp.send 8 0, QOp.send 2 0] ++
          [QOp.send 6 0, QOp.recv (-1), QOp.send 7 0]) =
      some (W', { sends := [1, 1, 1, 0, 1], recvs := [5] })) :=
  ⟨bounded_fill_drain World.init 1 [120] 1 [5] 6 7 0 (by decide) (by decide) rfl
      (by decide) (by decide) (by decide),
   bounded_fill_drain World.init 1 [120] 3 [5, 8, 2] 6 7 (-1) (by decide) (by decide) rfl
      (by decide) (by decide) (by decide)⟩

/-! ## Single calls with timeout 0 -/

/-- C3 (as amended): for every queue and every (non-`NULL`) message, `queue_send`
with timeout 0 returns 0 if and only if `limit >= 0` and `count + 1 > limit`; in
that case the whole memory, hence the message list, head, tail, count and limit,
is unchanged and the message is not linked; otherwise it returns 1, the message
is the new tail (appended to the messages the queue held), the limit is
unchanged, and `count` has grown by exactly 1 whenever `count < INT_MAX` (the
stored value is always the 32-bit result of `count ++`). -/
theorem queue_send_nonblocking (W : World) (q msg : Nat) (hm : msg ≠ 0) :
    ∃ W' r, queue_send W q msg 0 = some (W', r) ∧
      (r = 0 ↔ ((W.queues q).limit ≥ 0 ∧
        (W.queues q).count + 1 > (W.queues q).limit)) ∧
      (r = 0 → W' = W) ∧
      (r ≠ 0 → r = 1 ∧ (W'.queues q).msg_tail = msg ∧
        (W'.queues q).limit = (W.queues q).limit ∧
        (W'.queues q).count = wrap32 ((W.queues q).count + 1) ∧
        (-2147483648 ≤ (W.queues q).count → (W.queues q).count < 2147483647 →
          (W'.queues q).count = (W.queues q).count + 1) ∧
        ∀ l, Holds W q l → msg ∉ l → Holds W' q (l ++ [msg])) := by
  refine ⟨(send_finish W q msg).1, (send_finish W q msg).2, queue_send_zero W q msg, ?_⟩
  by_cases hadm : (W.queues q).limit < 0 ∨
      (W.queues q).count + 1 ≤ (W.queues q).limit
  · have hret := send_finish_ret W q msg hm hadm
    have hq := send_finish_queue W q msg hadm
    rw [hret]
    refine ⟨?_, ?_, ?_⟩
    · constructor
      · intro h; exact absurd h (by decide)
      · rintro ⟨h1, h2⟩
        rcases hadm with h | h
        · exact absurd h1 (not_le.mpr h)
        · exact absurd h2 (not_lt.mpr h)
    · intro h; exact absurd h (by decide)
    · intro _
      refine ⟨rfl, by rw [hq], by rw [hq], by rw [hq], ?_, ?_⟩
      · intro h1 h2
        rw [hq]
        exact wrap32_of_range _ (by omega) (by omega)
      · intro l hl hml
        exact send_finish_holds W q msg l hm hadm hl hml
  · rw [send_finish_reject W q msg hadm]
    refine ⟨?_, fun _ => rfl, fun h => absurd rfl h⟩
    constructor
    · intro _
      constructor
      · by_contra h
        exact hadm (Or.inl (not_le.mp h))
      · by_contra h
        exact hadm (Or.inr (not_lt.mp h))
    · intro _; rfl

/-- C3, witness: a fresh queue of limit 1 accepts message 5 (the admitted branch)
and a fresh queue of limit 0 refuses message 6 and stays as it was (the refused
branch). -/
theorem queue_send_nonblocking_witness :
    ((5 : Nat) ≠ 0 ∧
      ∃ W', queue_send (queue_create World.init 1 [120] 1) 1 5 0 = some (W', 1) ∧
        (W'.queues 1).msg_tail = 5 ∧ (W'.queues 1).count = 1 ∧ Holds W' 1 [5]) ∧
    ((6 : Nat) ≠ 0 ∧
      queue_send (queue_create World.init 1 [120] 0) 1 6 0 =
        some (queue_create World.init 1 [120] 0, 0)) := by
  refine ⟨⟨by decide, ?_⟩, ⟨by decide, ?_⟩⟩
  · obtain ⟨W', r, hs, hiff, _, h1⟩ :=
      queue_send_nonblocking (queue_create World.init 1 [120] 1) 1 5 (by decide)
    have hr : r ≠ 0 := by
      intro h
      have h2 := (hiff.mp h).2
      rw [queue_create_queue] at h2
      exact absurd h2 (by decide)
    obtain ⟨hr1, ht, _, _, hc, hh⟩ := h1 hr
    rw [hr1] at hs
    refine ⟨W', hs, ht, ?_, ?_⟩
    · rw [hc (by rw [queue_create_queue]; decide) (by rw [queue_create_queue]; decide),
        queue_create_queue]
      rfl
    · exact hh [] (queue_create_holds _ _ _ _) (by simp)
  · obtain ⟨W', r, hs, hiff, h0, _⟩ :=
      queue_send_nonblocking (queue_create World.init 1 [120] 0) 1 6 (by decide)
    have hr : r = 0 := hiff.mpr (by rw [queue_create_queue]; decide)
    rw [h0 hr, hr] at hs
    exact hs

/-- On a fresh unbounded queue, sends of distinct non-`NULL` messages all return 1,
the messages are queued in call order, the limit stays and `count` is the number
of calls reduced to 32 bits. -/
theorem sends_fresh (ss : List (Nat × Int)) (hnz : ∀ s ∈ ss, s.1 ≠ 0)
    (hnd : (ss.map Prod.fst).Nodup) :
    ∃ W, run_ops 1 (queue_create World.init 1 [] (-1)) {}
        (ss.map (fun s => QOp.send s.1 s.2)) =
          some (W, { sends := List.replicate ss.length 1 }) ∧
      (W.queues 1).count = wrap32 ss.length ∧ (W.queues 1).limit = -1 ∧
      Holds W 1 (ss.map Prod.fst) := by
  have hq := queue_create_queue World.init 1 [] (-1)
  have hlim0 : ((queue_create World.init 1 [] (-1)).queues 1).limit < 0 := by rw [hq]; decide
  have hcount0 : ((queue_create World.init 1 [] (-1)).queues 1).count = 0 := by rw [hq]
  obtain ⟨W1, hrun1, hc1, hl1, hh1⟩ := run_sends 1 ss (queue_create World.init 1 [] (-1)) {}
    (by rw [hcount0]; omega) (Or.inl hlim0) hnz
  rw [hcount0, zero_add] at hc1
  have hholds := hh1 [] (queue_create_holds _ _ _ _) (by simpa using hnd)
  simp only [List.nil_append] at hholds
  refine ⟨W1, by simpa using hrun1, hc1, ?_, hholds⟩
  rw [hl1, hq]

/-- On a fresh unbounded queue, `INT_MAX` sends leave `count == INT_MAX`; one more
`queue_send` with timeout 0 returns 1 and stores `INT_MIN`. -/
theorem send_wraps_general (ss : List (Nat × Int)) (n : Nat) (hlen : ss.length = n)
    (hn : (n : Int) = 2147483647) (hnz : ∀ s ∈ ss, s.1 ≠ 0)
    (hnd : (ss.map Prod.fst).Nodup) (m : Nat) (hm : m ≠ 0) :
    ∃ W, run_ops 1 (queue_create World.init 1 [] (-1)) {}
        (ss.map (fun s => QOp.send s.1 s.2)) = some (W, { sends := List.replicate n 1 }) ∧
      (W.queues 1).count = 2147483647 ∧
      ∃ W', queue_send W 1 m 0 = some (W', 1) ∧
        (W'.queues 1).count = -2147483648 ∧
        (W'.queues 1).count ≠ (W.queues 1).count + 1 := by
  obtain ⟨W, hrun, hc, hl, _⟩ := sends_fresh ss hnz hnd
  rw [hlen] at hrun hc
  rw [hn] at hc
  have hc1 : (W.queues 1).count = 2147483647 := by rw [hc]; decide
  have hadm : (W.queues 1).limit < 0 ∨ (W.queues 1).count + 1 ≤ (W.queues 1).limit := by
    left; rw [hl]; decide
  have hq := send_finish_queue W 1 m hadm
  have hc2 : ((send_finish W 1 m).1.queues 1).count = -2147483648 := by
    rw [hq]
    show wrap32 ((W.queues 1).count + 1) = -2147483648
    rw [hc1]; decide
  refine ⟨W, hrun, hc1, (send_finish W 1 m).1, ?_, hc2, ?_⟩
  · rw [queue_send_zero]
    exact congrArg some (Prod.ext rfl (send_finish_ret W 1 m hm hadm))
  · rw [hc2, hc1]; decide

/-- C3, counterexample to the claim as stated: after `INT_MAX` sends of the distinct
messages `1 .. INT_MAX` on a fresh unbounded queue (all returning 1) `count` is
`INT_MAX`; a further `queue_send` with timeout 0 returns 1 and leaves `count` at
`INT_MIN`, which is not `count + 1`. -/
theorem queue_send_nonblocking_counterexample :
    ∃ W, run_ops 1 (queue_create World.init 1 [] (-1)) {}
        (((List.range' 1 2147483647).map (fun m => (m, (0 : Int)))).map
          (fun s => QOp.send s.1 s.2)) =
          some (W, { sends := List.replicate 2147483647 1 }) ∧
      (W.queues 1).count = 2147483647 ∧
      ∃ W', queue_send W 1 2147483648 0 = some (W', 1) ∧
        (W'.queues 1).count = -2147483648 ∧
        (W'.queues 1).count ≠ (W.queues 1).count + 1 :=
  send_wraps_general _ 2147483647
    (by rw [List.length_map, List.length_range'])
    (by norm_num)
    (by
      intro s hs
      rw [List.mem_map] at hs
      obtain ⟨m, hm, rfl⟩ := hs
      rw [List.mem_range'_1] at hm
      exact Nat.pos_iff_ne_zero.mp hm.1)
    (by
      rw [List.map_map]
      have : (Prod.fst ∘ fun m : Nat => (m, (0 : Int))) = id := rfl
      rw [this, List.map_id]
      exact List.nodup_range' 1 2147483647)
    2147483648 (by norm_num)

/-- C4 (as amended): for every queue state, `queue_recv` with timeout 0 returns
`NULL` if and only if `count <= 0` or `msg_head` is `NULL`; when `count <= 0` the
messages, head, tail and count are unchanged; when `count > 0` it returns the
head pointer and `count` has dropped by exactly 1 (`count` being an `int`), and
if the queue holds the messages `a :: t` it returns `a` and holds `t` afterwards;
in a state whose `count` is the number of queued messages, `NULL` is returned if
and only if `count == 0`. -/
theorem queue_recv_nonblocking (W : World) (q : Nat) :
    ∃ W' r, queue_recv W q 0 = some (W', r) ∧
      (r = 0 ↔ ((W.queues q).count ≤ 0 ∨ (W.queues q).msg_head = 0)) ∧
      ((W.queues q).count ≤ 0 →
        W'.msgs = W.msgs ∧ (W'.queues q).msg_head = (W.queues q).msg_head ∧
        (W'.queues q).msg_tail = (W.queues q).msg_tail ∧
        (W'.queues q).count = (W.queues q).count ∧ ∀ l, Holds W q l → Holds W' q l) ∧
      ((W.queues q).count > 0 →
        r = (W.queues q).msg_head ∧
        (W'.queues q).count = wrap32 ((W.queues q).count - 1) ∧
        ((W.queues q).count ≤ 2147483647 →
          (W'.queues q).count = (W.queues q).count - 1) ∧
        ∀ a t, Holds W q (a :: t) → r = a ∧ Holds W' q t) ∧
      (∀ l : List Nat, Holds W q l → (W.queues q).count = l.length →
        (r = 0 ↔ (W.queues q).count = 0)) := by
  refine ⟨(recv_finish (recv_enter W q) q).1, (recv_finish (recv_enter W q) q).2,
    queue_recv_zero W q, ?_, ?_, ?_, ?_⟩
  · by_cases hle : (W.queues q).count ≤ 0
    · exact ⟨fun _ => Or.inl hle, fun _ => recv_body_ret_empty W q hle⟩
    · have hpos : (W.queues q).count > 0 := not_le.mp hle
      rw [recv_body_ret W q hpos]
      exact ⟨fun h => Or.inr h, fun h => h.resolve_left hle⟩
  · intro hle
    have hdq : recv_dequeue (recv_enter W q) q = (recv_enter W q, 0) :=
      recv_dequeue_empty _ q (by rw [recv_enter_queue]; exact hle)
    refine ⟨?_, ?_, ?_, recv_body_count_empty W q hle,
      fun l hl => recv_body_holds_empty W q l hle hl⟩
    · simp only [recv_finish, hdq, recv_revoke_msgs, recv_enter_msgs]
    · simp only [recv_finish, hdq, recv_revoke_queue, recv_enter_queue]
    · simp only [recv_finish, hdq, recv_revoke_queue, recv_enter_queue]
  · intro hpos
    refine ⟨recv_body_ret W q hpos, recv_body_count W q hpos, ?_, ?_⟩
    · intro hr
      rw [recv_body_count W q hpos]
      exact wrap32_of_range _ (by omega) (by omega)
    · intro a t hl
      exact recv_body_holds_cons W q a t hpos hl
  · intro l hl hc
    cases l with
    | nil =>
      have hc0 : (W.queues q).count = 0 := by simpa using hc
      exact ⟨fun _ => hc0, fun _ => recv_body_ret_empty W q (by omega)⟩
    | cons a t =>
      simp only [List.length_cons, Nat.cast_add, Nat.cast_one] at hc
      have hpos : (W.queues q).count > 0 := by omega
      have hb := recv_body_holds_cons W q a t hpos hl
      have ha0 : a ≠ 0 := hl.1.2.1
      exact ⟨fun h => absurd (hb.1.symm.trans h) ha0, fun h => absurd h (by omega)⟩

/-- C4, witness: an empty queue returns `NULL` and is unchanged (the empty receive);
a queue holding the single message 5 hands it out and is empty afterwards (the
non-empty receive). -/
theorem queue_recv_nonblocking_witness :
    (∃ W', queue_recv (queue_create World.init 1 [120] (-1)) 1 0 = some (W', 0) ∧
      (W'.queues 1).count = 0 ∧ Holds W' 1 []) ∧
    (∃ W', queue_recv (send_finish (queue_create World.init 1 [120] (-1)) 1 5).1 1 0 =
        some (W', 5) ∧ Holds W' 1 [] ∧ (W'.queues 1).count = 0) := by
  have hadm : ((queue_create World.init 1 [120] (-1)).queues 1).limit < 0 ∨
      ((queue_create World.init 1 [120] (-1)).queues 1).count + 1 ≤
        ((queue_create World.init 1 [120] (-1)).queues 1).limit := by
    left; rw [queue_create_queue]; decide
  have hW : Holds (send_finish (queue_create World.init 1 [120] (-1)) 1 5).1 1 [5] :=
    send_finish_holds _ 1 5 [] (by decide) hadm (queue_create_holds _ _ _ _) (by simp)
  have hcnt : ((send_finish (queue_create World.init 1 [120] (-1)) 1 5).1.queues 1).count = 1 := by
    rw [send_finish_queue _ 1 5 hadm, queue_create_queue]
    rfl
  constructor
  · obtain ⟨W', r, h1, h2, h3, _⟩ :=
      queue_recv_nonblocking (queue_create World.init 1 [120] (-1)) 1
    have hc0 : ((queue_create World.init 1 [120] (-1)).queues 1).count ≤ 0 := by
      rw [queue_create_queue]
    have hr : r = 0 := h2.mpr (Or.inl hc0)
    obtain ⟨_, _, _, h4, h5⟩ := h3 hc0
    rw [hr] at h1
    refine ⟨W', h1, ?_, h5 [] (queue_create_holds _ _ _ _)⟩
    rw [h4, queue_create_queue]
  · obtain ⟨W', r, h1, _, _, h4, _⟩ :=
      queue_recv_nonblocking (send_finish (queue_create World.init 1 [120] (-1)) 1 5).1 1
    obtain ⟨_, _, h6, h7⟩ := h4 (by rw [hcnt]; decide)
    obtain ⟨h8, h9⟩ := h7 5 [] hW
    rw [h8] at h1
    refine ⟨W', h1, h9, ?_⟩
    rw [h6 (by rw [hcnt]; decide), hcnt]
    rfl

/-- On a fresh unbounded queue, `2^31` sends leave the messages queued and `count`
at `INT_MIN`; `queue_recv` with timeout 0 then returns `NULL`. -/
theorem recv_wraps_general (ss : List (Nat × Int)) (n : Nat) (hlen : ss.length = n)
    (hn : (n : Int) = 2147483648) (hnz : ∀ s ∈ ss, s.1 ≠ 0)
    (hnd : (ss.map Prod.fst).Nodup) :
    ∃ W, run_ops 1 (queue_create World.init 1 [] (-1)) {}
        (ss.map (fun s => QOp.send s.1 s.2)) = some (W, { sends := List.replicate n 1 }) ∧
      Holds W 1 (ss.map Prod.fst) ∧ (ss.map Prod.fst).length = n ∧
      (W.queues 1).count = -2147483648 ∧ (W.queues 1).count ≠ 0 ∧
      ∃ W', queue_recv W 1 0 = some (W', 0) := by
  obtain ⟨W, hrun, hc, _, hh⟩ := sends_fresh ss hnz hnd
  rw [hlen] at hrun hc
  rw [hn] at hc
  have hc1 : (W.queues 1).count = -2147483648 := by rw [hc]; decide
  refine ⟨W, hrun, hh, by rw [List.length_map, hlen], hc1, by rw [hc1]; decide,
    (recv_finish (recv_enter W 1) 1).1, ?_⟩
  rw [queue_recv_zero]
  exact congrArg some (Prod.ext rfl (recv_body_ret_empty W 1 (by rw [hc1]; decide)))

/-- C4, counterexample to the claim as stated: after `2^31` sends of the distinct
messages `1 .. 2^31` on a fresh unbounded queue (all returning 1) the queue holds
the `2^31` messages and `count` is `INT_MIN`; `queue_recv` with timeout 0 returns
`NULL` although `count` is not 0. -/
theorem queue_recv_nonblocking_counterexample :
    ∃ W, run_ops 1 (queue_create World.init 1 [] (-1)) {}
        (((List.range' 1 2147483648).map (fun m => (m, (0 : Int)))).map
          (fun s => QOp.send s.1 s.2)) =
          some (W, { sends := List.replicate 2147483648 1 }) ∧
      Holds W 1 (((List.range' 1 2147483648).map (fun m => (m, (0 : Int)))).map Prod.fst) ∧
      (((List.range' 1 2147483648).map (fun m => (m, (0 : Int)))).map Prod.fst).length =
        2147483648 ∧
      (W.queues 1).count = -2147483648 ∧ (W.queues 1).count ≠ 0 ∧
      ∃ W', queue_recv W 1 0 = some (W', 0) :=
  recv_wraps_general _ 2147483648
    (by rw [List.length_map, List.length_range'])
    (by norm_num)
    (by
      intro s hs
      rw [List.mem_map] at hs
      obtain ⟨m, hm, rfl⟩ := hs
      rw [List.mem_range'_1] at hm
      exact Nat.pos_iff_ne_zero.mp hm.1)
    (by
      rw [List.map_map]
      have : (Prod.fst ∘ fun m : Nat => (m, (0 : Int))) = id := rfl
      rw [this, List.map_id]
      exact List.nodup_range' 1 2147483648)

/-! ## Capacity -/

/-- Calls with a non-negative timeout always return. -/
theorem run_ops_total (q : Nat) : ∀ (ops : List QOp) (W : World) (log : QLog),
    (∀ msg t, QOp.send msg t ∈ ops → 0 ≤ t) → (∀ t, QOp.recv t ∈ ops → 0 ≤ t) →
    ∃ r, run_ops q W log ops = some r := by
  intro ops
  induction ops with
  | nil => intro W log _ _; exact ⟨_, rfl⟩
  | cons op ops ih =>
    intro W log hs hr
    have hs' : ∀ msg t, QOp.send msg t ∈ ops → 0 ≤ t :=
      fun msg t h => hs msg t (List.mem_cons_of_mem _ h)
    have hr' : ∀ t, QOp.recv t ∈ ops → 0 ≤ t := fun t h => hr t (List.mem_cons_of_mem _ h)
    cases op with
    | send msg timeout =>
      simp only [run_ops, queue_send_timed W q msg timeout (hs msg timeout (List.mem_cons_self _ _))]
      exact ih _ _ hs' hr'
    | recv timeout =>
      simp only [run_ops, queue_recv_timed W q timeout (hr timeout (List.mem_cons_self _ _))]
      exact ih _ _ hs' hr'

/-- One completed `queue_send` keeps `limit == n` and `0 <= count <= n`; with
`n = 0` it changes nothing and returns 0. -/
theorem send_keeps_capacity (W : World) (q msg : Nat) (n : Int) (h0 : 0 ≤ n)
    (h1 : n < 2147483647) (hl : (W.queues q).limit = n) (hc0 : 0 ≤ (W.queues q).count)
    (hc1 : (W.queues q).count ≤ n) :
    ((send_finish W q msg).1.queues q).limit = n ∧
    0 ≤ ((send_finish W q msg).1.queues q).count ∧
    ((send_finish W q msg).1.queues q).count ≤ n ∧
    (n = 0 → send_finish W q msg = (W, 0)) := by
  have hw : wrap32 ((W.queues q).count + 1) = (W.queues q).count + 1 :=
    wrap32_of_range _ (by omega) (by omega)
  by_cases hadm : (W.queues q).limit < 0 ∨
      (W.queues q).count + 1 ≤ (W.queues q).limit
  · have hle : (W.queues q).count + 1 ≤ n := by
      rcases hadm with h | h
      · omega
      · rw [hl] at h; exact h
    rw [send_finish_queue W q msg hadm]
    simp only [hw]
    exact ⟨hl, by omega, hle, fun hn => absurd hle (by omega)⟩
  · rw [send_finish_reject W q msg hadm]
    exact ⟨hl, hc0, hc1, fun _ => rfl⟩

/-- One completed `queue_recv` keeps `limit == n` and `0 <= count <= n`. -/
theorem recv_keeps_capacity (W : World) (q : Nat) (n : Int) (h0 : 0 ≤ n)
    (h1 : n < 2147483647) (hl : (W.queues q).limit = n) (hc0 : 0 ≤ (W.queues q).count)
    (hc1 : (W.queues q).count ≤ n) :
    ((recv_finish (recv_enter W q) q).1.queues q).limit = n ∧
    0 ≤ ((recv_finish (recv_enter W q) q).1.queues q).count ∧
    ((recv_finish (recv_enter W q) q).1.queues q).count ≤ n := by
  refine ⟨by rw [recv_body_limit_restored W q (by omega), hl], ?_⟩
  by_cases hpos : (W.queues q).count > 0
  · rw [recv_body_count W q hpos, wrap32_of_range _ (by omega) (by omega)]
    omega
  · rw [recv_body_count_empty W q (not_lt.mp hpos)]
    exact ⟨hc0, hc1⟩

/-- Capacity invariant along a run of completed calls. -/
theorem run_ops_capacity (q : Nat) (n : Int) (h0 : 0 ≤ n) (h1 : n < 2147483647) :
    ∀ (ops : List QOp) (W : World) (log : QLog) (W' : World) (log' : QLog),
    (W.queues q).limit = n → 0 ≤ (W.queues q).count → (W.queues q).count ≤ n →
    (n = 0 → Holds W q [] ∧ ∀ r ∈ log.sends, r = 0) →
    run_ops q W log ops = some (W', log') →
    (W'.queues q).limit = n ∧ 0 ≤ (W'.queues q).count ∧ (W'.queues q).count ≤ n ∧
      (n = 0 → Holds W' q [] ∧ ∀ r ∈ log'.sends, r = 0) := by
  intro ops
  induction ops with
  | nil =>
    intro W log W' log' hl hc0 hc1 hz hrun
    simp only [run_ops, Option.some.injEq, Prod.mk.injEq] at hrun
    obtain ⟨rfl, rfl⟩ := hrun
    exact ⟨hl, hc0, hc1, hz⟩
  | cons op ops ih =>
    intro W log W' log' hl hc0 hc1 hz hrun
    cases op with
    | send msg timeout =>
      simp only [run_ops] at hrun
      cases hsend : queue_send W q msg timeout with
      | none => rw [hsend] at hrun; exact absurd hrun (by simp)
      | some r =>
        rw [hsend] at hrun
        have hr := queue_send_some W q msg timeout r hsend
        subst hr
        obtain ⟨k1, k2, k3, k4⟩ := send_keeps_capacity W q msg n h0 h1 hl hc0 hc1
        refine ih _ _ W' log' k1 k2 k3 ?_ hrun
        intro hn
        rw [k4 hn]
        refine ⟨(hz hn).1, ?_⟩
        intro r hr
        simp only [List.mem_append, List.mem_singleton] at hr
        rcases hr with hr | hr
        · exact (hz hn).2 r hr
        · exact hr
    | recv timeout =>
      simp only [run_ops] at hrun
      cases hrecv : queue_recv W q timeout with
      | none => rw [hrecv] at hrun; exact absurd hrun (by simp)
      | some r =>
        rw [hrecv] at hrun
        have hr := queue_recv_some W q timeout r hrecv
        subst hr
        obtain ⟨k1, k2, k3⟩ := recv_keeps_capacity W q n h0 h1 hl hc0 hc1
        refine ih _ _ W' log' k1 k2 k3 ?_ hrun
        intro hn
        have hle : (W.queues q).count ≤ 0 := by omega
        exact ⟨recv_body_holds_empty W q [] hle (hz hn).1, (hz hn).2⟩

/-- C7: for every `n` with `0 <= n < INT_MAX`, every state reached from
`queue_create(name, n)` by a sequence of completed `queue_send` and `queue_recv`
calls (any timeouts) satisfies `limit == n` and `0 <= count <= n`; for `n = 0`
the queue holds no message (`msg_head` and `msg_tail` are `NULL`, `count` is 0),
every completed `queue_send` has returned 0, and every `queue_send` with
timeout 0 in that state returns 0 and changes nothing. -/
theorem capacity_invariant (W0 : World) (q : Nat) (name : List Int) (n : Int)
    (ops : List QOp) (W' : World) (log : QLog) (h0 : 0 ≤ n) (h1 : n < 2147483647)
    (hrun : run_ops q (queue_create W0 q name n) {} ops = some (W', log)) :
    (W'.queues q).limit = n ∧ 0 ≤ (W'.queues q).count ∧ (W'.queues q).count ≤ n ∧
    (n = 0 → Holds W' q [] ∧ (W'.queues q).count = 0 ∧ (∀ r ∈ log.sends, r = 0) ∧
      ∀ msg, queue_send W' q msg 0 = some (W', 0)) := by
  have hq := queue_create_queue W0 q name n
  obtain ⟨k1, k2, k3, k4⟩ := run_ops_capacity q n h0 h1 ops (queue_create W0 q name n) {}
    W' log (by rw [hq]) (by rw [hq]) (by rw [hq]; exact h0)
    (fun _ => ⟨queue_create_holds W0 q name n, by simp⟩) hrun
  refine ⟨k1, k2, k3, ?_⟩
  intro hn
  refine ⟨(k4 hn).1, by omega, (k4 hn).2, ?_⟩
  intro msg
  rw [queue_send_zero]
  exact congrArg some ((send_keeps_capacity W' q msg n h0 h1 k1 k2 k3).2.2.2 hn)

/-- C7, witness: limit 2 with more sends than fit, and limit 0 with sends of both
kinds of finite timeout. -/
theorem capacity_invariant_witness :
    (∃ W' log, run_ops 1 (queue_create World.init 1 [120] 2) {}
        [QOp.send 5 0, QOp.send 6 40, QOp.send 7 0, QOp.recv 0, QOp.recv 5, QOp.recv 0] =
          some (W', log) ∧
        (W'.queues 1).limit = 2 ∧ 0 ≤ (W'.queues 1).count ∧ (W'.queues 1).count ≤ 2) ∧
    (∃ W' log, run_ops 1 (queue_create World.init 1 [120] 0) {}
        [QOp.send 5 0, QOp.recv 0, QOp.send 6 40, QOp.recv 3] = some (W', log) ∧
        (W'.queues 1).count = 0 ∧ (∀ r ∈ log.sends, r = 0) ∧
        queue_send W' 1 9 0 = some (W', 0)) := by
  constructor
  · obtain ⟨r, hr⟩ := run_ops_total 1
      [QOp.send 5 0, QOp.send 6 40, QOp.send 7 0, QOp.recv 0, QOp.recv 5, QOp.recv 0]
      (queue_create World.init 1 [120] 2) {}
      (by intro msg t h; simp at h; omega) (by intro t h; simp at h; omega)
    obtain ⟨k1, k2, k3, _⟩ := capacity_invariant World.init 1 [120] 2 _ r.1 r.2
      (by decide) (by decide) hr
    exact ⟨r.1, r.2, hr, k1, k2, k3⟩
  · obtain ⟨r, hr⟩ := run_ops_total 1
      [QOp.send 5 0, QOp.recv 0, QOp.send 6 40, QOp.recv 3]
      (queue_create World.init 1 [120] 0) {}
      (by intro msg t h; simp at h; omega) (by intro t h; simp at h; omega)
    obtain ⟨_, _, _, k4⟩ := capacity_invariant World.init 1 [120] 0 _ r.1 r.2
      (by decide) (by decide) hr
    exact ⟨r.1, r.2, hr, (k4 rfl).2.1, (k4 rfl).2.2.1, (k4 rfl).2.2.2 9⟩

/-! ## Rendezvous on a queue of limit 0 -/

theorem wrap32_one : wrap32 1 = 1 := by decide

theorem wrap32_zero : wrap32 0 = 0 := by decide

/-- Memory after the receiver's entry segment on an empty queue of limit 0. -/
theorem rendezvous_credit (W : World) (q : Nat) (hl : (W.queues q).limit = 0)
    (hc : (W.queues q).count = 0) (hh : Holds W q []) :
    ((recv_enter W q).queues q).limit = 1 ∧ ((recv_enter W q).queues q).count = 0 ∧
      Holds (recv_enter W q) q [] := by
  refine ⟨?_, ?_, recv_enter_holds hh⟩
  · rw [recv_enter_queue]; simp [hl, wrap32_one]
  · rw [recv_enter_queue]; exact hc

/-- Memory after the sender's closing segment once the credit is there. -/
theorem rendezvous_handover (W : World) (q m : Nat) (hm : m ≠ 0)
    (hl : (W.queues q).limit = 1) (hc : (W.queues q).count = 0) (hh : Holds W q []) :
    (send_finish W q m).2 = 1 ∧ ((send_finish W q m).1.queues q).limit = 1 ∧
      ((send_finish W q m).1.queues q).count = 1 ∧ Holds (send_finish W q m).1 q [m] := by
  have hadm : (W.queues q).limit < 0 ∨
      (W.queues q).count + 1 ≤ (W.queues q).limit := by
    right; rw [hl, hc]; decide
  refine ⟨send_finish_ret W q m hm hadm, by rw [send_finish_limit, hl], ?_, ?_⟩
  · rw [send_finish_queue W q m hadm]; simp [hc, wrap32_one]
  · simpa using send_finish_holds W q m [] hm hadm hh (by simp)

/-- Memory after the receiver's closing segment once the message is there. -/
theorem rendezvous_take (W : World) (q m : Nat)
    (hl : (W.queues q).limit = 1) (hc : (W.queues q).count = 1) (hh : Holds W q [m]) :
    (recv_finish W q).2 = m ∧ ((recv_finish W q).1.queues q).limit = 0 ∧
      ((recv_finish W q).1.queues q).count = 0 ∧ Holds (recv_finish W q).1 q [] := by
  have hpos : (W.queues q).count > 0 := by rw [hc]; decide
  have hd := recv_dequeue_holds W q m [] hpos hh
  refine ⟨hd.1, ?_, ?_, recv_revoke_holds hd.2⟩
  · rw [recv_finish_limit, hl]; decide
  · unfold recv_finish
    simp only
    rw [recv_revoke_queue]
    simp only
    rw [recv_dequeue_count W q hpos, hc]
    decide

theorem rendezvous_expire (q m i : Nat) (W : World) (p₀ p₁ : Pc) :
    step q ⟨W, rendezvous_threads m p₀ p₁⟩ (Ev.expire i) = none := by
  match i with
  | 0 => simp [step, rendezvous_threads, Call.timeout]
  | 1 => simp [step, rendezvous_threads, Call.timeout]
  | n + 2 => simp [step, rendezvous_threads]

/-- Every step from a phase of the rendezvous is either a spurious wake-up that
changes nothing or a `run` segment that leads to a later phase. -/
theorem rendezvous_step (q m : Nat) (hm : m ≠ 0) (p : Phase) (s s' : Sys) (e : Ev)
    (h : in_phase q m p s) (hs : step q s e = some s') :
    (e.is_run = false ∧ s' = s) ∨
      (e.is_run = true ∧ ∃ p', in_phase q m p' s' ∧ p.rank < p'.rank) := by
  obtain ⟨W, ths⟩ := s
  obtain ⟨hth, hl, hc, hh⟩ := h
  simp only at hth hl hc hh
  subst hth
  cases e with
  | expire i => rw [rendezvous_expire] at hs; exact absurd hs (by simp)
  | spurious i =>
    left
    refine ⟨rfl, ?_⟩
    cases p <;> simp only [Phase.pcs, Phase.queue] at hs hl hc hh <;>
      (match i with
        | 0 =>
          simp [step, advance, rendezvous_threads, send_blocked, hl, hc, wrap32_one] at hs
          try exact hs.symm
        | 1 =>
          simp [step, advance, rendezvous_threads, recv_blocked, hl, hc] at hs
          try exact hs.symm
        | n + 2 => simp [step, rendezvous_threads] at hs)
  | run i =>
    right
    refine ⟨rfl, ?_⟩
    cases p <;> simp only [Phase.pcs, Phase.queue] at hs hl hc hh
    · -- fresh
      match i with
      | 0 =>
        simp [step, advance, rendezvous_threads, send_blocked, hl, hc, wrap32_one] at hs
        subst hs
        exact ⟨Phase.sender_waits, ⟨rfl, hl, hc, hh⟩, by decide⟩
      | 1 =>
        simp [step, advance, rendezvous_threads, recv_blocked, hl, hc, recv_enter_queue,
          cond_signal, Call.is_send] at hs
        subst hs
        obtain ⟨k1, k2, k3⟩ := rendezvous_credit W q hl hc hh
        exact ⟨Phase.receiver_waits, ⟨rfl, k1, k2, k3⟩, by decide⟩
      | n + 2 => simp [step, rendezvous_threads] at hs
    · -- sender_waits
      match i with
      | 0 => simp [step, rendezvous_threads] at hs
      | 1 =>
        simp [step, advance, rendezvous_threads, recv_blocked, hl, hc, recv_enter_queue,
          cond_signal, Call.is_send] at hs
        subst hs
        obtain ⟨k1, k2, k3⟩ := rendezvous_credit W q hl hc hh
        exact ⟨Phase.both_wait, ⟨rfl, k1, k2, k3⟩, by decide⟩
      | n + 2 => simp [step, rendezvous_threads] at hs
    · -- receiver_waits
      match i with
      | 0 =>
        simp [step, advance, rendezvous_threads, send_blocked, hl, hc, wrap32_one,
          cond_signal, Call.is_recv] at hs
        subst hs
        obtain ⟨k0, k1, k2, k3⟩ := rendezvous_handover W q m hm hl hc hh
        refine ⟨Phase.handed_over, ⟨?_, k1, k2, k3⟩, by decide⟩
        simp [k0, Phase.pcs, rendezvous_threads]
      | 1 => simp [step, rendezvous_threads] at hs
      | n + 2 => simp [step, rendezvous_threads] at hs
    · -- both_wait
      match i with
      | 0 =>
        simp [step, advance, rendezvous_threads, send_blocked, hl, hc, wrap32_one,
          cond_signal, Call.is_recv] at hs
        subst hs
        obtain ⟨k0, k1, k2, k3⟩ := rendezvous_handover W q m hm hl hc hh
        refine ⟨Phase.handed_over, ⟨?_, k1, k2, k3⟩, by decide⟩
        simp [k0, Phase.pcs, rendezvous_threads]
      | 1 => simp [step, rendezvous_threads] at hs
      | n + 2 => simp [step, rendezvous_threads] at hs
    · -- handed_over
      match i with
      | 0 => simp [step, rendezvous_threads] at hs
      | 1 =>
        simp [step, advance, rendezvous_threads, recv_blocked, hl, hc, cond_signal,
          Call.is_send] at hs
        subst hs
        obtain ⟨k0, k1, k2, k3⟩ := rendezvous_take W q m hl hc hh
        refine ⟨Phase.finished, ⟨?_, k1, k2, k3⟩, by decide⟩
        simp [k0, Phase.pcs, rendezvous_threads]
      | n + 2 => simp [step, rendezvous_threads] at hs
    · -- finished
      match i with
      | 0 => simp [step, rendezvous_threads] at hs
      | 1 => simp [step, rendezvous_threads] at hs
      | n + 2 => simp [step, rendezvous_threads] at hs

/-- Unless both calls have returned, one of the two threads can run a segment
without a spurious wake-up. -/
theorem rendezvous_progress (q m : Nat) (p : Phase) (s : Sys) (h : in_phase q m p s)
    (hp : p ≠ Phase.finished) : ∃ i s', step q s (Ev.run i) = some s' := by
  obtain ⟨W, ths⟩ := s
  obtain ⟨hth, _, _, _⟩ := h
  simp only at hth
  subst hth
  cases p
  · exact ⟨0, Option.isSome_iff_exists.mp (by simp [step, rendezvous_threads, Phase.pcs])⟩
  · exact ⟨1, Option.isSome_iff_exists.mp (by simp [step, rendezvous_threads, Phase.pcs])⟩
  · exact ⟨0, Option.isSome_iff_exists.mp (by simp [step, rendezvous_threads, Phase.pcs])⟩
  · exact ⟨0, Option.isSome_iff_exists.mp (by simp [step, rendezvous_threads, Phase.pcs])⟩
  · exact ⟨1, Option.isSome_iff_exists.mp (by simp [step, rendezvous_threads, Phase.pcs])⟩
  · exact absurd rfl hp

theorem rendezvous_all_done (q m : Nat) (p : Phase) (s : Sys) (h : in_phase q m p s) :
    all_done s ↔ p = Phase.finished := by
  obtain ⟨W, ths⟩ := s
  obtain ⟨hth, _, _, _⟩ := h
  simp only at hth
  subst hth
  cases p <;> simp [all_done, rendezvous_threads, Phase.pcs]

/-- Along every execution the system stays in a phase of the rendezvous, and every
`run` segment moves it to a later phase. -/
theorem rendezvous_exec (q m : Nat) (hm : m ≠ 0) : ∀ (evs : List Ev) (s s' : Sys) (p : Phase),
    in_phase q m p s → exec q s evs = some s' →
    ∃ p', in_phase q m p' s' ∧ p.rank + (evs.filter Ev.is_run).length ≤ p'.rank := by
  intro evs
  induction evs with
  | nil =>
    intro s s' p h hx
    simp only [exec, Option.some.injEq] at hx
    subst hx
    exact ⟨p, h, by simp⟩
  | cons e es ih =>
    intro s s' p h hx
    simp only [exec] at hx
    cases hst : step q s e with
    | none => rw [hst] at hx; exact absurd hx (by simp)
    | some s₁ =>
      rw [hst] at hx
      rcases rendezvous_step q m hm p s s₁ e h hst with ⟨he, heq⟩ | ⟨he, p₁, hp₁, hlt⟩
      · subst heq
        obtain ⟨p', hp', hr⟩ := ih s₁ s' p h hx
        exact ⟨p', hp', by simpa [List.filter, he] using hr⟩
      · obtain ⟨p', hp', hr⟩ := ih s₁ s' p₁ hp₁ hx
        refine ⟨p', hp', ?_⟩
        simp only [List.filter, he, List.length_cons]
        omega

/-- From every phase the two calls can be driven to completion by `run` segments. -/
theorem rendezvous_completes (q m : Nat) (hm : m ≠ 0) : ∀ (k : Nat) (p : Phase) (s : Sys),
    in_phase q m p s → 4 ≤ p.rank + k →
    ∃ evs s', exec q s evs = some s' ∧ all_done s' := by
  intro k
  induction k with
  | zero =>
    intro p s h hk
    have hp : p = Phase.finished := by
      cases p <;> simp [Phase.rank] at hk ⊢
    exact ⟨[], s, rfl, (rendezvous_all_done q m p s h).mpr hp⟩
  | succ k ih =>
    intro p s h hk
    by_cases hp : p = Phase.finished
    · exact ⟨[], s, rfl, (rendezvous_all_done q m p s h).mpr hp⟩
    · obtain ⟨i, s₁, hst⟩ := rendezvous_progress q m p s h hp
      rcases rendezvous_step q m hm p s s₁ (Ev.run i) h hst with ⟨he, _⟩ | ⟨_, p₁, hp₁, hlt⟩
      · exact absurd he (by simp [Ev.is_run])
      · obtain ⟨evs, s', hx, hd⟩ := ih p₁ s₁ hp₁ (by omega)
        exact ⟨Ev.run i :: evs, s', by simp only [exec, hst]; exact hx, hd⟩

/-- C6: on a queue created with limit 0, with one thread in `queue_send(m, -1)` and
another in `queue_recv(-1)`, after every interleaving `evs` of their
lock-protected segments (spurious wake-ups included): unless both calls have
returned some thread can run its next segment (no deadlock, no lost wake-up)
and the run can be continued until both have returned; at most 4 segments are
not spurious wake-ups, spurious wake-ups change nothing, and no wait times
out; and once both calls have returned `queue_send` has returned 1,
`queue_recv` has returned `m`, `count == 0`, `limit == 0` and the queue is
empty. -/
theorem rendezvous_limit_zero (W0 : World) (q : Nat) (name : List Int) (m : Nat) (hm : m ≠ 0)
    (evs : List Ev) (s : Sys)
    (hexec : exec q { W := queue_create W0 q name 0,
                      threads := rendezvous_threads m Pc.start Pc.start } evs = some s) :
    (¬ all_done s → ∃ i s', step q s (Ev.run i) = some s') ∧
    (∃ evs' s', exec q s evs' = some s' ∧ all_done s') ∧
    (evs.filter Ev.is_run).length ≤ 4 ∧
    ((evs.filter Ev.is_run).length = 4 → all_done s) ∧
    (∀ i s', step q s (Ev.spurious i) = some s' → s' = s) ∧
    (∀ i, step q s (Ev.expire i) = none) ∧
    (all_done s →
      s.threads = rendezvous_threads m (Pc.done 1) (Pc.done m) ∧
      (s.W.queues q).count = 0 ∧ (s.W.queues q).limit = 0 ∧ Holds s.W q []) := by
  have h0 : in_phase q m Phase.fresh
      { W := queue_create W0 q name 0, threads := rendezvous_threads m Pc.start Pc.start } := by
    refine ⟨rfl, ?_, ?_, queue_create_holds W0 q name 0⟩
    · show ((queue_create W0 q name 0).queues q).limit = 0
      rw [queue_create_queue]
    · show ((queue_create W0 q name 0).queues q).count = 0
      rw [queue_create_queue]
  obtain ⟨p, hp, hr⟩ := rendezvous_exec q m hm evs _ s Phase.fresh h0 hexec
  have hrank : p.rank ≤ 4 := by cases p <;> simp [Phase.rank]
  have hr0 : Phase.fresh.rank = 0 := rfl
  rw [hr0, zero_add] at hr
  refine ⟨?_, ?_, ?_, ?_, ?_, ?_, ?_⟩
  · intro hnd
    exact rendezvous_progress q m p s hp (fun h => hnd ((rendezvous_all_done q m p s hp).mpr h))
  · exact rendezvous_completes q m hm 4 p s hp (by omega)
  · omega
  · intro h4
    refine (rendezvous_all_done q m p s hp).mpr ?_
    rw [h4] at hr
    cases p <;> simp [Phase.rank] at hr ⊢
  · intro i s' hs
    rcases rendezvous_step q m hm p s s' (Ev.spurious i) hp hs with ⟨_, h⟩ | ⟨h, _⟩
    · exact h
    · exact absurd h (by simp [Ev.is_run])
  · intro i
    obtain ⟨W, ths⟩ := s
    obtain ⟨hth, _, _, _⟩ := hp
    simp only at hth
    subst hth
    exact rendezvous_expire q m i W _ _
  · intro hd
    have hfin := (rendezvous_all_done q m p s hp).mp hd
    subst hfin
    exact ⟨hp.1, hp.2.2.1, hp.2.1, hp.2.2.2⟩

/-- C6, witness: the interleaving in which the sender arrives first and waits, with
a spurious wake-up of the sender before the receiver arrives. -/
theorem rendezvous_limit_zero_witness :
    ∃ s, exec 1 (Sys.mk (queue_create World.init 1 [120] 0)
          (rendezvous_threads 5 Pc.start Pc.start))
        [Ev.run 0, Ev.spurious 0, Ev.run 1, Ev.run 0, Ev.run 1] = some s ∧
      s.threads = rendezvous_threads 5 (Pc.done 1) (Pc.done 5) ∧
      (s.W.queues 1).count = 0 ∧ (s.W.queues 1).limit = 0 := by
  have hx : (exec 1 (Sys.mk (queue_create World.init 1 [120] 0)
          (rendezvous_threads 5 Pc.start Pc.start))
        [Ev.run 0, Ev.spurious 0, Ev.run 1, Ev.run 0, Ev.run 1]).isSome = true := by
    decide
  obtain ⟨s, hs⟩ := Option.isSome_iff_exists.mp hx
  have h := rendezvous_limit_zero World.init 1 [120] 5 (by decide) _ s hs
  obtain ⟨k1, k2, k3, _⟩ := h.2.2.2.2.2.2 (h.2.2.2.1 (by decide))
  exact ⟨s, hs, k1, k2, k3⟩

/-! ## Names and their hash -/

theorem cstr_nil : cstr [] = [] := rfl

theorem cstr_cons_zero (s : List Int) : cstr (0 :: s) = [] := by
  simp [cstr]

theorem cstr_cons_of_ne (c : Int) (s : List Int) (h : c ≠ 0) : cstr (c :: s) = c :: cstr s := by
  have hb : (c != 0) = true := by simpa using h
  simp only [cstr, List.takeWhile, hb]

theorem cstr_idem (s : List Int) : cstr (cstr s) = cstr s := by
  induction s with
  | nil => rfl
  | cons c s ih =>
    by_cases h : c = 0
    · subst h; rw [cstr_cons_zero]; rfl
    · rw [cstr_cons_of_ne c s h, cstr_cons_of_ne c _ h, ih]

/-- The hash loop reads the name only up to its terminating zero. -/
theorem name_hash_loop_cstr (s : List Int) : ∀ h : Int,
    name_hash_loop (cstr s) h = name_hash_loop s h := by
  induction s with
  | nil => intro h; rfl
  | cons c s ih =>
    intro h
    by_cases hc : c = 0
    · subst hc; rw [cstr_cons_zero]; simp [name_hash_loop]
    · rw [cstr_cons_of_ne c s hc]
      simp only [name_hash_loop, hc, if_false]
      exact ih _

theorem name_hash_cstr (s : List Int) : name_hash (cstr s) = name_hash s := by
  unfold name_hash
  rw [name_hash_loop_cstr]

/-- Names that `strcmp` finds equal have the same hash. -/
theorem name_hash_congr {s t : List Int} (h : cstr s = cstr t) : name_hash s = name_hash t := by
  rw [← name_hash_cstr s, ← name_hash_cstr t, h]

theorem strcmp_eq_iff (a b : List Int) : strcmp_eq a b = true ↔ cstr a = cstr b := by
  simp [strcmp_eq]

/-! ## Doubly linked lists of queues -/

theorem qlist_zero_not_mem {Q : Nat → queue_t} {l : List Nat} :
    ∀ {before p : Nat}, QList Q before p l → 0 ∉ l := by
  induction l with
  | nil => intro _ _ _; simp
  | cons a t ih =>
    intro before p h
    obtain ⟨_, ha, _, ht⟩ := h
    simp only [List.mem_cons, not_or]
    exact ⟨fun h0 => ha h0.symm, ih ht⟩

/-- A list only depends on the `prev` and `next` fields of its own queues. -/
theorem qlist_congr {Q Q' : Nat → queue_t} {l : List Nat}
    (hn : ∀ a ∈ l, (Q' a).next = (Q a).next) (hp : ∀ a ∈ l, (Q' a).prev = (Q a).prev) :
    ∀ {before p : Nat}, QList Q before p l → QList Q' before p l := by
  induction l with
  | nil => intro _ _ h; exact h
  | cons a t ih =>
    intro before p h
    obtain ⟨h1, h2, h3, h4⟩ := h
    refine ⟨h1, h2, ?_, ?_⟩
    · rw [hp a (List.mem_cons_self _ _)]; exact h3
    · rw [hn a (List.mem_cons_self _ _)]
      exact ih (fun x hx => hn x (List.mem_cons_of_mem _ hx))
        (fun x hx => hp x (List.mem_cons_of_mem _ hx)) h4

/-- With enough iterations the search loop returns the first queue of the list whose
name matches, or `NULL` when there is none. -/
theorem bucket_scan_spec (Q : Nat → queue_t) (name : List Int) :
    ∀ (l : List Nat) (fuel before p : Nat), QList Q before p l → l.length < fuel →
    bucket_scan Q name fuel p =
      some ((l.find? (fun a => strcmp_eq (Q a).name name)).getD 0) := by
  intro l
  induction l with
  | nil =>
    intro fuel before p h _
    have hp : p = 0 := h
    subst hp
    cases fuel <;> simp [bucket_scan]
  | cons a t ih =>
    intro fuel before p h hf
    obtain ⟨h1, h2, _, h4⟩ := h
    subst h1
    cases fuel with
    | zero => simp at hf
    | succ fuel =>
      simp only [bucket_scan, h2, if_false]
      by_cases hs : strcmp_eq (Q p).name name = true
      · simp [hs]
      · simp only [hs, if_false]
        rw [ih fuel p (Q p).next h4 (by simpa using hf)]
        simp [List.find?, hs]

/-- The search result is `NULL` exactly when no queue of the list has the name. -/
theorem find_name_eq_zero_iff (Q : Nat → queue_t) (name : List Int) (l : List Nat)
    (h0 : 0 ∉ l) :
    (l.find? (fun a => strcmp_eq (Q a).name name)).getD 0 = 0 ↔
      ∀ a ∈ l, cstr (Q a).name ≠ cstr name := by
  induction l with
  | nil => simp
  | cons a t ih =>
    simp only [List.mem_cons, not_or] at h0
    by_cases hs : strcmp_eq (Q a).name name = true
    · have hc := (strcmp_eq_iff _ _).mp hs
      simp only [List.find?, hs, Option.getD_some, List.mem_cons, forall_eq_or_imp]
      constructor
      · intro h; exact absurd h.symm h0.1
      · intro h; exact absurd hc h.1
    · have hc : cstr (Q a).name ≠ cstr name := fun h => hs ((strcmp_eq_iff _ _).mpr h)
      simp only [List.find?, hs, List.mem_cons, forall_eq_or_imp]
      rw [ih h0.2]
      exact ⟨fun h => ⟨hc, h⟩, fun h => h.2⟩

/-- A search result other than `NULL` is a queue of the list with the name. -/
theorem find_name_mem (Q : Nat → queue_t) (name : List Int) (l : List Nat) (r : Nat)
    (hr : (l.find? (fun a => strcmp_eq (Q a).name name)).getD 0 = r) (hr0 : r ≠ 0) :
    r ∈ l ∧ cstr (Q r).name = cstr name := by
  cases hf : l.find? (fun a => strcmp_eq (Q a).name name) with
  | none => rw [hf] at hr; exact absurd hr.symm hr0
  | some x =>
    rw [hf] at hr
    simp only [Option.getD_some] at hr
    subst hr
    have hx : strcmp_eq (Q x).name name = true :=
      List.find?_some (p := fun a => strcmp_eq (Q a).name name) hf
    exact ⟨List.mem_of_find?_eq_some hf, (strcmp_eq_iff _ _).mp hx⟩

/-- Appending a queue behind the last one of a non-empty list. -/
theorem qlist_snoc {Q Q' : Nat → queue_t} (q : Nat) (hq0 : q ≠ 0) :
    ∀ (l : List Nat) (before p : Nat), l ≠ [] → QList Q before p l → l.Nodup →
    (∀ a ∈ l, a ≠ last_or_null l → (Q' a).next = (Q a).next) →
    (∀ a ∈ l, (Q' a).prev = (Q a).prev) →
    (Q' (last_or_null l)).next = q → (Q' q).next = 0 → (Q' q).prev = last_or_null l →
    QList Q' before p (l ++ [q]) := by
  intro l
  induction l with
  | nil => intro _ _ h; exact absurd rfl h
  | cons a t ih =>
    intro before p _ h hnd hn hp h3 h4 h5
    obtain ⟨h1, h2, hprev, hrest⟩ := h
    cases t with
    | nil =>
      rw [last_or_null_singleton] at h3 h5
      refine ⟨h1, h2, ?_, ?_⟩
      · rw [hp a (List.mem_cons_self _ _)]; exact hprev
      · rw [h3]
        exact ⟨rfl, hq0, h5, h4⟩
    | cons b t =>
      rw [last_or_null_cons_cons] at h3 h5 hn
      have hlast : last_or_null (b :: t) ∈ b :: t := last_or_null_mem _ (by simp)
      have hne : a ≠ last_or_null (b :: t) := by
        intro h
        rw [← h] at hlast
        exact (List.nodup_cons.mp hnd).1 hlast
      refine ⟨h1, h2, ?_, ?_⟩
      · rw [hp a (List.mem_cons_self _ _)]; exact hprev
      · rw [hn a (List.mem_cons_self _ _) hne]
        exact ih a (Q a).next (by simp) hrest (List.nodup_cons.mp hnd).2
          (fun x hx hxl => hn x (List.mem_cons_of_mem _ hx) hxl)
          (fun x hx => hp x (List.mem_cons_of_mem _ hx)) h3 h4 h5

/-! ## `queues_add` -/

theorem queues_link_msgs (W : World) (q : Nat) (h : Int) :
    (queues_link W q h).msgs = W.msgs := rfl

theorem queues_link_freed (W : World) (q : Nat) (h : Int) :
    (queues_link W q h).freed_queues = W.freed_queues ∧
      (queues_link W q h).freed_msgs = W.freed_msgs := ⟨rfl, rfl⟩

theorem queues_link_table (W : World) (q : Nat) (h : Int) :
    (queues_link W q h)._queues = Function.update W._queues h
      { head := if (W._queues h).head = 0 then q else (W._queues h).head, tail := q } := rfl

/-- Linking touches only the `next`, `prev` and `bucket` fields. -/
theorem queues_link_payload (W : World) (q : Nat) (h : Int) (a : Nat) :
    ((queues_link W q h).queues a).name = (W.queues a).name ∧
    ((queues_link W q h).queues a).refs = (W.queues a).refs ∧
    ((queues_link W q h).queues a).msg_head = (W.queues a).msg_head ∧
    ((queues_link W q h).queues a).msg_tail = (W.queues a).msg_tail ∧
    ((queues_link W q h).queues a).limit = (W.queues a).limit ∧
    ((queues_link W q h).queues a).count = (W.queues a).count := by
  by_cases ht : (W._queues h).tail = 0
  · simp only [queues_link, ht, ne_eq, not_true_eq_false, if_false, Function.update_apply]
    by_cases ha : a = q
    · subst ha; simp
    · simp [ha]
  · simp only [queues_link, ht, ne_eq, not_false_eq_true, if_true, Function.update_apply]
    by_cases ha : a = q
    · subst ha
      by_cases h2 : a = (W._queues h).tail
      · simp [← h2]
      · simp [h2]
    · by_cases h2 : a = (W._queues h).tail
      · simp [ha, ← h2]
      · simp [ha, h2]

/-- The fields of the queue just linked. -/
theorem queues_link_self (W : World) (q : Nat) (h : Int) (hqt : q ≠ (W._queues h).tail) :
    ((queues_link W q h).queues q).next = 0 ∧
    ((queues_link W q h).queues q).prev = (W._queues h).tail ∧
    ((queues_link W q h).queues q).bucket = h := by
  by_cases ht : (W._queues h).tail = 0
  · simp only [queues_link, ht, ne_eq, not_true_eq_false, if_false, Function.update_apply]
    simp
  · simp only [queues_link, ht, ne_eq, not_false_eq_true, if_true, Function.update_apply]
    simp [hqt]

/-- The fields of the other queues. -/
theorem queues_link_other (W : World) (q : Nat) (h : Int) (a : Nat) (ha : a ≠ q) :
    ((queues_link W q h).queues a).prev = (W.queues a).prev ∧
    ((queues_link W q h).queues a).bucket = (W.queues a).bucket ∧
    (a ≠ (W._queues h).tail → ((queues_link W q h).queues a).next = (W.queues a).next) ∧
    (a = (W._queues h).tail → a ≠ 0 → ((queues_link W q h).queues a).next = q) := by
  by_cases ht : (W._queues h).tail = 0
  · simp only [queues_link, ht, ne_eq, not_true_eq_false, if_false, Function.update_apply]
    simp only [ha, if_false]
    exact ⟨trivial, trivial, fun _ => trivial, fun h1 h2 => absurd h1 h2⟩
  · simp only [queues_link, ht, ne_eq, not_false_eq_true, if_true, Function.update_apply]
    simp only [ha, if_false]
    by_cases h2 : a = (W._queues h).tail
    · simp [← h2, ha]
    · simp [h2]

theorem mem_bucket_append (B : Int → List Nat) (h b : Int) (q a : Nat) :
    a ∈ (Function.update B h (B h ++ [q])) b ↔ a ∈ B b ∨ (b = h ∧ a = q) := by
  by_cases hb : b = h
  · subst hb; simp
  · simp [Function.update_noteq hb, hb]

/-- The tail pointer of a bucket is `NULL` or one of the bucket's queues. -/
theorem Registry.tail_mem {W : World} {B : Int → List Nat} (hreg : Registry W B) (b : Int) :
    (W._queues b).tail = 0 ∨ (W._queues b).tail ∈ B b := by
  rw [(hreg.1 b).2.1]
  cases hl : B b with
  | nil => left; rfl
  | cons a t => right; exact last_or_null_mem _ (by simp)

/-- A queue is in at most one bucket. -/
theorem Registry.bucket_unique {W : World} {B : Int → List Nat} (hreg : Registry W B)
    {b b' : Int} {a : Nat} (h : a ∈ B b) (h' : a ∈ B b') : b = b' := by
  rw [← (hreg.2.1 b a h).1, ← (hreg.2.1 b' a h').1]

theorem Registry.ne_zero {W : World} {B : Int → List Nat} (hreg : Registry W B)
    {b : Int} {a : Nat} (h : a ∈ B b) : a ≠ 0 := by
  intro h0
  rw [h0] at h
  exact qlist_zero_not_mem (hreg.1 b).1 h

/-- Linking a new queue with a new name keeps the registry well formed; the queue
becomes the last element of the bucket of its name's hash. -/
theorem queues_link_registry (W : World) (B : Int → List Nat) (q : Nat)
    (hreg : Registry W B) (hq0 : q ≠ 0) (hfresh : ∀ b, q ∉ B b)
    (hnew : ∀ b, ∀ a ∈ B b, cstr (W.queues a).name ≠ cstr (W.queues q).name) :
    Registry (queues_link W q (name_hash (W.queues q).name))
      (Function.update B (name_hash (W.queues q).name)
        (B (name_hash (W.queues q).name) ++ [q])) := by
  have htail := (hreg.1 (name_hash (W.queues q).name)).2.1
  have hqt : q ≠ (W._queues (name_hash (W.queues q).name)).tail := by
    rcases hreg.tail_mem (name_hash (W.queues q).name) with h | h
    · rw [h]; exact hq0
    · intro he; rw [← he] at h; exact hfresh _ h
  obtain ⟨hs1, hs2, hs3⟩ := queues_link_self W q (name_hash (W.queues q).name) hqt
  have hname : ∀ a, ((queues_link W q (name_hash (W.queues q).name)).queues a).name =
      (W.queues a).name := fun a => (queues_link_payload W q _ a).1
  refine ⟨?_, ?_, ?_⟩
  · intro b
    by_cases hb : b = name_hash (W.queues q).name
    · subst hb
      obtain ⟨hql, _, hnd⟩ := hreg.1 (name_hash (W.queues q).name)
      rw [Function.update_same, queues_link_table, Function.update_same]
      refine ⟨?_, (last_or_null_concat _ _).symm, ?_⟩
      · cases hB : B (name_hash (W.queues q).name) with
        | nil =>
          rw [hB] at hql htail
          have hh : (W._queues (name_hash (W.queues q).name)).head = 0 := hql
          simp only [hh, if_true, List.nil_append]
          refine ⟨rfl, hq0, ?_, ?_⟩
          · rw [hs2, htail]; rfl
          · rw [hs1]; rfl
        | cons a t =>
          rw [hB] at hql htail hnd
          have hh : (W._queues (name_hash (W.queues q).name)).head = a := hql.1
          have ha0 : a ≠ 0 := hql.2.1
          simp only [hh, ha0, if_false]
          have hql' : QList W.queues 0 a (a :: t) := ⟨rfl, hql.2.1, hql.2.2.1, hql.2.2.2⟩
          have hmem : ∀ x ∈ a :: t, x ≠ q := by
            intro x hx he
            rw [he, ← hB] at hx
            exact hfresh _ hx
          refine qlist_snoc q hq0 (a :: t) 0 a (by simp) hql' hnd ?_ ?_ ?_ hs1 ?_
          · intro x hx hxl
            refine (queues_link_other W q _ x (hmem x hx)).2.2.1 ?_
            rw [htail]; exact hxl
          · intro x hx
            exact (queues_link_other W q _ x (hmem x hx)).1
          · have hlm : last_or_null (a :: t) ∈ a :: t := last_or_null_mem _ (by simp)
            refine (queues_link_other W q _ _ (hmem _ hlm)).2.2.2 htail.symm ?_
            intro h0
            rw [h0, ← hB] at hlm
            exact hreg.ne_zero hlm rfl
          · rw [hs2, htail]
      · rw [List.nodup_append]
        refine ⟨hnd, List.nodup_singleton _, ?_⟩
        intro x hx hx'
        rw [List.mem_singleton] at hx'
        exact hfresh _ (hx' ▸ hx)
    · obtain ⟨hql, htl, hnd⟩ := hreg.1 b
      rw [Function.update_noteq hb, queues_link_table, Function.update_noteq hb]
      refine ⟨?_, htl, hnd⟩
      have hne : ∀ x ∈ B b, x ≠ q := fun x hx he => hfresh b (he ▸ hx)
      refine qlist_congr ?_ ?_ hql
      · intro x hx
        refine (queues_link_other W q _ x (hne x hx)).2.2.1 ?_
        intro he
        rcases hreg.tail_mem (name_hash (W.queues q).name) with h | h
        · rw [h] at he; exact hreg.ne_zero hx he
        · rw [← he] at h; exact hb (hreg.bucket_unique hx h)
      · intro x hx
        exact (queues_link_other W q _ x (hne x hx)).1
  · intro b a ha
    rw [mem_bucket_append] at ha
    rw [hname]
    rcases ha with ha | ⟨hb, ha⟩
    · have hne : a ≠ q := fun he => hfresh b (he ▸ ha)
      exact ⟨(hreg.2.1 b a ha).1, by
        rw [(queues_link_other W q _ a hne).2.1]; exact (hreg.2.1 b a ha).2⟩
    · subst ha; subst hb
      exact ⟨rfl, hs3⟩
  · intro b b' a ha a' ha' hn
    rw [mem_bucket_append] at ha ha'
    rw [hname, hname] at hn
    rcases ha with ha | ⟨_, ha⟩ <;> rcases ha' with ha' | ⟨_, ha'⟩
    · exact hreg.2.2 b b' a ha a' ha' hn
    · subst ha'; exact absurd hn (hnew b a ha)
    · subst ha; exact absurd hn.symm (hnew b' a' ha')
    · rw [ha, ha']

/-- The registry only depends on the table and on the `next`, `prev`, `name` and
`bucket` fields of the registered queues. -/
theorem registry_congr {W W' : World} {B : Int → List Nat} (ht : W'._queues = W._queues)
    (hf : ∀ b, ∀ a ∈ B b,
      (W'.queues a).next = (W.queues a).next ∧ (W'.queues a).prev = (W.queues a).prev ∧
      (W'.queues a).name = (W.queues a).name ∧ (W'.queues a).bucket = (W.queues a).bucket)
    (hreg : Registry W B) : Registry W' B := by
  refine ⟨?_, ?_, ?_⟩
  · intro b
    obtain ⟨hql, htl, hnd⟩ := hreg.1 b
    rw [ht]
    exact ⟨qlist_congr (fun a ha => (hf b a ha).1) (fun a ha => (hf b a ha).2.1) hql, htl, hnd⟩
  · intro b a ha
    rw [(hf b a ha).2.2.1, (hf b a ha).2.2.2]
    exact hreg.2.1 b a ha
  · intro b b' a ha a' ha' hn
    rw [(hf b a ha).2.2.1, (hf b' a' ha').2.2.1] at hn
    exact hreg.2.2 b b' a ha a' ha' hn

/-- Creating a queue in a block that is not registered leaves the registry as it is. -/
theorem queue_create_registry {W : World} {B : Int → List Nat} (q : Nat) (name : List Int)
    (limit : Int) (hfresh : ∀ b, q ∉ B b) (hreg : Registry W B) :
    Registry (queue_create W q name limit) B := by
  refine registry_congr (W := W) rfl ?_ hreg
  intro b a ha
  have hne : a ≠ q := fun he => hfresh b (he ▸ ha)
  simp [queue_create, Function.update_noteq hne]

theorem registry_init : Registry World.init (fun _ => []) := by
  refine ⟨fun b => ⟨rfl, rfl, List.nodup_nil⟩, ?_, ?_⟩
  · intro b a ha; simp at ha
  · intro b b' a ha; simp at ha

/-- In a well-formed registry `bucket_search` returns the first queue of the bucket
with the name, or `NULL`. -/
theorem bucket_search_spec (fuel : Nat) (W : World) (B : Int → List Nat) (b : Int)
    (name : List Int) (hreg : Registry W B) (hfuel : (B b).length < fuel) :
    bucket_search fuel W b name =
      some (((B b).find? (fun a => strcmp_eq (W.queues a).name name)).getD 0) :=
  bucket_scan_spec W.queues name (B b) fuel 0 _ (hreg.1 b).1 hfuel

/-- A name is registered exactly when it is found in the bucket of its hash. -/
theorem registered_iff (W : World) (B : Int → List Nat) (name : List Int)
    (hreg : Registry W B) :
    (∃ b, ∃ a ∈ B b, cstr (W.queues a).name = cstr name) ↔
      ((B (name_hash name)).find? (fun a => strcmp_eq (W.queues a).name name)).getD 0 ≠ 0 := by
  have h0 : (0 : Nat) ∉ B (name_hash name) := qlist_zero_not_mem (hreg.1 _).1
  rw [Ne, find_name_eq_zero_iff W.queues name _ h0]
  constructor
  · rintro ⟨b, a, ha, hn⟩ hall
    have hb : b = name_hash name := by
      rw [← (hreg.2.1 b a ha).1]
      exact name_hash_congr hn
    subst hb
    exact hall a ha hn
  · intro h
    by_contra hne
    exact h (fun a ha hn => hne ⟨_, a, ha, hn⟩)

/-- Result of `queues_get` on a hit and on a miss. -/
theorem queues_get_eq (fuel : Nat) (W : World) (B : Int → List Nat) (name : List Int)
    (hreg : Registry W B) (hfuel : (B (name_hash name)).length < fuel) :
    queues_get fuel W name =
      if ((B (name_hash name)).find? (fun a => strcmp_eq (W.queues a).name name)).getD 0 ≠ 0
      then some ((queue_acquire W
          (((B (name_hash name)).find? (fun a => strcmp_eq (W.queues a).name name)).getD 0)).1,
        ((B (name_hash name)).find? (fun a => strcmp_eq (W.queues a).name name)).getD 0)
      else some (W, 0) := by
  unfold queues_get
  simp only
  rw [bucket_search_spec fuel W B _ name hreg hfuel]
  simp only
  split
  · rfl
  · rename_i h
    rw [not_not.mp h]

theorem queue_acquire_registry {W : World} {B : Int → List Nat} (a : Nat)
    (hreg : Registry W B) : Registry (queue_acquire W a).1 B := by
  refine registry_congr (W := W) rfl ?_ hreg
  intro b x _
  simp only [queue_acquire, set_refs, Function.update_apply]
  by_cases hx : x = a
  · subst hx; simp
  · simp [hx]

/-- `queues_get` on a registered name returns the queue of that name after
`queue_acquire`. -/
theorem queues_get_hit (fuel : Nat) (W : World) (B : Int → List Nat) (name : List Int)
    (q : Nat) (b : Int) (hreg : Registry W B) (hq : q ∈ B b)
    (hn : cstr (W.queues q).name = cstr name) (hfuel : (B (name_hash name)).length < fuel) :
    queues_get fuel W name = some ((queue_acquire W q).1, q) := by
  have hfound : ((B (name_hash name)).find?
      (fun a => strcmp_eq (W.queues a).name name)).getD 0 ≠ 0 :=
    (registered_iff W B name hreg).mp ⟨b, q, hq, hn⟩
  have hmem := find_name_mem W.queues name _ _ rfl hfound
  have he : ((B (name_hash name)).find?
      (fun a => strcmp_eq (W.queues a).name name)).getD 0 = q :=
    hreg.2.2 _ _ _ hmem.1 q hq (hmem.2.trans hn.symm)
  rw [queues_get_eq fuel W B name hreg hfuel, if_pos hfound, he]

/-- `queues_get` on a name that is not registered returns `NULL` and changes
nothing. -/
theorem queues_get_miss (fuel : Nat) (W : World) (B : Int → List Nat) (name : List Int)
    (hreg : Registry W B) (hn : ∀ b, ∀ a ∈ B b, cstr (W.queues a).name ≠ cstr name)
    (hfuel : (B (name_hash name)).length < fuel) :
    queues_get fuel W name = some (W, 0) := by
  have hfound : ¬ ((B (name_hash name)).find?
      (fun a => strcmp_eq (W.queues a).name name)).getD 0 ≠ 0 := by
    intro h
    obtain ⟨b, a, ha, hna⟩ := (registered_iff W B name hreg).mpr h
    exact hn b a ha hna
  rw [queues_get_eq fuel W B name hreg hfuel, if_neg hfound]

/-- `queues_add` of a queue whose name is not registered links it and returns 1. -/
theorem queues_add_new (fuel : Nat) (W : World) (B : Int → List Nat) (q : Nat)
    (hreg : Registry W B)
    (hnew : ∀ b, ∀ a ∈ B b, cstr (W.queues a).name ≠ cstr (W.queues q).name)
    (hfuel : (B (name_hash (W.queues q).name)).length < fuel) :
    queues_add fuel W q = some (queues_link W q (name_hash (W.queues q).name), 1) := by
  have hfound : ((B (name_hash (W.queues q).name)).find?
      (fun a => strcmp_eq (W.queues a).name (W.queues q).name)).getD 0 = 0 := by
    by_contra h
    obtain ⟨b, a, ha, hna⟩ := (registered_iff W B _ hreg).mpr h
    exact hnew b a ha hna
  simp only [queues_add, bucket_search_spec fuel W B _ _ hreg hfuel, hfound, ne_eq,
    not_true_eq_false, if_false]

/-- A fresh queue named `name` registered in the empty registry: the resulting
memory and registry contents. -/
theorem registry_single (q : Nat) (name : List Int) (limit : Int) (hq0 : q ≠ 0) :
    queues_add 1 (queue_create World.init q name limit) q =
      some (queues_link (queue_create World.init q name limit) q (name_hash name), 1) ∧
    Registry (queues_link (queue_create World.init q name limit) q (name_hash name))
      (Function.update (fun _ => []) (name_hash name) [q]) := by
  have hn : ((queue_create World.init q name limit).queues q).name = cstr name := by
    rw [queue_create_queue]
  have hh : name_hash ((queue_create World.init q name limit).queues q).name = name_hash name := by
    rw [hn, name_hash_cstr]
  have hreg0 : Registry (queue_create World.init q name limit) (fun _ => []) :=
    queue_create_registry q name limit (by simp) registry_init
  have hadd := queues_add_new 1 _ (fun _ => []) q hreg0 (by simp) (by simp)
  have hreg1 := queues_link_registry _ (fun _ => []) q hreg0 hq0 (by simp) (by simp)
  rw [hh] at hadd hreg1
  exact ⟨hadd, by simpa using hreg1⟩

/-- C8: for every well-formed registry state and every queue `q` not yet registered,
`queues_add(q)` returns 0 if and only if some registered queue has a name equal
to `q`'s (as `strcmp` compares), and then nothing at all is changed and
`queues_get` of that name still returns the queue registered before; otherwise
it returns 1, `q` becomes the last element of bucket `name_hash(q.name)`,
`q.bucket` is that index, and apart from the list pointers and `q.bucket`
nothing is changed. -/
theorem queues_add_spec (fuel : Nat) (W : World) (B : Int → List Nat) (q : Nat)
    (hreg : Registry W B) (hq0 : q ≠ 0) (hfresh : ∀ b, q ∉ B b)
    (hfuel : (B (name_hash (W.queues q).name)).length < fuel) :
    ∃ W' r, queues_add fuel W q = some (W', r) ∧
      (r = 0 ↔ ∃ b, ∃ a ∈ B b, cstr (W.queues a).name = cstr (W.queues q).name) ∧
      (r = 0 → W' = W ∧
        ∃ a, (∃ b, a ∈ B b) ∧ cstr (W.queues a).name = cstr (W.queues q).name ∧
          (∀ b, ∀ a' ∈ B b, cstr (W.queues a').name = cstr (W.queues q).name → a' = a) ∧
          ∃ W'', queues_get fuel W' (W.queues q).name = some (W'', a)) ∧
      (r ≠ 0 → r = 1 ∧
        Registry W' (Function.update B (name_hash (W.queues q).name)
          (B (name_hash (W.queues q).name) ++ [q])) ∧
        (W'.queues q).bucket = name_hash (W.queues q).name ∧
        W'.msgs = W.msgs ∧ W'.freed_queues = W.freed_queues ∧
        ∀ a, (W'.queues a).name = (W.queues a).name ∧ (W'.queues a).refs = (W.queues a).refs ∧
          (W'.queues a).msg_head = (W.queues a).msg_head ∧
          (W'.queues a).msg_tail = (W.queues a).msg_tail ∧
          (W'.queues a).limit = (W.queues a).limit ∧
          (W'.queues a).count = (W.queues a).count) := by
  have hsearch := bucket_search_spec fuel W B _ (W.queues q).name hreg hfuel
  have hiff := registered_iff W B (W.queues q).name hreg
  by_cases hfound : ((B (name_hash (W.queues q).name)).find?
      (fun a => strcmp_eq (W.queues a).name (W.queues q).name)).getD 0 = 0
  · -- no queue of that name: the queue is linked
    have hnone : ¬ ∃ b, ∃ a ∈ B b, cstr (W.queues a).name = cstr (W.queues q).name :=
      fun h => (hiff.mp h) hfound
    have hnew : ∀ b, ∀ a ∈ B b, cstr (W.queues a).name ≠ cstr (W.queues q).name :=
      fun b a ha hn => hnone ⟨b, a, ha, hn⟩
    refine ⟨queues_link W q (name_hash (W.queues q).name), 1, ?_, ?_, ?_, ?_⟩
    · simp only [queues_add, hsearch, hfound, ne_eq, not_true_eq_false, if_false]
    · exact ⟨fun h => absurd h (by decide), fun h => absurd h hnone⟩
    · intro h; exact absurd h (by decide)
    · intro _
      have hqt : q ≠ (W._queues (name_hash (W.queues q).name)).tail := by
        rcases hreg.tail_mem (name_hash (W.queues q).name) with h | h
        · rw [h]; exact hq0
        · intro he; rw [← he] at h; exact hfresh _ h
      exact ⟨rfl, queues_link_registry W B q hreg hq0 hfresh hnew,
        (queues_link_self W q _ hqt).2.2, rfl, rfl, fun a => queues_link_payload W q _ a⟩
  · -- a queue of that name is registered: nothing happens
    have hmem := find_name_mem W.queues (W.queues q).name _ _ rfl hfound
    refine ⟨W, 0, ?_, ?_, ?_, ?_⟩
    · simp only [queues_add, hsearch, ne_eq, hfound, not_false_eq_true, if_true]
    · exact ⟨fun _ => hiff.mpr hfound, fun _ => rfl⟩
    · intro _
      refine ⟨rfl, _, ⟨_, hmem.1⟩, hmem.2, ?_, ?_⟩
      · intro b a' ha' hn
        exact hreg.2.2 _ _ a' ha' _ hmem.1 (hn.trans hmem.2.symm)
      · rw [queues_get_eq fuel W B _ hreg hfuel]
        simp only [ne_eq, hfound, not_false_eq_true, if_true]
        exact ⟨_, rfl⟩
    · intro h; exact absurd rfl h

/-- C8, witness: registering a queue named "x" in the empty registry succeeds, and
registering a second queue of the same name is refused. -/
theorem queues_add_spec_witness :
    ∃ W1, queues_add 1 (queue_create World.init 1 [120] 0) 1 = some (W1, 1) ∧
      (W1.queues 1).bucket = name_hash [120] ∧
      queues_add 2 (queue_create W1 2 [120] 5) 2 = some (queue_create W1 2 [120] 5, 0) := by
  have hn1 : ((queue_create World.init 1 [120] 0).queues 1).name = [120] := by
    rw [queue_create_queue]; rfl
  have hreg0 : Registry (queue_create World.init 1 [120] 0) (fun _ => []) :=
    queue_create_registry 1 [120] 0 (by simp) registry_init
  obtain ⟨W1, r, hadd, hiff, _, hok⟩ := queues_add_spec 1 _ (fun _ => []) 1 hreg0
    (by decide) (by simp) (by simp)
  have hr : r ≠ 0 := by
    intro h0
    obtain ⟨b, a, ha, _⟩ := hiff.mp h0
    simp at ha
  obtain ⟨hr1, hreg1, hb1, _, _, hpay⟩ := hok hr
  subst hr1
  rw [hn1] at hreg1 hb1
  have hfresh : ∀ b, 2 ∉ Function.update (fun _ => ([] : List Nat)) (name_hash [120])
      (([] : List Nat) ++ [1]) b := by
    intro b hb
    rw [mem_bucket_append] at hb
    simp at hb
  have hreg2 : Registry (queue_create W1 2 [120] 5) _ :=
    queue_create_registry 2 [120] 5 hfresh hreg1
  have hn2 : ((queue_create W1 2 [120] 5).queues 2).name = [120] := by
    rw [queue_create_queue]; rfl
  have hn12 : ((queue_create W1 2 [120] 5).queues 1).name = [120] := by
    have : (queue_create W1 2 [120] 5).queues 1 = W1.queues 1 := by
      simp [queue_create]
    rw [this, (hpay 1).1, hn1]
  obtain ⟨W2, r2, hadd2, hiff2, hrej, _⟩ := queues_add_spec 2 _ _ 2 hreg2
    (by decide) hfresh (by rw [hn2]; simp)
  have hr2 : r2 = 0 := by
    refine hiff2.mpr ⟨name_hash [120], 1, ?_, ?_⟩
    · simp
    · rw [hn12, hn2]
  subst hr2
  rw [(hrej rfl).1] at hadd2
  exact ⟨W1, hadd, hb1, hadd2⟩

/-! ## `queues_get` -/

/-- C9 (as amended): in every well-formed registry state (the states reached
through `queues_add`, `queues_get` and `queue_release`), `queues_get(name)`
returns a queue if and only if a queue with exactly that name is registered, and
the queue returned is that one; on a hit its `refs` is incremented by exactly 1
whenever `refs < INT_MAX` (the stored value is always the 32-bit result of
`refs ++`), nothing else is written and no bucket list changes; on a miss it
returns `NULL` and changes nothing. -/
theorem queues_get_spec (fuel : Nat) (W : World) (B : Int → List Nat) (name : List Int)
    (hreg : Registry W B) (hfuel : (B (name_hash name)).length < fuel) :
    ∃ W' r, queues_get fuel W name = some (W', r) ∧
      (r ≠ 0 ↔ ∃ b, ∃ a ∈ B b, cstr (W.queues a).name = cstr name) ∧
      (r ≠ 0 →
        (∃ b, r ∈ B b) ∧ cstr (W.queues r).name = cstr name ∧
        (∀ b, ∀ a ∈ B b, cstr (W.queues a).name = cstr name → a = r) ∧
        (W'.queues r).refs = wrap32 ((W.queues r).refs + 1) ∧
        (-2147483648 ≤ (W.queues r).refs → (W.queues r).refs < 2147483647 →
          (W'.queues r).refs = (W.queues r).refs + 1) ∧
        W'.queues r = { (W.queues r) with refs := (W'.queues r).refs } ∧
        (∀ a, a ≠ r → W'.queues a = W.queues a) ∧
        W'._queues = W._queues ∧ W'.msgs = W.msgs ∧ W'.freed_queues = W.freed_queues ∧
        Registry W' B) ∧
      (r = 0 → W' = W) := by
  have heq := queues_get_eq fuel W B name hreg hfuel
  have hiff := registered_iff W B name hreg
  by_cases hfound : ((B (name_hash name)).find?
      (fun a => strcmp_eq (W.queues a).name name)).getD 0 = 0
  · simp only [ne_eq, hfound, not_true_eq_false, if_false] at heq
    refine ⟨W, 0, heq, ?_, fun h => absurd rfl h, fun _ => rfl⟩
    exact ⟨fun h => absurd rfl h, fun h => absurd hfound (hiff.mp h)⟩
  · simp only [ne_eq, hfound, not_false_eq_true, if_true] at heq
    have hmem := find_name_mem W.queues name _ _ rfl hfound
    refine ⟨_, _, heq, ⟨fun _ => hiff.mpr hfound, fun _ => hfound⟩, ?_,
      fun h => absurd h hfound⟩
    intro _
    refine ⟨⟨_, hmem.1⟩, hmem.2, ?_, ?_, ?_, ?_, ?_, rfl, rfl, rfl,
      queue_acquire_registry _ hreg⟩
    · intro b a ha hn
      exact hreg.2.2 _ _ a ha _ hmem.1 (hn.trans hmem.2.symm)
    · simp [queue_acquire, set_refs]
    · intro h1 h2
      simp only [queue_acquire, set_refs, Function.update_same]
      exact wrap32_of_range _ (by omega) (by omega)
    · simp [queue_acquire, set_refs]
    · intro a ha
      simp [queue_acquire, set_refs, Function.update_noteq ha]

/-- C9, witness: with one queue named "x" registered, `queues_get("x")` returns it
and raises its count from 1 to 2, and `queues_get("y")` returns `NULL` and
changes nothing. -/
theorem queues_get_spec_witness :
    ∃ W1, queues_add 1 (queue_create World.init 1 [120] 0) 1 = some (W1, 1) ∧
      (∃ W2, queues_get 2 W1 [120] = some (W2, 1) ∧ (W2.queues 1).refs = 2) ∧
      queues_get 2 W1 [121] = some (W1, 0) := by
  obtain ⟨hadd, hreg1⟩ := registry_single 1 [120] 0 (by decide)
  have hlen : ∀ b, (Function.update (fun _ => ([] : List Nat)) (name_hash [120]) [1] b).length
      < 2 := by
    intro b
    by_cases hb : b = name_hash [120]
    · subst hb; simp
    · simp [Function.update_noteq hb]
  have hname1 : ((queues_link (queue_create World.init 1 [120] 0) 1 (name_hash [120])).queues
      1).name = [120] := by
    rw [(queues_link_payload _ 1 _ 1).1, queue_create_queue]; rfl
  have hrefs1 : ((queues_link (queue_create World.init 1 [120] 0) 1 (name_hash [120])).queues
      1).refs = 1 := by
    rw [(queues_link_payload _ 1 _ 1).2.1, queue_create_queue]
  refine ⟨_, hadd, ?_, ?_⟩
  · obtain ⟨W2, r2, hget, hiff2, hhit, _⟩ := queues_get_spec 2 _ _ [120] hreg1 (hlen _)
    have hr2 : r2 ≠ 0 := hiff2.mpr ⟨name_hash [120], 1, by simp, by rw [hname1]⟩
    obtain ⟨⟨b, hb⟩, _, _, _, hinc, _⟩ := hhit hr2
    have h21 : r2 = 1 := by
      by_cases hbb : b = name_hash [120]
      · subst hbb; simpa using hb
      · simp [Function.update_noteq hbb] at hb
    subst h21
    refine ⟨W2, hget, ?_⟩
    rw [hinc (by rw [hrefs1]; decide) (by rw [hrefs1]; decide), hrefs1]
    rfl
  · obtain ⟨W2, r2, hget, hiff2, _, hmiss⟩ := queues_get_spec 2 _ _ [121] hreg1 (hlen _)
    have hr2 : r2 = 0 := by
      by_contra hne
      obtain ⟨b, a, ha, hn⟩ := hiff2.mp hne
      by_cases hbb : b = name_hash [120]
      · subst hbb
        simp only [Function.update_same, List.mem_singleton] at ha
        subst ha
        rw [hname1] at hn
        exact absurd hn (by decide)
      · simp [Function.update_noteq hbb] at ha
    subst hr2
    rw [hmiss rfl] at hget
    exact hget

/-! ## Unlinking a queue -/

theorem last_or_null_append (l₁ l₂ : List Nat) :
    last_or_null (l₁ ++ l₂) = if l₂ = [] then last_or_null l₁ else last_or_null l₂ := by
  cases l₂ with
  | nil => simp
  | cons b t =>
    simp only [last_or_null, List.getLast?_append, reduceCtorEq, if_false]
    cases h : (b :: t).getLast? with
    | none => simp at h
    | some x => simp

theorem QList.head_eq_zero_iff {Q : Nat → queue_t} {l : List Nat} {before p : Nat}
    (h : QList Q before p l) : p = 0 ↔ l = [] := by
  cases l with
  | nil => exact ⟨fun _ => rfl, fun _ => h⟩
  | cons a t =>
    obtain ⟨h1, h2, _, _⟩ := h
    exact ⟨fun h0 => absurd (h1.symm.trans h0) h2, fun h0 => absurd h0 (by simp)⟩

theorem QList.head_mem {Q : Nat → queue_t} {l : List Nat} {before p : Nat}
    (h : QList Q before p l) : p = 0 ∨ p ∈ l := by
  cases l with
  | nil => exact Or.inl h
  | cons a t => right; rw [h.1]; exact List.mem_cons_self _ _

/-- The neighbours of a queue `q` inside a list. -/
theorem QList.mid {Q : Nat → queue_t} (q : Nat) (l₂ : List Nat) :
    ∀ (l₁ : List Nat) (before p : Nat), QList Q before p (l₁ ++ q :: l₂) →
    q ≠ 0 ∧ (Q q).prev = (if l₁ = [] then before else last_or_null l₁) ∧
      QList Q q (Q q).next l₂ := by
  intro l₁
  induction l₁ with
  | nil =>
    intro before p h
    obtain ⟨_, h2, h3, h4⟩ := h
    exact ⟨h2, by simpa using h3, h4⟩
  | cons a t ih =>
    intro before p h
    obtain ⟨_, _, _, h4⟩ := h
    obtain ⟨k1, k2, k3⟩ := ih a (Q a).next h4
    refine ⟨k1, ?_, k3⟩
    rw [k2]
    cases t with
    | nil => simp [last_or_null]
    | cons b t => simp [last_or_null_cons_cons]

/-- Taking `q` out of a list: the predecessor's `next` and the successor's `prev`
are redirected around `q`, all other links stay. -/
theorem QList.remove {Q Q' : Nat → queue_t} (q : Nat) (l₂ : List Nat)
    (hn : ∀ a, a ≠ q → a ≠ (Q q).prev → (Q' a).next = (Q a).next)
    (hp : ∀ a, a ≠ q → a ≠ (Q q).next → (Q' a).prev = (Q a).prev)
    (hpn : (Q q).prev ≠ 0 → (Q q).prev ≠ q → (Q' (Q q).prev).next = (Q q).next)
    (hnp : (Q q).next ≠ 0 → (Q q).next ≠ q → (Q' (Q q).next).prev = (Q q).prev) :
    ∀ (l₁ : List Nat) (before p : Nat), QList Q before p (l₁ ++ q :: l₂) →
    (l₁ ++ q :: l₂).Nodup → before ∉ l₁ ++ q :: l₂ →
    QList Q' before (if l₁ = [] then (Q q).next else p) (l₁ ++ l₂) := by
  intro l₁
  induction l₁ with
  | nil =>
    intro before p h hnd hb
    obtain ⟨_, hq0, hprev, hrest⟩ := h
    simp only [List.nil_append, if_true] at hnd hb ⊢
    have hql : q ∉ l₂ := (List.nodup_cons.mp hnd).1
    cases l₂ with
    | nil => exact hrest
    | cons c t =>
      obtain ⟨hc, hc0, hcprev, hcrest⟩ := hrest
      have hcq : c ≠ q := fun h => hql (h ▸ List.mem_cons_self _ _)
      have hcb : c ≠ before := fun h => hb (h ▸ List.mem_cons_of_mem _ (List.mem_cons_self _ _))
      have hnd2 : (c :: t).Nodup := (List.nodup_cons.mp hnd).2
      refine ⟨hc, hc0, ?_, ?_⟩
      · have := hnp (by rw [hc]; exact hc0) (by rw [hc]; exact hcq)
        rw [hc] at this
        rw [this, hprev]
      · rw [hn c hcq (by rw [hprev]; exact hcb)]
        refine qlist_congr ?_ ?_ hcrest
        · intro a ha
          have haq : a ≠ q := fun h => hql (h ▸ List.mem_cons_of_mem _ ha)
          refine hn a haq ?_
          rw [hprev]
          intro h
          exact hb (h ▸ List.mem_cons_of_mem _ (List.mem_cons_of_mem _ ha))
        · intro a ha
          have haq : a ≠ q := fun h => hql (h ▸ List.mem_cons_of_mem _ ha)
          refine hp a haq ?_
          rw [hc]
          intro h
          exact (List.nodup_cons.mp hnd2).1 (h ▸ ha)
  | cons a t ih =>
    intro before p h hnd hb
    obtain ⟨hpa, ha0, haprev, hrest⟩ := h
    simp only [List.cons_append] at hnd hb
    have hnd' : (t ++ q :: l₂).Nodup := (List.nodup_cons.mp hnd).2
    have hat : a ∉ t ++ q :: l₂ := (List.nodup_cons.mp hnd).1
    have haq : a ≠ q := fun h => hat (h ▸ by simp)
    obtain ⟨hq0, hqprev, hqrest⟩ := QList.mid q l₂ t a (Q a).next hrest
    have hnext : (Q q).next = 0 ∨ (Q q).next ∈ l₂ := hqrest.head_mem
    have han : a ≠ (Q q).next := by
      rcases hnext with h | h
      · rw [h]; exact ha0
      · intro he; exact hat (he ▸ by simp [h])
    have hrec := ih a (Q a).next hrest hnd' hat
    simp only [reduceCtorEq, if_false, List.cons_append]
    refine ⟨hpa, ha0, ?_, ?_⟩
    · rw [hp a haq han]; exact haprev
    · cases t with
      | nil =>
        simp only [if_true] at hqprev hrec
        have := hpn (by rw [hqprev]; exact ha0) (by rw [hqprev]; exact haq)
        rw [hqprev] at this
        rw [this]
        exact hrec
      | cons b t =>
        simp only [reduceCtorEq, if_false] at hqprev hrec
        have hlast : last_or_null (b :: t) ∈ b :: t := last_or_null_mem _ (by simp)
        have hap : a ≠ (Q q).prev := by
          rw [hqprev]
          intro he
          rw [← he] at hlast
          exact hat (List.mem_append_left _ hlast)
        rw [hn a haq hap]
        exact hrec

theorem detach_pred_queue (W : World) (q a : Nat) :
    (detach_pred W q).queues a =
      if (W.queues q).prev ≠ 0 ∧ a = (W.queues q).prev then
        { (W.queues a) with next := (W.queues q).next }
      else W.queues a := by
  unfold detach_pred
  by_cases h1 : (W.queues q).prev = 0
  · simp [h1]
  · by_cases h2 : a = (W.queues q).prev
    · simp [h1, h2]
    · simp [h1, h2, Function.update_noteq h2]

theorem detach_pred_table (W : World) (q : Nat) (b : Int) :
    (detach_pred W q)._queues b =
      if (W.queues q).prev = 0 ∧ b = (W.queues q).bucket then
        { (W._queues b) with head := (W.queues q).next }
      else W._queues b := by
  unfold detach_pred
  by_cases h1 : (W.queues q).prev = 0
  · by_cases h2 : b = (W.queues q).bucket
    · simp [h1, h2]
    · simp [h1, h2, Function.update_noteq h2]
  · simp [h1]

theorem detach_succ_queue (W : World) (q a : Nat) :
    (detach_succ W q).queues a =
      if (W.queues q).next ≠ 0 ∧ a = (W.queues q).next then
        { (W.queues a) with prev := (W.queues q).prev }
      else W.queues a := by
  unfold detach_succ
  by_cases h1 : (W.queues q).next = 0
  · simp [h1]
  · by_cases h2 : a = (W.queues q).next
    · simp [h1, h2]
    · simp [h1, h2, Function.update_noteq h2]

theorem detach_succ_table (W : World) (q : Nat) (b : Int) :
    (detach_succ W q)._queues b =
      if (W.queues q).next = 0 ∧ b = (W.queues q).bucket then
        { (W._queues b) with tail := (W.queues q).prev }
      else W._queues b := by
  unfold detach_succ
  by_cases h1 : (W.queues q).next = 0
  · by_cases h2 : b = (W.queues q).bucket
    · simp [h1, h2]
    · simp [h1, h2, Function.update_noteq h2]
  · simp [h1]

/-- The first statement does not touch the unlinked queue itself. -/
theorem detach_pred_self (W : World) (q : Nat) (hP : (W.queues q).prev ≠ q) :
    (detach_pred W q).queues q = W.queues q := by
  rw [detach_pred_queue]
  simp [hP.symm]

theorem detach_succ_pred_self (W : World) (q : Nat) (hP : (W.queues q).prev ≠ q)
    (hN : (W.queues q).next ≠ q) :
    (detach_succ (detach_pred W q) q).queues q = W.queues q := by
  rw [detach_succ_queue, detach_pred_self W q hP]
  simp [hN.symm]

theorem queues_detach_frame (W : World) (q : Nat) :
    (queues_detach W q).msgs = W.msgs ∧ (queues_detach W q).freed_queues = W.freed_queues ∧
      (queues_detach W q).freed_msgs = W.freed_msgs := by
  unfold queues_detach detach_reset detach_succ detach_pred
  simp only
  split <;> split <;> exact ⟨rfl, rfl, rfl⟩

/-- The fields of the queue that was unlinked. -/
theorem queues_detach_self (W : World) (q : Nat) (hP : (W.queues q).prev ≠ q)
    (hN : (W.queues q).next ≠ q) :
    (queues_detach W q).queues q =
      { (W.queues q) with next := 0, prev := 0, bucket := -1 } := by
  unfold queues_detach detach_reset
  simp only [Function.update_same]
  rw [detach_succ_pred_self W q hP hN]

/-- The other queues: only the predecessor's `next` and the successor's `prev`
change. -/
theorem queues_detach_other (W : World) (q a : Nat) (hP : (W.queues q).prev ≠ q)
    (ha : a ≠ q) :
    (queues_detach W q).queues a =
      { (W.queues a) with
        next := if (W.queues q).prev ≠ 0 ∧ a = (W.queues q).prev then (W.queues q).next
          else (W.queues a).next
        prev := if (W.queues q).next ≠ 0 ∧ a = (W.queues q).next then (W.queues q).prev
          else (W.queues a).prev } := by
  unfold queues_detach detach_reset
  simp only [Function.update_noteq ha]
  rw [detach_succ_queue, detach_pred_self W q hP, detach_pred_queue]
  split_ifs <;> rfl

/-- The table after unlinking: only the entry of the queue's bucket can change. -/
theorem queues_detach_table (W : World) (q : Nat) (hP : (W.queues q).prev ≠ q) (b : Int) :
    (queues_detach W q)._queues b =
      { head := if (W.queues q).prev = 0 ∧ b = (W.queues q).bucket then (W.queues q).next
          else (W._queues b).head
        tail := if (W.queues q).next = 0 ∧ b = (W.queues q).bucket then (W.queues q).prev
          else (W._queues b).tail } := by
  unfold queues_detach detach_reset
  simp only
  rw [detach_succ_table, detach_pred_self W q hP, detach_pred_table]
  split_ifs <;> rfl

theorem mem_bucket_erase {W : World} {B : Int → List Nat} (hreg : Registry W B)
    {b : Int} {q : Nat} (hq : q ∈ B b) (b' : Int) (a : Nat) :
    a ∈ (Function.update B b ((B b).erase q)) b' ↔ a ∈ B b' ∧ a ≠ q := by
  by_cases hb : b' = b
  · subst hb
    rw [Function.update_same, (hreg.1 b').2.2.mem_erase_iff]
    exact ⟨fun h => ⟨h.2, h.1⟩, fun h => ⟨h.2, h.1⟩⟩
  · rw [Function.update_noteq hb]
    refine ⟨fun h => ⟨h, ?_⟩, fun h => h.1⟩
    intro he
    rw [he] at h
    exact hb (hreg.bucket_unique h hq)

/-- Unlinking a registered queue keeps the registry well formed: its bucket holds
the former queues without it, in the former order, and every other bucket is
as before. -/
theorem queues_detach_registry (W : World) (B : Int → List Nat) (q : Nat) (b : Int)
    (hreg : Registry W B) (hq : q ∈ B b) :
    Registry (queues_detach W q) (Function.update B b ((B b).erase q)) := by
  obtain ⟨l₁, l₂, hB⟩ := List.append_of_mem hq
  obtain ⟨hql, htl, hnd⟩ := hreg.1 b
  rw [hB] at hql htl hnd
  have hq1 : q ∉ l₁ := by
    intro h
    exact (List.nodup_append.mp hnd).2.2 h (List.mem_cons_self _ _)
  have hq2 : q ∉ l₂ := (List.nodup_cons.mp (List.nodup_append.mp hnd).2.1).1
  have herase : (B b).erase q = l₁ ++ l₂ := by
    rw [hB, List.erase_append_right _ hq1, List.erase_cons_head]
  obtain ⟨hq0, hprev, hrest⟩ := QList.mid q l₂ l₁ 0 _ hql
  have h0 : (0 : Nat) ∉ l₁ ++ q :: l₂ := qlist_zero_not_mem hql
  have hbucket : (W.queues q).bucket = b := (hreg.2.1 b q hq).2
  -- the predecessor
  have hP : (W.queues q).prev = 0 ∨ (W.queues q).prev ∈ l₁ := by
    rw [hprev]
    cases l₁ with
    | nil => left; rfl
    | cons a t => right; simp only [reduceCtorEq, if_false]; exact last_or_null_mem _ (by simp)
  have hP0 : (W.queues q).prev = 0 ↔ l₁ = [] := by
    constructor
    · intro h
      rcases hP with _ | hm
      · by_contra hne
        rw [hprev, if_neg hne] at h
        have := last_or_null_mem l₁ hne
        rw [h] at this
        exact h0 (List.mem_append_left _ this)
      · rw [h] at hm; exact absurd (List.mem_append_left _ hm) h0
    · intro h; rw [hprev, if_pos h]
  have hPq : (W.queues q).prev ≠ q := by
    rcases hP with h | h
    · rw [h]; exact hq0.symm
    · intro he; exact hq1 (he ▸ h)
  -- the successor
  have hN : (W.queues q).next = 0 ∨ (W.queues q).next ∈ l₂ := hrest.head_mem
  have hN0 : (W.queues q).next = 0 ↔ l₂ = [] := hrest.head_eq_zero_iff
  have hNq : (W.queues q).next ≠ q := by
    rcases hN with h | h
    · rw [h]; exact hq0.symm
    · intro he; exact hq2 (he ▸ h)
  have hother := fun a ha => queues_detach_other W q a hPq ha
  have hmemB : ∀ x, x ∈ l₁ ∨ x ∈ l₂ → x ∈ B b := by
    intro x hx
    rw [hB]
    rcases hx with h | h
    · exact List.mem_append_left _ h
    · exact List.mem_append_right _ (List.mem_cons_of_mem _ h)
  refine ⟨?_, ?_, ?_⟩
  · intro b'
    by_cases hb : b' = b
    · subst hb
      rw [Function.update_same, herase, queues_detach_table W q hPq]
      simp only [hbucket, and_true]
      refine ⟨?_, ?_, ?_⟩
      · have hrem := @QList.remove W.queues (queues_detach W q).queues q l₂
          (fun a ha hap => by rw [hother a ha]; simp [hap])
          (fun a ha han => by rw [hother a ha]; simp [han])
          (fun hp0 hpq => by rw [hother _ hpq]; simp [hp0])
          (fun hn0 hnq => by rw [hother _ hnq]; simp [hn0])
          l₁ 0 _ hql hnd h0
        by_cases hl : l₁ = []
        · rw [if_pos (hP0.mpr hl)]
          rw [if_pos hl] at hrem
          exact hrem
        · rw [if_neg (fun h => hl (hP0.mp h))]
          rw [if_neg hl] at hrem
          exact hrem
      · by_cases hl : l₂ = []
        · rw [if_pos (hN0.mpr hl), hprev, hl, List.append_nil]
          by_cases hl1 : l₁ = []
          · rw [if_pos hl1, hl1]; rfl
          · rw [if_neg hl1]
        · rw [if_neg (fun h => hl (hN0.mp h)), htl, last_or_null_append, last_or_null_append,
            if_neg hl, if_neg (by simp)]
          cases l₂ with
          | nil => exact absurd rfl hl
          | cons c t => rw [last_or_null_cons_cons]
      · exact hnd.sublist (List.Sublist.append_left (List.sublist_cons_self _ _) _)
    · rw [Function.update_noteq hb, queues_detach_table W q hPq]
      have hbb : ¬ b' = (W.queues q).bucket := by rw [hbucket]; exact hb
      simp only [hbb, and_false, if_false]
      obtain ⟨hql', htl', hnd'⟩ := hreg.1 b'
      refine ⟨?_, htl', hnd'⟩
      have hne : ∀ x ∈ B b', x ∉ B b := fun x hx hx' => hb (hreg.bucket_unique hx hx')
      refine qlist_congr ?_ ?_ hql'
      · intro x hx
        have hxq : x ≠ q := fun he => hne x hx (he ▸ hq)
        rw [hother x hxq]
        have : ¬ ((W.queues q).prev ≠ 0 ∧ x = (W.queues q).prev) := by
          rintro ⟨hp0, hxp⟩
          rcases hP with h | h
          · exact hp0 h
          · exact hne x hx (hmemB x (Or.inl (hxp ▸ h)))
        simp [this]
      · intro x hx
        have hxq : x ≠ q := fun he => hne x hx (he ▸ hq)
        rw [hother x hxq]
        have : ¬ ((W.queues q).next ≠ 0 ∧ x = (W.queues q).next) := by
          rintro ⟨hn0, hxn⟩
          rcases hN with h | h
          · exact hn0 h
          · exact hne x hx (hmemB x (Or.inr (hxn ▸ h)))
        simp [this]
  · intro b' a ha
    rw [mem_bucket_erase hreg hq] at ha
    rw [hother a ha.2]
    exact hreg.2.1 b' a ha.1
  · intro b₁ b₂ a ha a' ha' hn
    rw [mem_bucket_erase hreg hq] at ha ha'
    rw [hother a ha.2, hother a' ha'.2] at hn
    exact hreg.2.2 b₁ b₂ a ha.1 a' ha'.1 hn

/-! ## Reference counts -/

theorem set_refs_queue_self (W : World) (q : Nat) (r : Int) :
    (set_refs W q r).queues q = { (W.queues q) with refs := r } := by
  simp [set_refs]

theorem set_refs_queue_other (W : World) (q a : Nat) (r : Int) (h : a ≠ q) :
    (set_refs W q r).queues a = W.queues a := by
  simp [set_refs, Function.update_noteq h]

theorem set_refs_set_refs (W : World) (q : Nat) (r r' : Int) :
    set_refs (set_refs W q r) q r' = set_refs W q r' := by
  simp [set_refs]

theorem set_refs_same (W : World) (q : Nat) : set_refs W q (W.queues q).refs = W := by
  simp [set_refs]

theorem set_refs_registry {W : World} {B : Int → List Nat} (q : Nat) (r : Int)
    (hreg : Registry W B) : Registry (set_refs W q r) B := by
  refine registry_congr (W := W) rfl ?_ hreg
  intro b x _
  by_cases hx : x = q
  · subst hx; rw [set_refs_queue_self]; exact ⟨rfl, rfl, rfl, rfl⟩
  · rw [set_refs_queue_other W q x r hx]; exact ⟨rfl, rfl, rfl, rfl⟩

theorem queue_acquire_eq (W : World) (q : Nat) :
    queue_acquire W q =
      (set_refs W q (wrap32 ((W.queues q).refs + 1)), wrap32 ((W.queues q).refs + 1)) := rfl

/-- `queue_release` while other references remain. -/
theorem queue_release_keep (fuel : Nat) (W : World) (q : Nat)
    (h : wrap32 ((W.queues q).refs - 1) ≠ 0) :
    queue_release fuel W q =
      some (set_refs W q (wrap32 ((W.queues q).refs - 1)), wrap32 ((W.queues q).refs - 1)) := by
  simp only [queue_release, h, if_false]

theorem free_msgs_null (M : Nat → msg_t) (fuel : Nat) (acc : List Nat) :
    free_msgs M fuel 0 acc = some acc := by
  cases fuel <;> simp [free_msgs]

/-- `queue_destroy` of a queue without messages frees the queue and nothing else. -/
theorem queue_destroy_empty (fuel : Nat) (W : World) (q : Nat)
    (h : (W.queues q).msg_head = 0) :
    queue_destroy fuel W q = some { W with freed_queues := W.freed_queues ++ [q] } := by
  simp only [queue_destroy, h, free_msgs_null]

/-- `queue_release` of the last reference to a queue without messages: the count is
written, the queue is unlinked, and only then it is freed. -/
theorem queue_release_last (fuel : Nat) (W : World) (q : Nat)
    (h : wrap32 ((W.queues q).refs - 1) = 0) (hm : (W.queues q).msg_head = 0)
    (hP : (W.queues q).prev ≠ q) (hN : (W.queues q).next ≠ q) :
    queue_destroy fuel (queues_detach (set_refs W q 0) q) q =
      some { (queues_detach (set_refs W q 0) q) with
        freed_queues := W.freed_queues ++ [q] } ∧
    queue_release fuel W q =
      some ({ (queues_detach (set_refs W q 0) q) with
        freed_queues := W.freed_queues ++ [q] }, 0) := by
  have hhead : ((queues_detach (set_refs W q 0) q).queues q).msg_head = 0 := by
    rw [queues_detach_self _ q (by rw [set_refs_queue_self]; exact hP)
      (by rw [set_refs_queue_self]; exact hN), set_refs_queue_self]
    exact hm
  have hd := queue_destroy_empty fuel (queues_detach (set_refs W q 0) q) q hhead
  have hfr : (queues_detach (set_refs W q 0) q).freed_queues = W.freed_queues :=
    (queues_detach_frame _ q).2.1
  rw [hfr] at hd
  refine ⟨hd, ?_⟩
  simp only [queue_release, h, if_true, hd]

/-- `k` lookups of a registered name in a row: each returns the queue, and its count
goes up by `k` (as an `int`); nothing else changes. -/
theorem get_times_spec (fuel : Nat) (B : Int → List Nat) (name : List Int) (q : Nat) (b : Int)
    (hq : q ∈ B b) (hfuel : (B (name_hash name)).length < fuel) :
    ∀ (k : Nat) (W : World), Registry W B → cstr (W.queues q).name = cstr name →
    -2147483648 ≤ (W.queues q).refs → (W.queues q).refs ≤ 2147483647 →
    get_times fuel name k W =
      some (set_refs W q (wrap32 ((W.queues q).refs + k)), List.replicate k q) := by
  intro k
  induction k with
  | zero =>
    intro W _ _ h1 h2
    simp only [get_times, Nat.cast_zero, add_zero, List.replicate_zero]
    rw [wrap32_of_range _ h1 h2, set_refs_same]
  | succ k ih =>
    intro W hreg hn h1 h2
    have hget := queues_get_hit fuel W B name q b hreg hq hn hfuel
    rw [queue_acquire_eq] at hget
    have hr := wrap32_range ((W.queues q).refs + 1)
    have hrec := ih (set_refs W q (wrap32 ((W.queues q).refs + 1)))
      (set_refs_registry q _ hreg) (by rw [set_refs_queue_self]; exact hn)
      (by rw [set_refs_queue_self]; exact hr.1) (by rw [set_refs_queue_self]; exact hr.2)
    simp only [get_times, hget, hrec, set_refs_set_refs, set_refs_queue_self,
      List.replicate_succ]
    rw [wrap32_add_wrap32]
    congr 4
    push_cast
    ring

/-- `j` releases in a row that leave at least one reference: the `i`-th returns the
count minus `i`, and only the count changes. -/
theorem release_times_spec (fuel : Nat) (q : Nat) :
    ∀ (j : Nat) (W : World), (j : Int) < (W.queues q).refs → (W.queues q).refs ≤ 2147483647 →
    release_times fuel q j W =
      some (set_refs W q ((W.queues q).refs - j),
        (List.range j).map (fun i : Nat => (W.queues q).refs - 1 - (i : Int))) := by
  intro j
  induction j with
  | zero =>
    intro W _ _
    simp only [release_times, Nat.cast_zero, sub_zero, List.range_zero, List.map_nil]
    rw [set_refs_same]
  | succ j ih =>
    intro W hj hr
    simp only [Nat.cast_add, Nat.cast_one] at hj
    have hw : wrap32 ((W.queues q).refs - 1) = (W.queues q).refs - 1 :=
      wrap32_of_range _ (by omega) (by omega)
    have hne : wrap32 ((W.queues q).refs - 1) ≠ 0 := by rw [hw]; omega
    have hrel := queue_release_keep fuel W q hne
    rw [hw] at hrel
    have hrefs : ((set_refs W q ((W.queues q).refs - 1)).queues q).refs = (W.queues q).refs - 1 := by
      rw [set_refs_queue_self]
    have hrec := ih (set_refs W q ((W.queues q).refs - 1))
      (by rw [hrefs]; omega) (by rw [hrefs]; omega)
    rw [hrefs, set_refs_set_refs] at hrec
    have e1 : (W.queues q).refs - 1 - (j : Int) = (W.queues q).refs - ((j + 1 : Nat) : Int) := by
      push_cast; ring
    have e2 : ((W.queues q).refs - 1) ::
        (List.range j).map (fun i : Nat => (W.queues q).refs - 1 - 1 - (i : Int)) =
        (List.range (j + 1)).map (fun i : Nat => (W.queues q).refs - 1 - (i : Int)) := by
      rw [List.range_succ_eq_map, List.map_cons, List.map_map]
      congr 1
      · simp
      · apply List.map_congr_left
        intro i _
        simp only [Function.comp, Nat.cast_succ]
        ring
    simp only [release_times, hrel, hrec]
    rw [e1, e2]

/-- A registered queue is not its own neighbour. -/
theorem Registry.links_ne {W : World} {B : Int → List Nat} (hreg : Registry W B) {b : Int}
    {q : Nat} (hq : q ∈ B b) : (W.queues q).prev ≠ q ∧ (W.queues q).next ≠ q := by
  obtain ⟨l₁, l₂, hB⟩ := List.append_of_mem hq
  obtain ⟨hql, _, hnd⟩ := hreg.1 b
  rw [hB] at hql hnd
  have hq1 : q ∉ l₁ := fun h => (List.nodup_append.mp hnd).2.2 h (List.mem_cons_self _ _)
  have hq2 : q ∉ l₂ := (List.nodup_cons.mp (List.nodup_append.mp hnd).2.1).1
  obtain ⟨hq0, hprev, hrest⟩ := QList.mid q l₂ l₁ 0 _ hql
  constructor
  · rw [hprev]
    by_cases hl : l₁ = []
    · rw [if_pos hl]; exact hq0.symm
    · rw [if_neg hl]
      intro he
      exact hq1 (he ▸ last_or_null_mem l₁ hl)
  · rcases hrest.head_mem with h | h
    · rw [h]; exact hq0.symm
    · intro he; exact hq2 (he ▸ h)

/-- Removing the queue that was appended last gives the former bucket contents. -/
theorem bucket_append_erase (B : Int → List Nat) (h : Int) (q : Nat) (hq : q ∉ B h) :
    Function.update (Function.update B h (B h ++ [q])) h
      ((Function.update B h (B h ++ [q]) h).erase q) = B := by
  rw [Function.update_same, List.erase_append_right _ hq, List.erase_cons_head,
    List.append_nil, Function.update_idem, Function.update_eq_self]

/-- `queue_create` followed by `queues_add` for a name that is not registered. -/
theorem register_new (fuel : Nat) (W : World) (B : Int → List Nat) (q : Nat)
    (name : List Int) (limit : Int) (hreg : Registry W B) (hq0 : q ≠ 0)
    (hfresh : ∀ b, q ∉ B b) (hnew : ∀ b, ∀ a ∈ B b, cstr (W.queues a).name ≠ cstr name)
    (hfuel : (B (name_hash name)).length < fuel) :
    queues_add fuel (queue_create W q name limit) q =
      some (queues_link (queue_create W q name limit) q (name_hash name), 1) ∧
    Registry (queues_link (queue_create W q name limit) q (name_hash name))
      (Function.update B (name_hash name) (B (name_hash name) ++ [q])) ∧
    ((queues_link (queue_create W q name limit) q (name_hash name)).queues q).name = cstr name ∧
    ((queues_link (queue_create W q name limit) q (name_hash name)).queues q).refs = 1 ∧
    ((queues_link (queue_create W q name limit) q (name_hash name)).queues q).msg_head = 0 ∧
    (queues_link (queue_create W q name limit) q (name_hash name)).freed_queues =
      W.freed_queues ∧
    ∀ a, a ≠ q →
      ((queues_link (queue_create W q name limit) q (name_hash name)).queues a).name =
        (W.queues a).name := by
  have hn : ((queue_create W q name limit).queues q).name = cstr name := by
    rw [queue_create_queue]
  have hh : name_hash ((queue_create W q name limit).queues q).name = name_hash name := by
    rw [hn, name_hash_cstr]
  have hother : ∀ a, a ≠ q → (queue_create W q name limit).queues a = W.queues a := by
    intro a ha
    simp [queue_create, Function.update_noteq ha]
  have hreg0 : Registry (queue_create W q name limit) B :=
    queue_create_registry q name limit hfresh hreg
  have hnew0 : ∀ b, ∀ a ∈ B b, cstr ((queue_create W q name limit).queues a).name ≠
      cstr ((queue_create W q name limit).queues q).name := by
    intro b a ha
    have hne : a ≠ q := fun he => hfresh b (he ▸ ha)
    rw [hother a hne, hn, cstr_idem]
    exact hnew b a ha
  have hadd := queues_add_new fuel _ B q hreg0 hnew0 (by rw [hh]; exact hfuel)
  have hreg1 := queues_link_registry _ B q hreg0 hq0 hfresh hnew0
  rw [hh] at hadd hreg1
  refine ⟨hadd, hreg1, ?_, ?_, ?_, rfl, ?_⟩
  · rw [(queues_link_payload _ q _ q).1, hn]
  · rw [(queues_link_payload _ q _ q).2.1, queue_create_queue]
  · rw [(queues_link_payload _ q _ q).2.2.1, queue_create_queue]
  · intro a ha
    rw [(queues_link_payload _ q _ a).1, hother a ha]

/-- C10 (as amended): for every name that is not yet registered and every `k` with
`0 <= k < INT_MAX`: `queue_create` + `queues_add` succeed; `k` calls of
`queues_get` all return the queue and leave its `refs` at `k + 1`; for every
`j <= k`, the first `j` calls of `queue_release` return the positive counts
`k, k-1, ..`, leave `refs` at `k + 1 - j` and leave the queue discoverable by
`queues_get`; the `(k+1)`-th `queue_release` returns 0, and it unlinks the queue
(the registry state `Wd` it reaches first holds exactly the queues registered
before) and then destroys it (`free(q)` is called exactly once); afterwards
`queues_get(name)` returns `NULL` and every other registered queue is still
found. -/
theorem refcount_lifecycle (fuel : Nat) (W : World) (B : Int → List Nat) (q : Nat)
    (name : List Int) (limit : Int) (k : Nat)
    (hreg : Registry W B) (hq0 : q ≠ 0) (hfresh : ∀ b, q ∉ B b)
    (hnew : ∀ b, ∀ a ∈ B b, cstr (W.queues a).name ≠ cstr name)
    (hk : (k : Int) < 2147483647) (hfuel : ∀ b, (B b).length + 1 < fuel) :
    ∃ W1 Wk,
      queues_add fuel (queue_create W q name limit) q = some (W1, 1) ∧
      get_times fuel name k W1 = some (Wk, List.replicate k q) ∧
      (Wk.queues q).refs = k + 1 ∧
      (∀ j, j ≤ k → ∃ Wj,
        release_times fuel q j Wk =
          some (Wj, (List.range j).map (fun i : Nat => (k : Int) - (i : Int))) ∧
        (∀ r ∈ (List.range j).map (fun i : Nat => (k : Int) - (i : Int)), 0 < r) ∧
        (Wj.queues q).refs = k + 1 - j ∧
        ∃ W', queues_get fuel Wj name = some (W', q)) ∧
      ∃ Wr Wd Wf,
        release_times fuel q k Wk =
          some (Wr, (List.range k).map (fun i : Nat => (k : Int) - (i : Int))) ∧
        queue_release fuel Wr q = some (Wf, 0) ∧
        Wd = queues_detach (set_refs Wr q 0) q ∧ Registry Wd B ∧
        queue_destroy fuel Wd q = some Wf ∧
        Wf.freed_queues = W.freed_queues ++ [q] ∧
        Registry Wf B ∧
        queues_get fuel Wf name = some (Wf, 0) ∧
        ∀ b, ∀ a ∈ B b,
          queues_get fuel Wf (W.queues a).name = some ((queue_acquire Wf a).1, a) := by
  obtain ⟨hadd, hreg1, hname1, hrefs1, hhead1, hfreed1, hnames1⟩ :=
    register_new fuel W B q name limit hreg hq0 hfresh hnew
      (lt_trans (Nat.lt_succ_self _) (hfuel _))
  have hq1 : q ∈ Function.update B (name_hash name) (B (name_hash name) ++ [q])
      (name_hash name) := by simp
  have hfuel1 : ∀ b, (Function.update B (name_hash name) (B (name_hash name) ++ [q]) b).length
      < fuel := by
    intro b
    by_cases hb : b = name_hash name
    · subst hb; simpa using hfuel _
    · rw [Function.update_noteq hb]; exact lt_trans (Nat.lt_succ_self _) (hfuel b)
  -- the lookups
  have hget := get_times_spec fuel _ name q _ hq1 (hfuel1 _) k _ hreg1
    (by rw [hname1, cstr_idem]) (by rw [hrefs1]; decide) (by rw [hrefs1]; decide)
  rw [hrefs1, wrap32_of_range _ (by omega) (by omega)] at hget
  have hrefsk : ((set_refs (queues_link (queue_create W q name limit) q (name_hash name)) q
      (1 + (k : Int))).queues q).refs = k + 1 := by
    rw [set_refs_queue_self]; simp only; ring
  -- the releases that keep the queue
  have hrel : ∀ j, j ≤ k →
      release_times fuel q j (set_refs (queues_link (queue_create W q name limit) q
        (name_hash name)) q (1 + (k : Int))) =
      some (set_refs (queues_link (queue_create W q name limit) q (name_hash name)) q
          ((k : Int) + 1 - j),
        (List.range j).map (fun i : Nat => (k : Int) - (i : Int))) := by
    intro j hj
    have hjk : (j : Int) ≤ k := by exact_mod_cast hj
    have h := release_times_spec fuel q j _ (by rw [hrefsk]; omega) (by rw [hrefsk]; omega)
    rw [hrefsk, set_refs_set_refs] at h
    rw [h]
    congr 3
    funext i
    ring
  refine ⟨_, _, hadd, hget, hrefsk, ?_, ?_⟩
  · intro j hj
    have hjk : (j : Int) ≤ k := by exact_mod_cast hj
    refine ⟨_, hrel j hj, ?_, by rw [set_refs_queue_self], ?_⟩
    · intro r hr
      rw [List.mem_map] at hr
      obtain ⟨i, hi, rfl⟩ := hr
      rw [List.mem_range] at hi
      have : (i : Int) < j := by exact_mod_cast hi
      omega
    · exact ⟨_, queues_get_hit fuel _ _ name q _ (set_refs_registry q _ hreg1) hq1
        (by rw [set_refs_queue_self]; simp only; rw [hname1, cstr_idem]) (hfuel1 _)⟩
  · -- the last release
    have hrelk := hrel k (le_refl k)
    have hone : (k : Int) + 1 - k = 1 := by ring
    rw [hone] at hrelk
    have hregr := set_refs_registry q 1 hreg1
    have hlinks := hregr.links_ne hq1
    have hrefsr : ((set_refs (queues_link (queue_create W q name limit) q (name_hash name))
        q 1).queues q).refs = 1 := by rw [set_refs_queue_self]
    have hlast := queue_release_last fuel
      (set_refs (queues_link (queue_create W q name limit) q (name_hash name)) q 1) q
      (by rw [hrefsr]; decide) (by rw [set_refs_queue_self]; exact hhead1)
      hlinks.1 hlinks.2
    have hreg0 := set_refs_registry q 0 hregr
    have hregd : Registry (queues_detach (set_refs
        (set_refs (queues_link (queue_create W q name limit) q (name_hash name)) q 1) q 0) q)
        B := by
      have := queues_detach_registry _ _ q _ hreg0 hq1
      rw [bucket_append_erase B _ q (hfresh _)] at this
      exact this
    have hregf : Registry { (queues_detach (set_refs
        (set_refs (queues_link (queue_create W q name limit) q (name_hash name)) q 1) q 0) q)
        with freed_queues := (set_refs (queues_link (queue_create W q name limit) q
          (name_hash name)) q 1).freed_queues ++ [q] } B :=
      registry_congr (W := queues_detach (set_refs
        (set_refs (queues_link (queue_create W q name limit) q (name_hash name)) q 1) q 0) q)
        rfl (fun _ _ _ => ⟨rfl, rfl, rfl, rfl⟩) hregd
    have hlinks0 := hreg0.links_ne hq1
    have hnamef : ∀ b, ∀ a ∈ B b, ((queues_detach (set_refs
        (set_refs (queues_link (queue_create W q name limit) q (name_hash name)) q 1) q 0)
          q).queues a).name = (W.queues a).name := by
      intro b a ha
      have hne : a ≠ q := fun he => hfresh b (he ▸ ha)
      rw [queues_detach_other _ q a hlinks0.1 hne]
      simp only
      rw [set_refs_queue_other _ q a 0 hne, set_refs_queue_other _ q a 1 hne, hnames1 a hne]
    refine ⟨_, _, _, hrelk, hlast.2, rfl, hregd, hlast.1, rfl, hregf, ?_, ?_⟩
    · refine queues_get_miss fuel _ B name hregf ?_ (lt_trans (Nat.lt_succ_self _) (hfuel _))
      intro b a ha
      show cstr ((queues_detach _ q).queues a).name ≠ cstr name
      rw [hnamef b a ha]
      exact hnew b a ha
    · intro b a ha
      refine queues_get_hit fuel _ B _ a b hregf ha ?_
        (lt_trans (Nat.lt_succ_self _) (hfuel _))
      show cstr ((queues_detach _ q).queues a).name = cstr (W.queues a).name
      rw [hnamef b a ha]

/-- In the registry that holds one fresh queue named "x", `k` lookups leave its count
at `1 + k` reduced to 32 bits, and the release that follows returns that count
minus one, reduced again, when this is not zero. -/
theorem refcount_wraps_general (k : Nat) (r : Int) (hr : wrap32 (1 + (k : Int)) = r)
    (hne : wrap32 (r - 1) ≠ 0) :
    ∃ W1 Wk, queues_add 2 (queue_create World.init 1 [120] 0) 1 = some (W1, 1) ∧
      get_times 2 [120] k W1 = some (Wk, List.replicate k 1) ∧
      (Wk.queues 1).refs = r ∧
      ∃ W', queue_release 2 Wk 1 = some (W', wrap32 (r - 1)) := by
  obtain ⟨hadd, hreg1, hname1, hrefs1, _, _, _⟩ :=
    register_new 2 World.init (fun _ => []) 1 [120] 0 registry_init (by decide) (by simp)
      (by simp) (by simp)
  have hq1 : 1 ∈ Function.update (fun _ => ([] : List Nat)) (name_hash [120])
      (([] : List Nat) ++ [1]) (name_hash [120]) := by simp
  have hget := get_times_spec 2 _ [120] 1 _ hq1 (by simp) k _ hreg1
    (by rw [hname1, cstr_idem]) (by rw [hrefs1]; decide) (by rw [hrefs1]; decide)
  rw [hrefs1, hr] at hget
  have hrefsk : ((set_refs (queues_link (queue_create World.init 1 [120] 0) 1
      (name_hash [120])) 1 r).queues 1).refs = r := by rw [set_refs_queue_self]
  refine ⟨_, _, hadd, hget, hrefsk, ?_⟩
  have hrel := queue_release_keep 2 _ 1 (by rw [hrefsk]; exact hne)
  rw [hrefsk] at hrel
  exact ⟨_, hrel⟩

/-- In the registry that holds one fresh queue named "x", `k` lookups with
`1 + k == INT_MAX` leave its count at `INT_MAX`; the lookup that follows is a
hit and stores `INT_MIN`. -/
theorem get_wraps_general (k : Nat) (hk : wrap32 (1 + (k : Int)) = 2147483647) :
    ∃ W1 Wk, queues_add 2 (queue_create World.init 1 [120] 0) 1 = some (W1, 1) ∧
      get_times 2 [120] k W1 = some (Wk, List.replicate k 1) ∧
      (Wk.queues 1).refs = 2147483647 ∧
      ∃ W', queues_get 2 Wk [120] = some (W', 1) ∧
        (W'.queues 1).refs = -2147483648 ∧
        (W'.queues 1).refs ≠ (Wk.queues 1).refs + 1 := by
  obtain ⟨hadd, hreg1, hname1, hrefs1, _, _, _⟩ :=
    register_new 2 World.init (fun _ => []) 1 [120] 0 registry_init (by decide) (by simp)
      (by simp) (by simp)
  have hq1 : 1 ∈ Function.update (fun _ => ([] : List Nat)) (name_hash [120])
      (([] : List Nat) ++ [1]) (name_hash [120]) := by simp
  have hget := get_times_spec 2 _ [120] 1 _ hq1 (by simp) k _ hreg1
    (by rw [hname1, cstr_idem]) (by rw [hrefs1]; decide) (by rw [hrefs1]; decide)
  rw [hrefs1, hk] at hget
  have hrefsk : ((set_refs (queues_link (queue_create World.init 1 [120] 0) 1
      (name_hash [120])) 1 2147483647).queues 1).refs = 2147483647 := by
    rw [set_refs_queue_self]
  have hhit := queues_get_hit 2 _ _ [120] 1 _ (set_refs_registry 1 2147483647 hreg1) hq1
    (by rw [set_refs_queue_self]; show cstr _ = _; rw [hname1, cstr_idem]) (by simp)
  rw [queue_acquire_eq, hrefsk] at hhit
  refine ⟨_, _, hadd, hget, hrefsk, _, hhit, ?_, ?_⟩
  · rw [set_refs_queue_self]; decide
  · rw [set_refs_queue_self, hrefsk]; decide

/-- C9, counterexample to the claim as stated: in the registry that holds one fresh
queue named "x" (count 1), `INT_MAX - 1` calls of `queues_get("x")` leave the
count at `INT_MAX`; the next `queues_get("x")` is a hit and leaves the count at
`INT_MIN`, which is not the count plus 1. -/
theorem queues_get_spec_counterexample :
    ∃ W1 Wk, queues_add 2 (queue_create World.init 1 [120] 0) 1 = some (W1, 1) ∧
      get_times 2 [120] 2147483646 W1 = some (Wk, List.replicate 2147483646 1) ∧
      (Wk.queues 1).refs = 2147483647 ∧
      ∃ W', queues_get 2 Wk [120] = some (W', 1) ∧
        (W'.queues 1).refs = -2147483648 ∧
        (W'.queues 1).refs ≠ (Wk.queues 1).refs + 1 :=
  get_wraps_general 2147483646 (by decide)

/-- C10, counterexample to the claim as stated: with `k = INT_MAX` lookups the count is
`INT_MIN`, not `k + 1`; with `k = 2^31` lookups the count is negative and the
first `queue_release` returns `INT_MIN`, which is not positive. -/
theorem refcount_lifecycle_counterexample :
    (∃ W1 Wk, queues_add 2 (queue_create World.init 1 [120] 0) 1 = some (W1, 1) ∧
      get_times 2 [120] 2147483647 W1 = some (Wk, List.replicate 2147483647 1) ∧
      (Wk.queues 1).refs = -2147483648 ∧
      ∃ W', queue_release 2 Wk 1 = some (W', wrap32 (-2147483648 - 1))) ∧
    (∃ W1 Wk, queues_add 2 (queue_create World.init 1 [120] 0) 1 = some (W1, 1) ∧
      get_times 2 [120] 2147483648 W1 = some (Wk, List.replicate 2147483648 1) ∧
      (Wk.queues 1).refs = -2147483647 ∧
      ∃ W', queue_release 2 Wk 1 = some (W', wrap32 (-2147483647 - 1))) ∧
    wrap32 (-2147483647 - 1) = -2147483648 :=
  ⟨refcount_wraps_general 2147483647 (-2147483648) (by decide) (by decide),
   refcount_wraps_general 2147483648 (-2147483647) (by decide) (by decide),
   by decide⟩

/-- C10, witness: the spec's case `k = 1` in the empty registry: create, one lookup
(count 2), one release (the queue is still found), a second release (the queue
is freed and no longer found). -/
theorem refcount_lifecycle_witness :
    ∃ W1 Wk Wr Wf, queues_add 2 (queue_create World.init 1 [120] 0) 1 = some (W1, 1) ∧
      get_times 2 [120] 1 W1 = some (Wk, [1]) ∧ (Wk.queues 1).refs = 2 ∧
      release_times 2 1 1 Wk = some (Wr, [1]) ∧
      (∃ W', queues_get 2 Wr [120] = some (W', 1)) ∧
      queue_release 2 Wr 1 = some (Wf, 0) ∧ Wf.freed_queues = [1] ∧
      queues_get 2 Wf [120] = some (Wf, 0) := by
  obtain ⟨W1, Wk, h1, h2, h3, h4, Wr, Wd, Wf, h5, h6, _, _, _, h7, _, h8, _⟩ :=
    refcount_lifecycle 2 World.init (fun _ => []) 1 [120] 0 1 registry_init (by decide)
      (by simp) (by simp) (by decide) (by simp)
  obtain ⟨Wj, hj1, _, _, hj4⟩ := h4 1 (le_refl 1)
  have hWj : Wj = Wr := by
    rw [h5] at hj1
    exact ((Prod.mk.inj (Option.some.inj hj1)).1).symm
  rw [hWj] at hj4
  exact ⟨W1, Wk, Wr, Wf, h1, h2, h3, h5, hj4, h6, h7, h8⟩

/-! ## The hash is the byte sum -/

theorem nat_ldiff_255 (m : Nat) : Nat.ldiff 255 m = 255 - m % 256 := by
  apply Nat.eq_of_testBit_eq
  intro k
  rw [Nat.testBit_ldiff]
  have h1 : (255 : Nat) = 2 ^ 8 - 1 := by norm_num
  have h2 : 255 - m % 256 = 2 ^ 8 - (m % 2 ^ 8 + 1) := by norm_num; omega
  have h3 : m % 2 ^ 8 < 2 ^ 8 := Nat.mod_lt _ (by norm_num)
  rw [h2, Nat.testBit_two_pow_sub_succ h3, h1, Nat.testBit_two_pow_sub_one,
    Nat.testBit_mod_two_pow]
  by_cases hk : k < 8 <;> simp [hk]

/-- On two's-complement integers `x & 0xff` is `x mod 256`, also for negative `x`. -/
theorem int_land_255 (x : Int) : Int.land x 0xff = x % 256 := by
  cases x with
  | ofNat m =>
    show ((Nat.land m 255 : Nat) : Int) = _
    have : Nat.land m 255 = m % 256 := by
      have := Nat.and_pow_two_sub_one_eq_mod m 8
      simpa using this
    rw [this]; simp
  | negSucc m =>
    show ((Nat.ldiff 255 m : Nat) : Int) = _
    rw [nat_ldiff_255, Int.negSucc_eq]
    omega

theorem int_land_15 (x : Int) (h : 0 ≤ x) : Int.land x 15 = x % 16 := by
  obtain ⟨m, rfl⟩ := Int.eq_ofNat_of_zero_le h
  show ((Nat.land m 15 : Nat) : Int) = _
  have : Nat.land m 15 = m % 16 := by
    have := Nat.and_pow_two_sub_one_eq_mod m 4
    simpa using this
  rw [this]; simp

/-- The loop of `name_hash` keeps the sum of the characters modulo 256. -/
theorem name_hash_loop_sum : ∀ (cs : List Int) (hash : Int), 0 ≤ hash → hash < 256 →
    name_hash_loop cs hash = (hash + (cstr cs).sum) % 256
  | [], hash, h0, h1 => by
    simp only [name_hash_loop, cstr, List.takeWhile_nil, List.sum_nil, add_zero]
    omega
  | ch :: rest, hash, h0, h1 => by
    by_cases hc : ch = 0
    · subst hc
      simp only [name_hash_loop, if_true, cstr_cons_zero, List.sum_nil, add_zero]
      omega
    · rw [cstr_cons_of_ne _ _ hc, List.sum_cons]
      simp only [name_hash_loop, if_neg hc]
      rw [int_land_255, name_hash_loop_sum rest _ (by omega) (by omega)]
      omega

/-- `name_hash` is the sum of the characters modulo 16. -/
theorem name_hash_sum (cs : List Int) : name_hash cs = (cstr cs).sum % 16 := by
  unfold name_hash
  rw [name_hash_loop_sum cs 0 (le_refl 0) (by norm_num)]
  have h15 : BUCKET_SIZE - 1 = 15 := by unfold BUCKET_SIZE; norm_num
  rw [h15, int_land_15 _ (by omega)]
  omega

theorem name_hash_range (cs : List Int) : 0 ≤ name_hash cs ∧ name_hash cs < 16 := by
  rw [name_hash_sum]; omega

theorem char_val_eq_zero_iff (char_signed : Bool) (b : Nat) (hb : b < 256) :
    char_val char_signed b = 0 ↔ b = 0 := by
  unfold char_val
  split_ifs <;> omega

theorem char_val_mod (char_signed : Bool) (b : Nat) :
    char_val char_signed b % 256 = (b : Int) % 256 := by
  unfold char_val
  split_ifs <;> omega

/-- Reading the bytes as `char` commutes with cutting at the terminator. -/
theorem cstr_as_chars (char_signed : Bool) : ∀ (s : List Nat), (∀ b ∈ s, b < 256) →
    cstr (as_chars char_signed s) = as_chars char_signed (c_bytes s)
  | [], _ => rfl
  | b :: s, hs => by
    have hb : b < 256 := hs b (List.mem_cons_self _ _)
    by_cases h0 : b = 0
    · subst h0
      simp [as_chars, c_bytes, char_val, cstr]
    · have hc : char_val char_signed b ≠ 0 := fun h =>
        h0 ((char_val_eq_zero_iff char_signed b hb).mp h)
      have ih := cstr_as_chars char_signed s (fun x hx => hs x (List.mem_cons_of_mem _ hx))
      simp only [as_chars, List.map_cons] at ih ⊢
      rw [cstr_cons_of_ne _ _ hc, ih]
      simp [c_bytes, h0]

/-- The sum of the `char` values and the sum of the bytes agree modulo 256. -/
theorem as_chars_sum_mod (char_signed : Bool) : ∀ (s : List Nat),
    (as_chars char_signed s).sum % 256 = ((s.sum : Nat) : Int) % 256
  | [] => rfl
  | b :: s => by
    have ih := as_chars_sum_mod char_signed s
    have hb := char_val_mod char_signed b
    simp only [as_chars, List.map_cons, List.sum_cons, Nat.cast_add] at ih ⊢
    omega

/-- `name_hash` of a string given by its bytes: the byte sum modulo 16, for either
signedness of `char`. -/
theorem name_hash_bytes (char_signed : Bool) (s : List Nat) (hs : ∀ b ∈ s, b < 256) :
    name_hash (as_chars char_signed s) = (((c_bytes s).sum % 16 : Nat) : Int) := by
  rw [name_hash_sum, cstr_as_chars char_signed s hs]
  have h := as_chars_sum_mod char_signed (c_bytes s)
  omega

/-- C16: for every NUL-terminated name, given by its bytes `s` (each below 256; the
name ends at the first zero byte), and for either signedness of `char`,
`name_hash` returns the sum of the name's bytes, taken as unsigned values,
modulo 16; so `0 <= name_hash(name) < BUCKET_SIZE`, `name_hash("") == 0`, and
two names whose bytes are permutations of each other have the same hash. -/
theorem name_hash_byte_sum (char_signed : Bool) (s : List Nat) (hs : ∀ b ∈ s, b < 256) :
    name_hash (as_chars char_signed s) = (((c_bytes s).sum % 16 : Nat) : Int) ∧
    0 ≤ name_hash (as_chars char_signed s) ∧
    name_hash (as_chars char_signed s) < BUCKET_SIZE ∧
    name_hash (as_chars char_signed []) = 0 ∧
    ∀ t : List Nat, (∀ b ∈ t, b < 256) → (c_bytes t).Perm (c_bytes s) →
      name_hash (as_chars char_signed t) = name_hash (as_chars char_signed s) := by
  refine ⟨name_hash_bytes char_signed s hs, (name_hash_range _).1, ?_, ?_, ?_⟩
  · have := (name_hash_range (as_chars char_signed s)).2
    unfold BUCKET_SIZE
    exact this
  · rw [name_hash_bytes char_signed [] (by simp)]
    rfl
  · intro t ht hp
    rw [name_hash_bytes char_signed t ht, name_hash_bytes char_signed s hs, hp.sum_eq]

theorem name_hash_byte_sum_witness :
    name_hash (as_chars true [97, 200, 255, 0, 5]) = 8 ∧
    name_hash (as_chars false [255, 97, 200]) = name_hash (as_chars true [97, 200, 255, 0, 5]) := by
  have h := name_hash_byte_sum true [97, 200, 255, 0, 5] (by decide)
  have h1 : c_bytes [97, 200, 255, 0, 5] = [97, 200, 255] := by decide
  refine ⟨by rw [h.1, h1]; decide, ?_⟩
  rw [name_hash_bytes false [255, 97, 200] (by decide), h.1, h1]
  decide

/-! ## Deadlines -/

theorem wrap64_of_range (x : Int) (h1 : -9223372036854775808 ≤ x)
    (h2 : x ≤ 9223372036854775807) : wrap64 x = x := by
  unfold wrap64; omega

/-- C20: for every `timeout < 0`, `timeout_to_timespec` returns 0 and leaves `*ts`
as it was; for every `timeout` with `0 <= timeout <= INT_MAX` and every current
time `(sec, nsec)` that `clock_gettime(CLOCK_REALTIME)` can deliver
(`0 <= nsec < 1000000000`, and `sec` at least 2147484 seconds before the end of
the range of a 64-bit `time_t`), it returns 1 and leaves
`0 <= tv_nsec < 1000000000` and
`tv_sec * 1000000000 + tv_nsec == sec * 1000000000 + nsec + timeout * 1000000`,
where the product, the sum of nanoseconds and the sum of seconds all lie in the
range of a 64-bit `long`. -/
theorem deadline_arithmetic (now ts : timespec) (timeout : Int) (h0 : 0 ≤ timeout)
    (h1 : timeout ≤ 2147483647) (hn0 : 0 ≤ now.tv_nsec) (hn1 : now.tv_nsec < 1000000000)
    (hs0 : -9223372036854775808 ≤ now.tv_sec)
    (hs1 : now.tv_sec ≤ 9223372036854775807 - 2147484) :
    (∀ t : Int, t < 0 → timeout_to_timespec now t ts = (ts, 0)) ∧
    (timeout_to_timespec now timeout ts).2 = 1 ∧
    0 ≤ (timeout_to_timespec now timeout ts).1.tv_nsec ∧
    (timeout_to_timespec now timeout ts).1.tv_nsec < 1000000000 ∧
    (timeout_to_timespec now timeout ts).1.tv_sec * 1000000000 +
        (timeout_to_timespec now timeout ts).1.tv_nsec =
      now.tv_sec * 1000000000 + now.tv_nsec + timeout * 1000000 ∧
    wrap64 (timeout * 1000000) = timeout * 1000000 ∧
    wrap64 (now.tv_nsec + timeout * 1000000) = now.tv_nsec + timeout * 1000000 ∧
    wrap64 (now.tv_sec + (now.tv_nsec + timeout * 1000000) / 1000000000) =
      now.tv_sec + (now.tv_nsec + timeout * 1000000) / 1000000000 := by
  have hlt : ¬ timeout < 0 := by omega
  have hw1 := wrap64_of_range (timeout * 1000000) (by omega) (by omega)
  have hw2 := wrap64_of_range (now.tv_nsec + timeout * 1000000) (by omega) (by omega)
  have hw3 := wrap64_of_range (now.tv_sec + (now.tv_nsec + timeout * 1000000) / 1000000000)
    (by omega) (by omega)
  have hnn : 0 ≤ now.tv_nsec + timeout * 1000000 := by omega
  refine ⟨fun t ht => by simp only [timeout_to_timespec, if_pos ht], ?_, ?_, ?_, ?_,
    hw1, hw2, hw3⟩
  all_goals
    simp only [timeout_to_timespec, if_neg hlt, hw1, hw2,
      Int.tdiv_eq_ediv hnn (by norm_num : (0 : Int) ≤ 1000000000),
      Int.tmod_eq_emod hnn (by norm_num : (0 : Int) ≤ 1000000000), hw3]
    try omega

/-- C20, witness: the largest timeout at a current time with the largest
nanosecond part. -/
theorem deadline_arithmetic_witness :
    (timeout_to_timespec ⟨1700000000, 999999999⟩ 2147483647 ⟨0, 0⟩).1.tv_sec * 1000000000 +
        (timeout_to_timespec ⟨1700000000, 999999999⟩ 2147483647 ⟨0, 0⟩).1.tv_nsec =
      1700000000 * 1000000000 + 999999999 + 2147483647 * 1000000 :=
  (deadline_arithmetic ⟨1700000000, 999999999⟩ ⟨0, 0⟩ 2147483647 (by decide) (by decide)
    (by decide) (by decide) (by decide) (by decide)).2.2.2.2.1

/-! ## `queues_detach` removes exactly one queue -/

/-- The address a list of queues starts at is its first element, or `NULL`. -/
theorem QList.head_eq {Q : Nat → queue_t} {l : List Nat} {before p : Nat}
    (h : QList Q before p l) : p = l.headD 0 := by
  cases l with
  | nil => exact h
  | cons a t => exact h.1

/-- The neighbours of a registered queue are `NULL` or queues of the same bucket. -/
theorem Registry.neighbours {W : World} {B : Int → List Nat} (hreg : Registry W B)
    {b : Int} {q : Nat} (hq : q ∈ B b) :
    ((W.queues q).prev = 0 ∨ (W.queues q).prev ∈ B b) ∧
      ((W.queues q).next = 0 ∨ (W.queues q).next ∈ B b) := by
  obtain ⟨l₁, l₂, hB⟩ := List.append_of_mem hq
  have hql := (hreg.1 b).1
  rw [hB] at hql
  obtain ⟨_, hprev, hnext⟩ := QList.mid q l₂ l₁ 0 _ hql
  constructor
  · by_cases h1 : l₁ = []
    · left; rw [hprev, if_pos h1]
    · right
      rw [hprev, if_neg h1, hB]
      exact List.mem_append_left _ (last_or_null_mem _ h1)
  · rcases hnext.head_mem with h | h
    · exact Or.inl h
    · right
      rw [hB]
      exact List.mem_append_right _ (List.mem_cons_of_mem _ h)

/-- C17: for every registry state that satisfies the registry invariant and every
registered queue `q` (first, in the middle, last or alone in its bucket `b`),
`queues_detach(q)` leaves a well-formed registry in which bucket `b` holds its
former queues other than `q` in their former order, with `head` and `tail` the
first and the last of them (`NULL` when none is left); every other bucket keeps
its table entry, its list and the records of its queues; and `q` ends with
`prev == NULL`, `next == NULL`, `bucket == -1` and its other fields as before. -/
theorem queues_detach_spec (W : World) (B : Int → List Nat) (q : Nat) (b : Int)
    (hreg : Registry W B) (hq : q ∈ B b) :
    Registry (queues_detach W q) (Function.update B b ((B b).erase q)) ∧
    (∃ l₁ l₂, B b = l₁ ++ q :: l₂ ∧ (B b).erase q = l₁ ++ l₂ ∧ q ∉ l₁ ++ l₂) ∧
    ((queues_detach W q)._queues b).head = ((B b).erase q).headD 0 ∧
    ((queues_detach W q)._queues b).tail = last_or_null ((B b).erase q) ∧
    (∀ b', b' ≠ b → (queues_detach W q)._queues b' = W._queues b' ∧
      (Function.update B b ((B b).erase q)) b' = B b' ∧
      ∀ a ∈ B b', (queues_detach W q).queues a = W.queues a) ∧
    (queues_detach W q).queues q = { (W.queues q) with next := 0, prev := 0, bucket := -1 } := by
  have hreg' := queues_detach_registry W B q b hreg hq
  obtain ⟨hP, hN⟩ := hreg.links_ne hq
  have hbq : (W.queues q).bucket = b := ((hreg.2.1 b) q hq).2
  obtain ⟨hprev, hnext⟩ := hreg.neighbours hq
  refine ⟨hreg', ?_, ?_, ?_, ?_, queues_detach_self W q hP hN⟩
  · obtain ⟨l₁, l₂, hB⟩ := List.append_of_mem hq
    have hnd := (hreg.1 b).2.2
    rw [hB] at hnd
    have hq1 : q ∉ l₁ := fun h => by
      have := (List.nodup_append.mp hnd).2.2
      exact this h (List.mem_cons_self _ _)
    have hq2 : q ∉ l₂ := (List.nodup_cons.mp (List.nodup_append.mp hnd).2.1).1
    refine ⟨l₁, l₂, hB, ?_, ?_⟩
    · rw [hB, List.erase_append_right _ hq1, List.erase_cons_head]
    · simp [hq1, hq2]
  · have h := (hreg'.1 b).1
    rw [Function.update_same] at h
    exact h.head_eq
  · have h := (hreg'.1 b).2.1
    rw [Function.update_same] at h
    exact h
  · intro b' hb'
    refine ⟨?_, Function.update_noteq hb' _ _, ?_⟩
    · rw [queues_detach_table W q hP b', hbq]
      simp [hb']
    · intro a ha
      have haq : a ≠ q := fun h => hb' (hreg.bucket_unique (h ▸ ha) hq)
      rw [queues_detach_other W q a hP haq]
      have h1 : ¬ ((W.queues q).prev ≠ 0 ∧ a = (W.queues q).prev) := by
        rintro ⟨h0, he⟩
        rcases hprev with h | h
        · exact h0 h
        · exact hb' (hreg.bucket_unique ha (he ▸ h))
      have h2 : ¬ ((W.queues q).next ≠ 0 ∧ a = (W.queues q).next) := by
        rintro ⟨h0, he⟩
        rcases hnext with h | h
        · exact h0 h
        · exact hb' (hreg.bucket_unique ha (he ▸ h))
      rw [if_neg h1, if_neg h2]

/-- C17, witness: queues "a", "q" and the one-character name 129 all hash to bucket
1; after registering them as queues 1, 2 and 3, `queues_detach` of the middle
one leaves bucket 1 holding queues 1 and 3 and marks queue 2 as detached. -/
theorem queues_detach_spec_witness :
    ∃ W B, Registry W B ∧ B 1 = [1, 2, 3] ∧
      Registry (queues_detach W 2) (Function.update B 1 [1, 3]) ∧
      ((queues_detach W 2)._queues 1).head = 1 ∧ ((queues_detach W 2)._queues 1).tail = 3 ∧
      ((queues_detach W 2).queues 2).bucket = -1 := by
  have h97 : name_hash [97] = 1 := by decide
  have h113 : name_hash [113] = 1 := by decide
  have h129 : name_hash [129] = 1 := by decide
  obtain ⟨_, hreg1, hn1, _, _, _, _⟩ := register_new 1 World.init (fun _ => []) 1 [97] 0
    registry_init (by decide) (by simp) (by simp) (by simp)
  rw [h97] at hreg1 hn1
  simp only [List.nil_append] at hreg1
  have hB1 : ∀ b, ∀ a ∈ Function.update (fun _ : Int => ([] : List Nat)) 1 [1] b, b = 1 ∧ a = 1 := by
    intro b a ha
    by_cases hb : b = 1
    · subst hb; simpa using ha
    · simp [Function.update_noteq hb] at ha
  obtain ⟨_, hreg2, hn2, _, _, _, hk2⟩ := register_new 2 _ _ 2 [113] 0 hreg1 (by decide)
    (fun b h => by have := (hB1 b 2 h).2; omega)
    (fun b a ha => by
      obtain ⟨_, rfl⟩ := hB1 b a ha
      rw [hn1]; decide)
    (by rw [h113]; simp)
  rw [h113] at hreg2 hn2 hk2
  simp only [Function.update_same, Function.update_idem, List.singleton_append] at hreg2
  have hB2 : ∀ b, ∀ a ∈ Function.update (fun _ : Int => ([] : List Nat)) 1 [1, 2] b,
      b = 1 ∧ (a = 1 ∨ a = 2) := by
    intro b a ha
    by_cases hb : b = 1
    · subst hb; simpa using ha
    · simp [Function.update_noteq hb] at ha
  obtain ⟨_, hreg3, _, _, _, _, _⟩ := register_new 3 _ _ 3 [129] 0 hreg2 (by decide)
    (fun b h => by have := (hB2 b 3 h).2; omega)
    (fun b a ha => by
      obtain ⟨_, h | h⟩ := hB2 b a ha
      · subst h
        rw [hk2 1 (by decide), hn1]; decide
      · subst h
        rw [hn2]; decide)
    (by rw [h129]; simp)
  rw [h129] at hreg3
  simp only [Function.update_same, Function.update_idem, List.cons_append,
    List.nil_append] at hreg3
  have h := queues_detach_spec _ _ 2 1 hreg3 (by simp)
  simp only [Function.update_same, Function.update_idem] at h
  have he : [1, 2, 3].erase 2 = [1, 3] := by decide
  rw [he] at h
  refine ⟨_, _, hreg3, by simp, by rw [Function.update_idem]; exact h.1, h.2.2.1,
    h.2.2.2.1, ?_⟩
  rw [h.2.2.2.2.2]

/-! ## The structure of a queue -/

/-- The last message of a chain points to `NULL`. -/
theorem msg_chain_last_next {M : Nat → msg_t} : ∀ {l : List Nat} {p : Nat},
    MsgChain M p l → l ≠ [] → (M (last_or_null l)).next = 0
  | [], _, _, h => absurd rfl h
  | [a], _, hc, _ => by
    obtain ⟨_, _, h⟩ := hc
    rw [last_or_null_singleton]
    exact h
  | a :: b :: t, _, hc, _ => by
    obtain ⟨_, _, h⟩ := hc
    rw [last_or_null_cons_cons]
    exact msg_chain_last_next h (by simp)

theorem mem_of_linked {W : World} {q m : Nat} {l : List Nat} (hl : Holds W q l)
    (h : ¬ Linked W q m) : m ∉ l :=
  fun hm => h ⟨l, hl.1, hm⟩

/-- Along a run in which no send links a message while `count` is `INT_MAX`, the
queue holds a list of distinct messages and `count` is its length. -/
theorem run_ops_structure (q : Nat) : ∀ (ops : List QOp) (W : World) (log : QLog)
    (l : List Nat) (W' : World) (log' : QLog),
    Holds W q l → (W.queues q).count = l.length → ops_ok q W ops →
    l.length ≤ 2147483647 → count_in_range q W ops →
    run_ops q W log ops = some (W', log') →
    ∃ l', Holds W' q l' ∧ (W'.queues q).count = l'.length
  | [], W, log, l, W', log', hl, hc, _, _, _, hrun => by
    simp only [run_ops, Option.some.injEq, Prod.mk.injEq] at hrun
    rw [← hrun.1]
    exact ⟨l, hl, hc⟩
  | QOp.send msg timeout :: ops, W, log, l, W', log', hl, hc, hok, hb, hcr, hrun => by
    obtain ⟨hm0, hnl, hrest⟩ := hok
    obtain ⟨hlt, hcrest⟩ := hcr
    cases hs : queue_send W q msg timeout with
    | none => simp [run_ops, hs] at hrun
    | some r =>
      simp only [run_ops, hs] at hrun
      have hr := queue_send_some W q msg timeout r hs
      by_cases hadm : (W.queues q).limit < 0 ∨
          (W.queues q).count + 1 ≤ (W.queues q).limit
      · have hh := send_finish_holds W q msg l hm0 hadm hl (mem_of_linked hl hnl)
        have hq := send_finish_queue W q msg hadm
        have hlt' := hlt hadm
        have hc' : ((send_finish W q msg).1.queues q).count = ((l ++ [msg]).length : Nat) := by
          rw [hq]
          simp only [List.length_append, List.length_singleton, Nat.cast_add, Nat.cast_one]
          rw [hc, wrap32_of_range _ (by omega) (by omega)]
        rw [← hr] at hh hc'
        exact run_ops_structure q ops r.1 _ (l ++ [msg]) W' log' hh hc' (hrest r hs)
          (by simp only [List.length_append, List.length_singleton]; omega)
          (hcrest r hs) hrun
      · have hrej := send_finish_reject W q msg hadm
        have hW : r.1 = W := by rw [hr, hrej]
        have hok' := hrest r hs
        have hcr' := hcrest r hs
        rw [hW] at hrun hok' hcr'
        exact run_ops_structure q ops W _ l W' log' hl hc hok' hb hcr' hrun
  | QOp.recv timeout :: ops, W, log, l, W', log', hl, hc, hok, hb, hcr, hrun => by
    cases hs : queue_recv W q timeout with
    | none => simp [run_ops, hs] at hrun
    | some r =>
      simp only [run_ops, hs] at hrun
      have hr := queue_recv_some W q timeout r hs
      have hok' := hok r hs
      have hcr' := hcr r hs
      cases l with
      | nil =>
        have hc0 : (W.queues q).count ≤ 0 := by rw [hc]; simp
        have hh := recv_body_holds_empty W q [] hc0 hl
        have hc' := recv_body_count_empty W q hc0
        rw [← hr] at hh hc'
        exact run_ops_structure q ops r.1 _ [] W' log' hh (by rw [hc', hc]) hok'
          (by simp) hcr' hrun
      | cons a t =>
        simp only [List.length_cons, Nat.cast_add, Nat.cast_one] at hc
        simp only [List.length_cons] at hb
        have hpos : (W.queues q).count > 0 := by rw [hc]; omega
        have hh := (recv_body_holds_cons W q a t hpos hl).2
        have hc' := recv_body_count W q hpos
        rw [← hr] at hh hc'
        exact run_ops_structure q ops r.1 _ t W' log' hh
          (by rw [hc', hc, wrap32_of_range _ (by omega) (by omega)]; omega) hok'
          (by omega) hcr' hrun

/-- On a bounded queue whose limit is below `INT_MAX` no send is ever admitted at
`count == INT_MAX`, whatever the calls. -/
theorem count_in_range_of_limit (q : Nat) : ∀ (ops : List QOp) (W : World),
    0 ≤ (W.queues q).limit → (W.queues q).limit < 2147483647 → count_in_range q W ops
  | [], _, _, _ => trivial
  | QOp.send msg timeout :: ops, W, h0, h1 => by
    refine ⟨fun hadm => by omega, ?_⟩
    intro r hr
    rw [queue_send_some W q msg timeout r hr]
    exact count_in_range_of_limit q ops _ (by rw [send_finish_limit]; exact h0)
      (by rw [send_finish_limit]; exact h1)
  | QOp.recv timeout :: ops, W, h0, h1 => by
    intro r hr
    rw [queue_recv_some W q timeout r hr]
    have hl := recv_body_limit_restored W q h1
    exact count_in_range_of_limit q ops _ (by rw [hl]; exact h0) (by rw [hl]; exact h1)

/-- Any number of send/receive pairs on an empty unbounded queue keeps the callers'
contract and never links a message at `count == INT_MAX`. -/
theorem pairs_in_range (q m : Nat) (hm : m ≠ 0) : ∀ (k : Nat) (W : World),
    Holds W q [] → (W.queues q).count = 0 → (W.queues q).limit < 0 →
    ops_ok q W (send_recv_pairs m k) ∧ count_in_range q W (send_recv_pairs m k)
  | 0, _, _, _, _ => ⟨trivial, trivial⟩
  | k + 1, W, hl, hc, hlim => by
    have hadm : (W.queues q).limit < 0 ∨ (W.queues q).count + 1 ≤ (W.queues q).limit :=
      Or.inl hlim
    have hholds := send_finish_holds W q m [] hm hadm hl (by simp)
    have hq1 := send_finish_queue W q m hadm
    have hc1 : ((send_finish W q m).1.queues q).count = 1 := by
      rw [hq1]
      show wrap32 ((W.queues q).count + 1) = 1
      rw [hc]; decide
    have hl1 : ((send_finish W q m).1.queues q).limit = (W.queues q).limit :=
      send_finish_limit W q m
    have hpos : ((send_finish W q m).1.queues q).count > 0 := by rw [hc1]; decide
    have hb := recv_body_holds_cons (send_finish W q m).1 q m [] hpos hholds
    have hc2 : ((recv_finish (recv_enter (send_finish W q m).1 q) q).1.queues q).count = 0 := by
      rw [recv_body_count _ q hpos, hc1]; decide
    have hl2 := recv_body_limit_restored (send_finish W q m).1 q (by rw [hl1]; omega)
    obtain ⟨i1, i2⟩ := pairs_in_range q m hm k _ hb.2 hc2 (by rw [hl2, hl1]; exact hlim)
    constructor
    · refine ⟨hm, not_linked_of_holds hl (by simp), ?_⟩
      intro r hr
      rw [queue_send_some W q m 0 r hr]
      intro r2 hr2
      rw [queue_recv_some _ q 0 r2 hr2]
      exact i1
    · refine ⟨fun _ => by rw [hc]; decide, ?_⟩
      intro r hr
      rw [queue_send_some W q m 0 r hr]
      intro r2 hr2
      rw [queue_recv_some _ q 0 r2 hr2]
      exact i2

theorem pairs_timeouts (m : Nat) : ∀ (k : Nat),
    (∀ msg t, QOp.send msg t ∈ send_recv_pairs m k → 0 ≤ t) ∧
    (∀ t, QOp.recv t ∈ send_recv_pairs m k → 0 ≤ t)
  | 0 => ⟨fun _ _ h => absurd h (List.not_mem_nil _), fun _ h => absurd h (List.not_mem_nil _)⟩
  | k + 1 => by
    obtain ⟨i1, i2⟩ := pairs_timeouts m k
    constructor
    · intro msg t h
      rcases List.mem_cons.mp h with h | h
      · injection h with _ ht
        rw [ht]
      · rcases List.mem_cons.mp h with h | h
        · exact QOp.noConfusion h
        · exact i1 msg t h
    · intro t h
      rcases List.mem_cons.mp h with h | h
      · exact QOp.noConfusion h
      · rcases List.mem_cons.mp h with h | h
        · injection h with ht
          rw [ht]
        · exact i2 t h

/-- C13 (as amended): every state reached from `queue_create` by a sequence of
completed `queue_send` and `queue_recv` calls, each send handing over a
non-`NULL` message that is not in the queue at that moment and no send linking
a message while `count` is `INT_MAX` (the queue never holds more than `INT_MAX`
messages; the number of calls is not bounded), satisfies: the chain starting at
`msg_head` runs through a list `l` of distinct messages and ends in `NULL`;
`count` is the length of `l`; `msg_head == NULL` iff `count == 0`;
`msg_tail == NULL` iff `count == 0`; and a non-`NULL` `msg_tail` is the last
message of `l` and has `next == NULL`. -/
theorem queue_structure (W0 : World) (q : Nat) (name : List Int) (limit : Int)
    (ops : List QOp) (W' : World) (log : QLog)
    (hok : ops_ok q (queue_create W0 q name limit) ops)
    (hbound : count_in_range q (queue_create W0 q name limit) ops)
    (hrun : run_ops q (queue_create W0 q name limit) {} ops = some (W', log)) :
    ∃ l, MsgChain W'.msgs (W'.queues q).msg_head l ∧ l.Nodup ∧
      (W'.queues q).count = l.length ∧
      ((W'.queues q).msg_head = 0 ↔ (W'.queues q).count = 0) ∧
      ((W'.queues q).msg_tail = 0 ↔ (W'.queues q).count = 0) ∧
      ((W'.queues q).msg_tail ≠ 0 →
        l.getLast? = some (W'.queues q).msg_tail ∧
        (W'.msgs (W'.queues q).msg_tail).next = 0) := by
  have hc0 : ((queue_create W0 q name limit).queues q).count = (([] : List Nat).length : Nat) := by
    rw [queue_create_queue]; rfl
  obtain ⟨l, hh, hc⟩ := run_ops_structure q ops _ {} [] W' log
    (queue_create_holds W0 q name limit) hc0 hok (by simp) hbound hrun
  obtain ⟨hchain, hnd, htail⟩ := hh
  refine ⟨l, hchain, hnd, hc, ?_, ?_, ?_⟩
  · rw [hc]
    cases l with
    | nil => exact ⟨fun _ => rfl, fun _ => hchain⟩
    | cons a t =>
      obtain ⟨h1, h2, _⟩ := hchain
      simp only [List.length_cons, Nat.cast_add, Nat.cast_one]
      exact ⟨fun h => absurd (h1.symm.trans h) h2, fun h => by omega⟩
  · rw [hc, htail]
    cases l with
    | nil => exact ⟨fun _ => rfl, fun _ => rfl⟩
    | cons a t =>
      have hmem := last_or_null_mem (a :: t) (by simp)
      have h0 := msg_chain_zero_not_mem hchain
      simp only [List.length_cons, Nat.cast_add, Nat.cast_one]
      exact ⟨fun h => absurd (h ▸ hmem) h0, fun h => by omega⟩
  · intro hne
    have hl : l ≠ [] := by
      rintro rfl
      exact hne htail
    refine ⟨?_, ?_⟩
    · rw [htail]
      unfold last_or_null
      cases h : l.getLast? with
      | none => exact absurd (List.getLast?_eq_none_iff.mp h) hl
      | some x => rfl
    · rw [htail]
      exact msg_chain_last_next hchain hl

/-- C13, witness: three sends and two receives on a fresh queue of limit 2; and
`2^31` send/receive pairs on a fresh unbounded queue, which never holds more
than one message. -/
theorem queue_structure_witness :
    (∃ W' log l, run_ops 1 (queue_create World.init 1 [120] 2) {}
        [QOp.send 5 0, QOp.send 7 0, QOp.recv 0, QOp.send 9 0, QOp.recv 3] = some (W', log) ∧
      MsgChain W'.msgs (W'.queues 1).msg_head l ∧ (W'.queues 1).count = l.length) ∧
    (∃ W' log l, run_ops 1 (queue_create World.init 1 [120] (-1)) {}
        (send_recv_pairs 5 2147483648) = some (W', log) ∧
      MsgChain W'.msgs (W'.queues 1).msg_head l ∧ (W'.queues 1).count = l.length) := by
  have hpairs : ∀ k : Nat, ∃ W' log l, run_ops 1 (queue_create World.init 1 [120] (-1)) {}
        (send_recv_pairs 5 k) = some (W', log) ∧
      MsgChain W'.msgs (W'.queues 1).msg_head l ∧ (W'.queues 1).count = l.length := by
    intro k
    obtain ⟨r, hr⟩ := run_ops_total 1 (send_recv_pairs 5 k)
      (queue_create World.init 1 [120] (-1)) {} (pairs_timeouts 5 k).1 (pairs_timeouts 5 k).2
    obtain ⟨hok, hin⟩ := pairs_in_range 1 5 (by decide) k
      (queue_create World.init 1 [120] (-1)) (queue_create_holds _ _ _ _)
      (by rw [queue_create_queue]) (by rw [queue_create_queue]; decide)
    obtain ⟨l, h1, _, h2, _⟩ := queue_structure World.init 1 [120] (-1)
      (send_recv_pairs 5 k) r.1 r.2 hok hin hr
    exact ⟨r.1, r.2, l, hr, h1, h2⟩
  refine ⟨?_, hpairs 2147483648⟩
  obtain ⟨r, hr⟩ := run_ops_total 1
    [QOp.send 5 0, QOp.send 7 0, QOp.recv 0, QOp.send 9 0, QOp.recv 3]
    (queue_create World.init 1 [120] 2) {}
    (by intro msg t h; simp at h; omega) (by intro t h; simp at h; omega)
  obtain ⟨l, h1, _, h2, _⟩ := queue_structure World.init 1 [120] 2
    [QOp.send 5 0, QOp.send 7 0, QOp.recv 0, QOp.send 9 0, QOp.recv 3] r.1 r.2
    (ops_ok_of_nodup 1 _ _ [] (queue_create_holds _ _ _ _) (by decide) (by decide))
    (count_in_range_of_limit 1 _ _ (by rw [queue_create_queue]; decide)
      (by rw [queue_create_queue]; decide)) hr
  exact ⟨r.1, r.2, l, hr, h1, h2⟩

/-- On a fresh unbounded queue, `2^31` sends of distinct non-`NULL` messages leave a
chain of `2^31` messages and `count == INT_MIN`. -/
theorem structure_wraps_general (ss : List (Nat × Int)) (n : Nat) (hlen : ss.length = n)
    (hn : (n : Int) = 2147483648) (hnz : ∀ s ∈ ss, s.1 ≠ 0)
    (hnd : (ss.map Prod.fst).Nodup) :
    ops_ok 1 (queue_create World.init 1 [] (-1)) (ss.map (fun s => QOp.send s.1 s.2)) ∧
    ∃ W' log, run_ops 1 (queue_create World.init 1 [] (-1)) {}
        (ss.map (fun s => QOp.send s.1 s.2)) = some (W', log) ∧
      MsgChain W'.msgs (W'.queues 1).msg_head (ss.map Prod.fst) ∧
      (ss.map Prod.fst).length = n ∧
      (W'.queues 1).count = -2147483648 ∧
      ∀ l, MsgChain W'.msgs (W'.queues 1).msg_head l → (W'.queues 1).count ≠ l.length := by
  have hq := queue_create_queue World.init 1 [] (-1)
  have hlim0 : ((queue_create World.init 1 [] (-1)).queues 1).limit < 0 := by rw [hq]; decide
  have hcount0 : ((queue_create World.init 1 [] (-1)).queues 1).count = 0 := by rw [hq]
  have hsent : ∀ (l : List (Nat × Int)),
      sent_msgs (l.map (fun s => QOp.send s.1 s.2)) = l.map Prod.fst := by
    intro l
    induction l with
    | nil => rfl
    | cons a t ih => simp only [List.map_cons, sent_msgs, ih]
  obtain ⟨W1, hrun1, hc1, _, hh1⟩ := run_sends 1 ss (queue_create World.init 1 [] (-1)) {}
    (by rw [hcount0]; omega) (Or.inl hlim0) hnz
  rw [hcount0, zero_add, hlen, hn] at hc1
  have hc : (W1.queues 1).count = -2147483648 := by rw [hc1]; unfold wrap32; omega
  have hholds := hh1 [] (queue_create_holds _ _ _ _) (by simpa using hnd)
  simp only [List.nil_append] at hholds
  refine ⟨?_, W1, _, hrun1, hholds.1, by rw [List.length_map, hlen], hc, ?_⟩
  · refine ops_ok_of_nodup 1 _ _ [] (queue_create_holds _ _ _ _) ?_ ?_
    · intro m hm
      rw [hsent, List.mem_map] at hm
      obtain ⟨s, hs, rfl⟩ := hm
      exact hnz s hs
    · rw [hsent]; simpa using hnd
  · intro l hl
    rw [hc]
    have := Int.natCast_nonneg l.length
    omega

/-- C13, counterexample to the claim as stated: after `2^31` sends of the distinct
messages `1 .. 2^31` on a fresh unbounded queue, the chain from `msg_head` holds
`2^31` messages while `count` is `INT_MIN`. -/
theorem queue_structure_counterexample :
    ops_ok 1 (queue_create World.init 1 [] (-1))
      (((List.range' 1 2147483648).map (fun m => (m, (0 : Int)))).map
        (fun s => QOp.send s.1 s.2)) ∧
    ∃ W' log, run_ops 1 (queue_create World.init 1 [] (-1)) {}
        (((List.range' 1 2147483648).map (fun m => (m, (0 : Int)))).map
          (fun s => QOp.send s.1 s.2)) = some (W', log) ∧
      MsgChain W'.msgs (W'.queues 1).msg_head
        (((List.range' 1 2147483648).map (fun m => (m, (0 : Int)))).map Prod.fst) ∧
      (((List.range' 1 2147483648).map (fun m => (m, (0 : Int)))).map Prod.fst).length =
        2147483648 ∧
      (W'.queues 1).count = -2147483648 ∧
      ∀ l, MsgChain W'.msgs (W'.queues 1).msg_head l → (W'.queues 1).count ≠ l.length :=
  structure_wraps_general _ 2147483648
    (by rw [List.length_map, List.length_range'])
    (by norm_num)
    (by
      intro s hs
      rw [List.mem_map] at hs
      obtain ⟨m, hm, rfl⟩ := hs
      rw [List.mem_range'_1] at hm
      exact Nat.pos_iff_ne_zero.mp hm.1)
    (by
      rw [List.map_map]
      have : (Prod.fst ∘ fun m : Nat => (m, (0 : Int))) = id := rfl
      rw [this, List.map_id]
      exact List.nodup_range' 1 2147483648)

/-! ## Credit of the receives in flight -/

theorem same_flight_refl : ∀ (ths : List Thread), same_flight ths ths
  | [] => List.Forall₂.nil
  | _ :: ths => List.Forall₂.cons rfl (same_flight_refl ths)

theorem same_flight_trans {a b c : List Thread} (h₁ : same_flight a b) (h₂ : same_flight b c) :
    same_flight a c := by
  unfold same_flight at *
  induction h₁ generalizing c with
  | nil => cases h₂; exact List.Forall₂.nil
  | cons hab _ ih =>
    cases h₂ with
    | cons hbc hrest => exact List.Forall₂.cons (hbc.trans hab) (ih hrest)

/-- A signal turns a blocked thread into a signalled one: it stays in flight. -/
theorem cond_signal_same_flight (cv : Call → Bool) : ∀ (ths : List Thread),
    same_flight ths (cond_signal cv ths)
  | [] => List.Forall₂.nil
  | t :: ths => by
    unfold cond_signal
    split_ifs with h
    · refine List.Forall₂.cons ?_ (same_flight_refl ths)
      obtain ⟨call, pc⟩ := t
      cases call <;> simp_all [Thread.in_recv]
    · exact List.Forall₂.cons rfl (cond_signal_same_flight cv ths)

theorem same_flight_count {ths ths' : List Thread} (h : same_flight ths ths') :
    ths'.countP Thread.in_recv = ths.countP Thread.in_recv := by
  unfold same_flight at h
  induction h with
  | nil => rfl
  | cons hab _ ih => rw [List.countP_cons, List.countP_cons, ih, hab]

/-- Replacing thread `i` changes the number of receives in flight by what the old
and the new record of that thread contribute. -/
theorem same_flight_set {ths ths' : List Thread} (h : same_flight ths ths') :
    ∀ (i : Nat) (t x : Thread), ths.get? i = some t →
    (ths'.set i x).countP Thread.in_recv + (if t.in_recv = true then 1 else 0) =
      ths.countP Thread.in_recv + (if x.in_recv = true then 1 else 0) := by
  unfold same_flight at h
  induction h with
  | nil => intro i t x hi; simp at hi
  | cons hab hrest ih =>
    intro i t x hi
    cases i with
    | zero =>
      simp only [List.get?_cons_zero, Option.some.injEq] at hi
      subst hi
      simp only [List.set_cons_zero, List.countP_cons]
      rw [same_flight_count hrest]
      omega
    | succ i =>
      simp only [List.get?_cons_succ] at hi
      have := ih i t x hi
      simp only [List.set_cons_succ, List.countP_cons]
      rw [hab]
      omega

theorem recv_finish_count (W : World) (q : Nat) :
    ((recv_finish W q).1.queues q).count =
      if (W.queues q).count > 0 then wrap32 ((W.queues q).count - 1) else (W.queues q).count := by
  unfold recv_finish
  simp only
  rw [recv_revoke_queue]
  simp only
  split_ifs with h
  · exact recv_dequeue_count W q h
  · rw [recv_dequeue_empty W q (by omega)]

/-- One segment of any thread keeps the credit account: `limit` is the nominal limit
plus one unit for each receive in flight, and `count` stays within it. -/
theorem advance_admission (q : Nat) (n : Int) (h0 : 0 ≤ n) (s : Sys) (i : Nat) (t : Thread)
    (entry expired : Bool) (ht : s.threads.get? i = some t)
    (hpc : (entry = true ∧ t.pc = Pc.start) ∨ (entry = false ∧ ∃ b, t.pc = Pc.waiting b))
    (hinv : Admission q n s) (hr : n + in_flight s < 2147483647) :
    Admission q n (advance q s i t entry expired) := by
  obtain ⟨hl, hc0, hc1⟩ := hinv
  obtain ⟨call, pc⟩ := t
  cases call with
  | send msg timeout =>
    have hin : ∀ (ths : List Thread) (p : Pc), same_flight s.threads ths →
        (ths.set i { call := Call.send msg timeout, pc := p }).countP Thread.in_recv =
          in_flight s := by
      intro ths p hs
      have := same_flight_set hs i _ { call := Call.send msg timeout, pc := p } ht
      simpa [Thread.in_recv, in_flight] using this
    have hlim := send_finish_limit s.W q msg
    simp only [advance]
    split_ifs with hb hadm
    · unfold Admission in_flight
      simp only
      rw [hin _ _ (same_flight_refl _)]
      exact ⟨hl, hc0, hc1⟩
    · unfold Admission in_flight
      simp only
      rw [hin _ _ (cond_signal_same_flight _ _), hlim, send_finish_queue s.W q msg hadm]
      simp only
      have hw : wrap32 ((s.W.queues q).count + 1) = (s.W.queues q).count + 1 :=
        wrap32_of_range _ (by omega) (by omega)
      rw [hw]
      refine ⟨hl, by omega, ?_⟩
      rcases hadm with h | h
      · omega
      · omega
    · unfold Admission in_flight
      simp only
      rw [hin _ _ (same_flight_refl _), send_finish_reject s.W q msg hadm]
      exact ⟨hl, hc0, hc1⟩
  | recv timeout =>
    have hfl := recv_finish_limit
    have hfc := recv_finish_count
    rcases hpc with ⟨he, hp⟩ | ⟨he, b, hp⟩
    · -- the entry segment: the credit is granted
      simp only at hp
      subst he hp
      have hin : ∀ (ths : List Thread) (p : Pc), same_flight s.threads ths →
          (ths.set i { call := Call.recv timeout, pc := p }).countP Thread.in_recv =
            in_flight s + (if (Thread.in_recv { call := Call.recv timeout, pc := p }) = true
              then 1 else 0) := by
        intro ths p hs
        have := same_flight_set hs i _ { call := Call.recv timeout, pc := p } ht
        simpa [Thread.in_recv, in_flight] using this
      have hq1 := recv_enter_queue s.W q
      have hge : (s.W.queues q).limit ≥ 0 := by omega
      have hl1 : ((recv_enter s.W q).queues q).limit = n + in_flight s + 1 := by
        rw [hq1]
        simp only [if_pos hge]
        rw [wrap32_of_range _ (by omega) (by omega)]
        omega
      have hcnt1 : ((recv_enter s.W q).queues q).count = (s.W.queues q).count := by
        rw [hq1]
      simp only [advance, if_true, true_and, if_pos hge]
      split_ifs with hb hpos
      · unfold Admission in_flight
        simp only
        rw [hin _ _ (cond_signal_same_flight _ _), hl1, hcnt1]
        simp only [Thread.in_recv, if_true]
        push_cast
        omega
      · unfold Admission in_flight
        simp only
        rw [hin _ _ (same_flight_trans (cond_signal_same_flight _ _)
          (cond_signal_same_flight _ _)), hfl, hfc, hl1, hcnt1]
        rw [hcnt1] at hpos
        have hw1 : wrap32 (n + in_flight s + 1 - 1) = n + in_flight s :=
          by rw [wrap32_of_range _ (by omega) (by omega)]; omega
        have hw2 : wrap32 ((s.W.queues q).count - 1) = (s.W.queues q).count - 1 :=
          wrap32_of_range _ (by omega) (by omega)
        rw [if_pos (by omega), if_pos hpos, hw1, hw2]
        simp only [Thread.in_recv]
        simp only [Bool.false_eq_true, if_false, add_zero]
        refine ⟨?_, ?_, ?_⟩ <;> first | trivial | omega
      · unfold Admission in_flight
        simp only
        rw [hin _ _ (cond_signal_same_flight _ _), hfl, hfc, hl1, hcnt1]
        rw [hcnt1] at hpos
        have hw1 : wrap32 (n + in_flight s + 1 - 1) = n + in_flight s :=
          by rw [wrap32_of_range _ (by omega) (by omega)]; omega
        rw [if_pos (by omega), if_neg hpos, hw1]
        simp only [Thread.in_recv]
        simp only [Bool.false_eq_true, if_false, add_zero]
        exact ⟨trivial, hc0, hc1⟩
    · -- a segment after a wait: this receive is one of those in flight
      simp only at hp
      subst he hp
      have hin : ∀ (ths : List Thread) (p : Pc), same_flight s.threads ths →
          (ths.set i { call := Call.recv timeout, pc := p }).countP Thread.in_recv + 1 =
            in_flight s + (if (Thread.in_recv { call := Call.recv timeout, pc := p }) = true
              then 1 else 0) := by
        intro ths p hs
        have := same_flight_set hs i _ { call := Call.recv timeout, pc := p } ht
        simpa [Thread.in_recv, in_flight] using this
      simp only [advance, Bool.false_eq_true, if_false, false_and]
      split_ifs with hb hpos
      · have h1 := hin _ (Pc.waiting false) (same_flight_refl s.threads)
        simp only [Thread.in_recv, if_true] at h1
        unfold Admission in_flight
        simp only
        have h2 : (s.threads.set i { call := Call.recv timeout, pc := Pc.waiting false }).countP
            Thread.in_recv = in_flight s := by omega
        rw [h2]
        exact ⟨hl, hc0, hc1⟩
      · have h1 := hin _ (Pc.done (recv_finish s.W q).2) (cond_signal_same_flight Call.is_send _)
        simp only [Thread.in_recv, Bool.false_eq_true, if_false, add_zero] at h1
        unfold Admission in_flight
        simp only
        rw [hfl, hfc]
        have hw1 : wrap32 ((s.W.queues q).limit - 1) = (s.W.queues q).limit - 1 :=
          wrap32_of_range _ (by omega) (by omega)
        have hw2 : wrap32 ((s.W.queues q).count - 1) = (s.W.queues q).count - 1 :=
          wrap32_of_range _ (by omega) (by omega)
        rw [if_pos (by omega), if_pos hpos, hw1, hw2]
        omega
      · have h1 := hin _ (Pc.done (recv_finish s.W q).2) (same_flight_refl s.threads)
        simp only [Thread.in_recv, Bool.false_eq_true, if_false, add_zero] at h1
        unfold Admission in_flight
        simp only
        rw [hfl, hfc]
        have hw1 : wrap32 ((s.W.queues q).limit - 1) = (s.W.queues q).limit - 1 :=
          wrap32_of_range _ (by omega) (by omega)
        rw [if_pos (by omega), if_neg hpos, hw1]
        omega

/-- One scheduling step keeps the credit account. -/
theorem step_admission (q : Nat) (n : Int) (h0 : 0 ≤ n) (s s' : Sys) (e : Ev)
    (hinv : Admission q n s) (hr : n + in_flight s < 2147483647)
    (hs : step q s e = some s') : Admission q n s' := by
  cases e with
  | run i =>
    simp only [step] at hs
    cases hget : s.threads.get? i with
    | none => rw [hget] at hs; exact absurd hs (by simp)
    | some t =>
      rw [hget] at hs
      simp only at hs
      split_ifs at hs with h1 h2
      · rw [← Option.some.inj hs]
        exact advance_admission q n h0 s i t true false hget (Or.inl ⟨rfl, h1⟩) hinv hr
      · rw [← Option.some.inj hs]
        exact advance_admission q n h0 s i t false false hget (Or.inr ⟨rfl, _, h2⟩) hinv hr
  | spurious i =>
    simp only [step] at hs
    cases hget : s.threads.get? i with
    | none => rw [hget] at hs; exact absurd hs (by simp)
    | some t =>
      rw [hget] at hs
      simp only at hs
      split_ifs at hs with h1
      rw [← Option.some.inj hs]
      exact advance_admission q n h0 s i t false false hget (Or.inr ⟨rfl, _, h1⟩) hinv hr
  | expire i =>
    simp only [step] at hs
    cases hget : s.threads.get? i with
    | none => rw [hget] at hs; exact absurd hs (by simp)
    | some t =>
      rw [hget] at hs
      simp only at hs
      split_ifs at hs with h1
      rw [← Option.some.inj hs]
      refine advance_admission q n h0 s i t false true hget (Or.inr ⟨rfl, ?_⟩) hinv hr
      rcases h1.1 with h | h
      · exact ⟨_, h⟩
      · exact ⟨_, h⟩

/-- The credit account along a run in which, before every step, fewer than
`INT_MAX - n` receives are in flight. -/
theorem exec_admission (q : Nat) (n : Int) (h0 : 0 ≤ n) : ∀ (evs : List Ev) (s₀ s : Sys),
    Admission q n s₀ → exec q s₀ evs = some s →
    (∀ k s', k < evs.length → exec q s₀ (evs.take k) = some s' →
      n + in_flight s' < 2147483647) →
    Admission q n s
  | [], s₀, s, hinv, hx, _ => by
    simp only [exec, Option.some.injEq] at hx
    rw [← hx]; exact hinv
  | e :: es, s₀, s, hinv, hx, hpath => by
    have hr := hpath 0 s₀ (by simp) (by simp [exec])
    cases hs : step q s₀ e with
    | none => simp [exec, hs] at hx
    | some s₁ =>
      simp only [exec, hs] at hx
      refine exec_admission q n h0 es s₁ s (step_admission q n h0 s₀ s₁ e hinv hr hs) hx ?_
      intro k s' hk hx'
      refine hpath (k + 1) s' (by simp only [List.length_cons]; omega) ?_
      simp only [List.take_succ_cons, exec, hs]
      exact hx'

theorem start_threads_in_flight (calls : List Call) :
    (start_threads calls).countP Thread.in_recv = 0 := by
  rw [List.countP_eq_zero]
  intro t ht
  unfold start_threads at ht
  rw [List.mem_map] at ht
  obtain ⟨c, _, rfl⟩ := ht
  cases c <;> simp [Thread.in_recv]

/-- C18: in the step model (threads that each perform one call; a `queue_recv` runs
its entry segment, waits any number of times and runs its exit segment, a
`queue_send` attempt is one segment; signals, spurious wake-ups and expiring
timed waits included), every state `s` reached from `queue_create(name, n)` with
`0 <= n` through states in which fewer than `INT_MAX - n` receives are in flight
satisfies `limit == n + r` and `0 <= count <= n + r`, where `r` is the number of
`queue_recv` calls in flight in `s`; so whenever no `queue_recv` is in flight,
`limit == n` and `count <= n`. -/
theorem over_admission_bound (W0 : World) (q : Nat) (name : List Int) (n : Int)
    (calls : List Call) (evs : List Ev) (s : Sys) (h0 : 0 ≤ n)
    (hexec : exec q { W := queue_create W0 q name n, threads := start_threads calls } evs =
      some s)
    (hpath : ∀ k s', k < evs.length →
      exec q { W := queue_create W0 q name n, threads := start_threads calls } (evs.take k) =
        some s' →
      (in_flight s' : Int) < 2147483647 - n) :
    (s.W.queues q).limit = n + in_flight s ∧ 0 ≤ (s.W.queues q).count ∧
    (s.W.queues q).count ≤ n + in_flight s ∧
    (in_flight s = 0 → (s.W.queues q).limit = n ∧ (s.W.queues q).count ≤ n) := by
  have hinit : Admission q n
      { W := queue_create W0 q name n, threads := start_threads calls } := by
    unfold Admission in_flight
    simp only
    rw [start_threads_in_flight, queue_create_queue]
    simp only [Nat.cast_zero, add_zero]
    exact ⟨trivial, le_refl 0, h0⟩
  obtain ⟨h1, h2, h3⟩ := exec_admission q n h0 evs _ s hinit hexec
    (fun k s' hk hx => by have := hpath k s' hk hx; omega)
  refine ⟨h1, h2, h3, fun hz => ?_⟩
  rw [hz] at h1 h3
  simp only [Nat.cast_zero, add_zero] at h1 h3
  exact ⟨h1, h3⟩

theorem cond_signal_length (cv : Call → Bool) (ths : List Thread) :
    (cond_signal cv ths).length = ths.length :=
  (List.Forall₂.length_eq (cond_signal_same_flight cv ths)).symm

theorem advance_length (q : Nat) (s : Sys) (i : Nat) (t : Thread) (entry expired : Bool) :
    (advance q s i t entry expired).threads.length = s.threads.length := by
  unfold advance
  cases t.call <;> simp only <;> split_ifs <;> simp [cond_signal_length]

theorem step_length (q : Nat) (s s' : Sys) (e : Ev) (hs : step q s e = some s') :
    s'.threads.length = s.threads.length := by
  cases e with
  | run i =>
    simp only [step] at hs
    cases hget : s.threads.get? i with
    | none => rw [hget] at hs; exact absurd hs (by simp)
    | some t =>
      rw [hget] at hs
      simp only at hs
      split_ifs at hs <;> rw [← Option.some.inj hs] <;> exact advance_length _ _ _ _ _ _
  | spurious i =>
    simp only [step] at hs
    cases hget : s.threads.get? i with
    | none => rw [hget] at hs; exact absurd hs (by simp)
    | some t =>
      rw [hget] at hs
      simp only at hs
      split_ifs at hs
      rw [← Option.some.inj hs]
      exact advance_length _ _ _ _ _ _
  | expire i =>
    simp only [step] at hs
    cases hget : s.threads.get? i with
    | none => rw [hget] at hs; exact absurd hs (by simp)
    | some t =>
      rw [hget] at hs
      simp only at hs
      split_ifs at hs
      rw [← Option.some.inj hs]
      exact advance_length _ _ _ _ _ _

/-- No step adds or removes a thread. -/
theorem exec_length (q : Nat) : ∀ (evs : List Ev) (s s' : Sys), exec q s evs = some s' →
    s'.threads.length = s.threads.length
  | [], s, s', h => by
    simp only [exec, Option.some.injEq] at h
    rw [h]
  | e :: es, s, s', h => by
    cases hs : step q s e with
    | none => simp [exec, hs] at h
    | some s₁ =>
      simp only [exec, hs] at h
      rw [exec_length q es s₁ s' h, step_length q s s₁ e hs]

/-- C18, witness: on a queue of limit 1 a receiver enters and waits, then two
senders are both admitted while its credit is there. -/
theorem over_admission_bound_witness :
    ∃ s, exec 1 (Sys.mk (queue_create World.init 1 [120] 1)
          (start_threads [Call.recv 5, Call.send 7 (-1), Call.send 8 0]))
        [Ev.run 0, Ev.run 1, Ev.run 2] = some s ∧
      (s.W.queues 1).limit = 1 + in_flight s ∧ (s.W.queues 1).count ≤ 1 + in_flight s ∧
      in_flight s = 1 ∧ (s.W.queues 1).count = 2 := by
  have hc : (exec 1 (Sys.mk (queue_create World.init 1 [120] 1)
          (start_threads [Call.recv 5, Call.send 7 (-1), Call.send 8 0]))
        [Ev.run 0, Ev.run 1, Ev.run 2]).map (fun s => (in_flight s, (s.W.queues 1).count)) =
      some (1, 2) := by
    decide
  have hx : (exec 1 (Sys.mk (queue_create World.init 1 [120] 1)
          (start_threads [Call.recv 5, Call.send 7 (-1), Call.send 8 0]))
        [Ev.run 0, Ev.run 1, Ev.run 2]).isSome = true := by
    decide
  obtain ⟨s, hs⟩ := Option.isSome_iff_exists.mp hx
  have h := over_admission_bound World.init 1 [120] 1
    [Call.recv 5, Call.send 7 (-1), Call.send 8 0] [Ev.run 0, Ev.run 1, Ev.run 2] s
    (by decide) hs
    (by
      intro k s' _ hk
      have h1 := exec_length 1 _ _ s' hk
      have h2 : in_flight s' ≤ s'.threads.length := List.countP_le_length _
      rw [h1] at h2
      simp only [start_threads, List.map_cons, List.map_nil, List.length_cons,
        List.length_nil] at h2
      omega)
  rw [hs] at hc
  simp only [Option.map_some', Option.some.injEq, Prod.mk.injEq] at hc
  exact ⟨s, hs, h.1, h.2.2.1, hc.1, hc.2⟩

/-! ## The credit of `queue_recv` at entry and at return -/

/-- Between any two states of an execution on a queue created with limit `n >= 0`,
the limit moves by the change in the number of receives in flight. -/
theorem exec_credit (q : Nat) (W0 : World) (name : List Int) (n : Int) (calls : List Call)
    (evs₁ evs₂ : List Ev) (s₁ s₂ : Sys) (h0 : 0 ≤ n)
    (hx₁ : exec q (Sys.mk (queue_create W0 q name n) (start_threads calls)) evs₁ = some s₁)
    (hx₂ : exec q s₁ evs₂ = some s₂)
    (hp₁ : ∀ k s', k < evs₁.length →
      exec q (Sys.mk (queue_create W0 q name n) (start_threads calls)) (evs₁.take k) =
        some s' →
      (in_flight s' : Int) < 2147483647 - n)
    (hp₂ : ∀ k s', k < evs₂.length → exec q s₁ (evs₂.take k) = some s' →
      (in_flight s' : Int) < 2147483647 - n) :
    (s₁.W.queues q).limit = n + in_flight s₁ ∧
    (s₂.W.queues q).limit = (s₁.W.queues q).limit + in_flight s₂ - in_flight s₁ := by
  have hinit : Admission q n (Sys.mk (queue_create W0 q name n) (start_threads calls)) := by
    unfold Admission in_flight
    simp only
    rw [start_threads_in_flight, queue_create_queue]
    simp only [Nat.cast_zero, add_zero]
    exact ⟨trivial, le_refl 0, h0⟩
  have h1 := exec_admission q n h0 evs₁ _ s₁ hinit hx₁
    (fun k s' hk hx => by have := hp₁ k s' hk hx; omega)
  have h2 := exec_admission q n h0 evs₂ s₁ s₂ h1 hx₂
    (fun k s' hk hx => by have := hp₂ k s' hk hx; omega)
  refine ⟨h1.1, ?_⟩
  rw [h2.1, h1.1]
  omega

/-- C5 (as amended): (a) for every queue whose limit is below `INT_MAX` (finite,
`0 <= limit < INT_MAX`, or negative) and every `queue_recv` call that runs with
no other call on the queue in between and returns, the limit at return equals
the limit at entry; such a call returns whenever `timeout >= 0` or a message is
queued; for `0 <= limit` the limit is one higher while the call runs; for
`limit < 0` neither write to the limit field is executed.  (b) With several
threads on a queue created with limit `n >= 0` (fewer than `INT_MAX - n`
receives in flight before every step), the limit is `n` plus the number of
`queue_recv` calls in flight, so between any two states of an execution, such
as the entry and the return of a `queue_recv` call, the limit moves by the
change in the number of (other) receives in flight, and is the same whenever
that number is the same. -/
theorem recv_credit_reverts (W : World) (q : Nat) (timeout : Int)
    (h : (W.queues q).limit < 2147483647) :
    (∀ r, queue_recv W q timeout = some r → (r.1.queues q).limit = (W.queues q).limit) ∧
    ((0 ≤ timeout ∨ (W.queues q).count > 0) → ∃ r, queue_recv W q timeout = some r) ∧
    (0 ≤ (W.queues q).limit → ((recv_enter W q).queues q).limit = (W.queues q).limit + 1) ∧
    ((W.queues q).limit < 0 →
      recv_enter W q = W ∧ recv_revoke (recv_dequeue W q).1 q = (recv_dequeue W q).1) ∧
    (∀ (W0 : World) (name : List Int) (n : Int) (calls : List Call) (evs₁ evs₂ : List Ev)
        (s₁ s₂ : Sys), 0 ≤ n →
      exec q (Sys.mk (queue_create W0 q name n) (start_threads calls)) evs₁ = some s₁ →
      exec q s₁ evs₂ = some s₂ →
      (∀ k s', k < evs₁.length →
        exec q (Sys.mk (queue_create W0 q name n) (start_threads calls)) (evs₁.take k) =
          some s' →
        (in_flight s' : Int) < 2147483647 - n) →
      (∀ k s', k < evs₂.length → exec q s₁ (evs₂.take k) = some s' →
        (in_flight s' : Int) < 2147483647 - n) →
      (s₁.W.queues q).limit = n + in_flight s₁ ∧
      (s₂.W.queues q).limit = (s₁.W.queues q).limit + in_flight s₂ - in_flight s₁ ∧
      (in_flight s₂ = in_flight s₁ → (s₂.W.queues q).limit = (s₁.W.queues q).limit)) := by
  refine ⟨?_, ?_, ?_, ?_, ?_⟩
  · intro r hr
    rw [queue_recv_some W q timeout r hr]
    exact recv_body_limit_restored W q h
  · rintro (ht | hc)
    · exact ⟨_, queue_recv_timed W q timeout ht⟩
    · exact ⟨_, queue_recv_nonempty W q timeout hc⟩
  · intro h0
    rw [recv_enter_queue]
    simp only [ge_iff_le, h0, if_true]
    exact wrap32_of_range _ (by omega) (by omega)
  · intro hneg
    constructor
    · unfold recv_enter
      simp only [ge_iff_le, not_le.mpr hneg, if_false]
    · have hl : ((recv_dequeue W q).1.queues q).limit = (W.queues q).limit :=
        recv_dequeue_limit W q
      unfold recv_revoke
      have : ¬ ((recv_dequeue W q).1.queues q).limit > 0 := by rw [hl]; omega
      simp only [this, if_false]
  · intro W0 name n calls evs₁ evs₂ s₁ s₂ h0 hx₁ hx₂ hp₁ hp₂
    obtain ⟨k1, k2⟩ := exec_credit q W0 name n calls evs₁ evs₂ s₁ s₂ h0 hx₁ hx₂ hp₁ hp₂
    refine ⟨k1, k2, fun he => ?_⟩
    rw [k2, he]
    omega

/-- C5, counterexample to the claim as stated.  First, `limit = INT_MAX`:
`queue_recv` with timeout 0 on a fresh empty queue returns `NULL` and leaves the
limit at `INT_MIN`.  Second, two receivers with timed waits on a fresh queue of
limit 0: thread 0 enters at limit 0 and waits, thread 1 enters and waits, the
wait of thread 0 expires and its `queue_recv` returns `NULL` while the limit is
1, the credit of thread 1 being still there. -/
theorem recv_credit_counterexample :
    (((queue_create World.init 1 [] 2147483647).queues 1).limit = 2147483647 ∧
      ∃ r, queue_recv (queue_create World.init 1 [] 2147483647) 1 0 = some r ∧
        r.2 = 0 ∧ (r.1.queues 1).limit = -2147483648) ∧
    (((queue_create World.init 1 [] 0).queues 1).limit = 0 ∧
      (start_threads [Call.recv 5, Call.recv 5]).map Thread.pc = [Pc.start, Pc.start] ∧
      (exec 1 (Sys.mk (queue_create World.init 1 [] 0)
          (start_threads [Call.recv 5, Call.recv 5]))
        [Ev.run 0, Ev.run 1, Ev.expire 0]).map
          (fun s => ((s.W.queues 1).limit, s.threads.map Thread.pc)) =
        some (1, [Pc.done 0, Pc.waiting false])) := by
  refine ⟨⟨by rw [queue_create_queue], _, queue_recv_zero _ 1, ?_, ?_⟩, ?_, ?_, ?_⟩
  · exact recv_body_ret_empty _ 1 (by rw [queue_create_queue])
  · rw [recv_body_limit, queue_create_queue]
    decide
  · rw [queue_create_queue]
  · decide
  · decide

/-- C5, witness: limits 0 and 3 on empty queues, timeout 0 and a timed wait; and two
receivers on a queue of limit 0 whose timed waits both expire, after which the
limit is 0 again. -/
theorem recv_credit_reverts_witness :
    (∀ r, queue_recv (queue_create World.init 1 [120] 0) 1 0 = some r →
      (r.1.queues 1).limit = 0) ∧
    (∃ r, queue_recv (queue_create World.init 1 [120] 3) 1 250 = some r ∧
      (r.1.queues 1).limit = 3) ∧
    (∃ s, exec 1 (Sys.mk (queue_create World.init 1 [120] 0)
          (start_threads [Call.recv 5, Call.recv 5]))
        [Ev.run 0, Ev.run 1, Ev.expire 0, Ev.expire 1] = some s ∧
      (s.W.queues 1).limit = 0) := by
  have h0 := recv_credit_reverts (queue_create World.init 1 [120] 0) 1 0
    (by rw [queue_create_queue]; decide)
  have h3 := recv_credit_reverts (queue_create World.init 1 [120] 3) 1 250
    (by rw [queue_create_queue]; decide)
  refine ⟨fun r hr => ?_, ?_, ?_⟩
  · rw [h0.1 r hr, queue_create_queue]
  · obtain ⟨r, hr⟩ := h3.2.1 (Or.inl (by decide))
    exact ⟨r, hr, by rw [h3.1 r hr, queue_create_queue]⟩
  · have hx : (exec 1 (Sys.mk (queue_create World.init 1 [120] 0)
          (start_threads [Call.recv 5, Call.recv 5]))
        [Ev.run 0, Ev.run 1, Ev.expire 0, Ev.expire 1]).isSome = true := by
      decide
    have hf : (exec 1 (Sys.mk (queue_create World.init 1 [120] 0)
          (start_threads [Call.recv 5, Call.recv 5]))
        [Ev.run 0, Ev.run 1, Ev.expire 0, Ev.expire 1]).map in_flight = some 0 := by
      decide
    obtain ⟨s, hs⟩ := Option.isSome_iff_exists.mp hx
    rw [hs] at hf
    simp only [Option.map_some', Option.some.injEq] at hf
    have hk := h0.2.2.2.2 World.init [120] 0 [Call.recv 5, Call.recv 5] []
      [Ev.run 0, Ev.run 1, Ev.expire 0, Ev.expire 1]
      (Sys.mk (queue_create World.init 1 [120] 0) (start_threads [Call.recv 5, Call.recv 5]))
      s (le_refl 0) rfl hs
      (by intro k s' hk _; simp at hk)
      (by
        intro k s' _ hk
        have h1 := exec_length 1 _ _ s' hk
        have h2 : in_flight s' ≤ s'.threads.length := List.countP_le_length _
        rw [h1] at h2
        simp only [start_threads, List.map_cons, List.map_nil, List.length_cons,
          List.length_nil] at h2
        omega)
    refine ⟨s, hs, ?_⟩
    rw [hk.2.1, hk.1, hf]
    have : in_flight (Sys.mk (queue_create World.init 1 [120] 0)
        (start_threads [Call.recv 5, Call.recv 5])) = 0 := by
      unfold in_flight
      exact start_threads_in_flight _
    rw [this]
    rfl

/-! ## The registry along a sequence of calls -/

/-- `queues_add` of a queue whose name is registered changes nothing and returns 0. -/
theorem queues_add_dup (fuel : Nat) (W : World) (B : Int → List Nat) (q : Nat)
    (hreg : Registry W B)
    (hdup : ∃ b, ∃ a ∈ B b, cstr (W.queues a).name = cstr (W.queues q).name)
    (hfuel : (B (name_hash (W.queues q).name)).length < fuel) :
    queues_add fuel W q = some (W, 0) := by
  have hfound := (registered_iff W B _ hreg).mp hdup
  simp only [queues_add, bucket_search_spec fuel W B _ _ hreg hfuel, ne_eq, hfound,
    not_false_eq_true, if_true]

theorem queue_create_other (W : World) (q a : Nat) (name : List Int) (limit : Int)
    (h : a ≠ q) : (queue_create W q name limit).queues a = W.queues a := by
  simp [queue_create, Function.update_noteq h]

/-- Writing the count leaves every other field of every queue as it is. -/
theorem set_refs_fields (W : World) (q : Nat) (r : Int) (a : Nat) :
    ((set_refs W q r).queues a).prev = (W.queues a).prev ∧
    ((set_refs W q r).queues a).next = (W.queues a).next ∧
    ((set_refs W q r).queues a).bucket = (W.queues a).bucket ∧
    ((set_refs W q r).queues a).msg_head = (W.queues a).msg_head := by
  by_cases h : a = q
  · subst h; rw [set_refs_queue_self]; exact ⟨rfl, rfl, rfl, rfl⟩
  · rw [set_refs_queue_other W q a r h]; exact ⟨rfl, rfl, rfl, rfl⟩

theorem wrap32_pred_eq_zero (c : Nat) (h1 : 1 ≤ c) (h2 : c ≤ 4294967296)
    (h : wrap32 (wrap32 (c : Int) - 1) = 0) : c = 1 := by
  unfold wrap32 at h
  omega

theorem wrap32_pred_count (c : Nat) (h1 : 1 ≤ c) :
    wrap32 (wrap32 (c : Int) - 1) = wrap32 ((c - 1 : Nat) : Int) := by
  unfold wrap32
  omega

/-- A call of `queue_create` and `queues_add` on a new block keeps the invariant. -/
theorem reg_add_invariant (fuel : Nat) (s : RegState) (B : Int → List Nat) (q : Nat)
    (name : List Int) (limit : Int) (hinv : RegInv s B) (hfuel : ∀ b, (B b).length < fuel)
    (hpre : reg_pre s (RegOp.add q name limit)) :
    ∃ s' B', reg_step fuel s (RegOp.add q name limit) = some s' ∧ RegInv s' B' ∧
      ∀ b, (B' b).length ≤ (B b).length + 1 := by
  obtain ⟨hreg, hmsg, hnd, hlive, hh, hcnt⟩ := hinv
  obtain ⟨hq0, hql⟩ := hpre
  have hfresh : ∀ b, q ∉ B b := fun b hb => hql ((hlive q).mpr ⟨b, hb⟩)
  have hreg1 := queue_create_registry q name limit hfresh hreg
  have hother := fun a (h : a ≠ q) => queue_create_other s.W q a name limit h
  have hqh : q ∉ s.handles := fun h => hql (hh q h)
  have hnel : ∀ a ∈ s.live, a ≠ q := fun a ha he => hql (he ▸ ha)
  by_cases hnew : ∀ b, ∀ a ∈ B b, cstr (s.W.queues a).name ≠ cstr name
  · obtain ⟨hadd, hreg2, _, hrefs2, hm2, _, _⟩ :=
      register_new fuel s.W B q name limit hreg hq0 hfresh hnew (hfuel _)
    refine ⟨{ W := queues_link (queue_create s.W q name limit) q (name_hash name),
              handles := q :: s.handles, live := q :: s.live }, _, ?_,
      ⟨hreg2, ?_, ?_, ?_, ?_, ?_⟩, ?_⟩
    · simp only [reg_step, hadd]
      simp
    · intro b a ha
      rcases (mem_bucket_append B _ b q a).mp ha with h | ⟨_, h⟩
      · show ((queues_link (queue_create s.W q name limit) q (name_hash name)).queues a).msg_head
          = 0
        rw [(queues_link_payload _ q _ a).2.2.1, hother a (fun he => hfresh b (he ▸ h))]
        exact hmsg b a h
      · rw [h]; exact hm2
    · exact List.nodup_cons.mpr ⟨hql, hnd⟩
    · intro a
      constructor
      · intro ha
        rcases List.mem_cons.mp ha with h | h
        · exact ⟨_, (mem_bucket_append B _ _ q a).mpr (Or.inr ⟨rfl, h⟩)⟩
        · obtain ⟨b, hb⟩ := (hlive a).mp h
          exact ⟨b, (mem_bucket_append B _ b q a).mpr (Or.inl hb)⟩
      · rintro ⟨b, hb⟩
        rcases (mem_bucket_append B _ b q a).mp hb with h | ⟨_, h⟩
        · exact List.mem_cons_of_mem _ ((hlive a).mpr ⟨b, h⟩)
        · rw [h]; exact List.mem_cons_self _ _
    · intro a ha
      rcases List.mem_cons.mp ha with h | h
      · rw [h]; exact List.mem_cons_self _ _
      · exact List.mem_cons_of_mem _ (hh a h)
    · intro a ha
      show a ≠ 0 ∧ 1 ≤ (q :: s.handles).count a ∧
        ((queues_link (queue_create s.W q name limit) q (name_hash name)).queues a).refs =
          wrap32 ((q :: s.handles).count a)
      rcases List.mem_cons.mp ha with h | h
      · rw [h, List.count_cons_self, List.count_eq_zero_of_not_mem hqh, hrefs2]
        exact ⟨hq0, le_refl 1, by decide⟩
      · have haq := hnel a h
        obtain ⟨k0, k1, k2⟩ := hcnt a h
        rw [List.count_cons_of_ne haq, (queues_link_payload _ q _ a).2.1,
          hother a haq]
        exact ⟨k0, k1, k2⟩
    · intro b
      by_cases hb : b = name_hash name
      · subst hb
        rw [Function.update_same, List.length_append, List.length_singleton]
      · rw [Function.update_noteq hb]; omega
  · push_neg at hnew
    obtain ⟨b, a, ha, hna⟩ := hnew
    have haq : a ≠ q := fun he => hfresh b (he ▸ ha)
    have hqn : ((queue_create s.W q name limit).queues q).name = cstr name := by
      rw [queue_create_queue]
    have hqm : ((queue_create s.W q name limit).queues q).msg_head = 0 := by
      rw [queue_create_queue]
    have hadd := queues_add_dup fuel (queue_create s.W q name limit) B q hreg1
      ⟨b, a, ha, by rw [hother a haq, hqn, cstr_idem]; exact hna⟩ (hfuel _)
    have hdes := queue_destroy_empty fuel (queue_create s.W q name limit) q hqm
    refine ⟨{ W := { (queue_create s.W q name limit) with
                freed_queues := (queue_create s.W q name limit).freed_queues ++ [q] },
              handles := s.handles, live := s.live }, B, ?_,
      ⟨?_, ?_, hnd, hlive, hh, ?_⟩, fun b => Nat.le_succ _⟩
    · simp only [reg_step, hadd, hdes]
      simp
    · exact registry_congr (W := queue_create s.W q name limit) rfl
        (fun _ _ _ => ⟨rfl, rfl, rfl, rfl⟩) hreg1
    · intro b' a' ha'
      show ((queue_create s.W q name limit).queues a').msg_head = 0
      rw [hother a' (fun he => hfresh b' (he ▸ ha'))]
      exact hmsg b' a' ha'
    · intro a' ha'
      show a' ≠ 0 ∧ 1 ≤ s.handles.count a' ∧
        ((queue_create s.W q name limit).queues a').refs = wrap32 (s.handles.count a')
      rw [hother a' (hnel a' ha')]
      exact hcnt a' ha'

/-- A call of `queues_get` keeps the invariant. -/
theorem reg_get_invariant (fuel : Nat) (s : RegState) (B : Int → List Nat) (name : List Int)
    (hinv : RegInv s B) (hfuel : ∀ b, (B b).length < fuel) :
    ∃ s', reg_step fuel s (RegOp.get name) = some s' ∧ RegInv s' B := by
  obtain ⟨hreg, hmsg, hnd, hlive, hh, hcnt⟩ := hinv
  have hget := queues_get_eq fuel s.W B name hreg (hfuel _)
  obtain ⟨r, hr⟩ : ∃ r, r = ((B (name_hash name)).find?
      (fun a => strcmp_eq (s.W.queues a).name name)).getD 0 := ⟨_, rfl⟩
  rw [← hr] at hget
  by_cases hfound : r ≠ 0
  · rw [if_pos hfound] at hget
    have hmem := (find_name_mem s.W.queues name _ r hr.symm hfound).1
    have hrl : r ∈ s.live := (hlive r).mpr ⟨_, hmem⟩
    refine ⟨{ W := set_refs s.W r (wrap32 ((s.W.queues r).refs + 1)),
              handles := r :: s.handles, live := s.live }, ?_,
      ⟨set_refs_registry r _ hreg, ?_, hnd, hlive, ?_, ?_⟩⟩
    · simp only [reg_step, hget, ne_eq, hfound, not_false_eq_true, if_true]
      rfl
    · intro b a ha
      show ((set_refs s.W r _).queues a).msg_head = 0
      rw [(set_refs_fields s.W r _ a).2.2.2]
      exact hmsg b a ha
    · intro a ha
      rcases List.mem_cons.mp ha with h | h
      · rw [h]; exact hrl
      · exact hh a h
    · intro a ha
      show a ≠ 0 ∧ 1 ≤ (r :: s.handles).count a ∧
        ((set_refs s.W r (wrap32 ((s.W.queues r).refs + 1))).queues a).refs =
          wrap32 ((r :: s.handles).count a)
      obtain ⟨k0, k1, k2⟩ := hcnt a ha
      by_cases har : a = r
      · rw [har, List.count_cons_self, set_refs_queue_self]
        rw [har] at k2
        refine ⟨hfound, Nat.le_add_left 1 _, ?_⟩
        show wrap32 ((s.W.queues r).refs + 1) = _
        rw [k2, wrap32_add_wrap32]
        simp only [Nat.cast_add, Nat.cast_one]
      · rw [List.count_cons_of_ne har, set_refs_queue_other s.W r a _ har]
        exact ⟨k0, k1, k2⟩
  · rw [if_neg hfound] at hget
    refine ⟨s, ?_, ⟨hreg, hmsg, hnd, hlive, hh, hcnt⟩⟩
    simp only [reg_step, hget, ne_eq, not_true_eq_false, if_false]

/-- Unlinking `q` leaves a queue that is neither `q` nor one of its neighbours as it
is. -/
theorem queues_detach_far (W : World) (q a : Nat) (hP : (W.queues q).prev ≠ q) (ha : a ≠ q)
    (h1 : (W.queues q).prev = 0 ∨ a ≠ (W.queues q).prev)
    (h2 : (W.queues q).next = 0 ∨ a ≠ (W.queues q).next) :
    (queues_detach W q).queues a = W.queues a := by
  rw [queues_detach_other W q a hP ha, if_neg, if_neg]
  · intro h; rcases h1 with h0 | h0
    · exact h.1 h0
    · exact h0 h.2
  · intro h; rcases h2 with h0 | h0
    · exact h.1 h0
    · exact h0 h.2

/-- A call of `queue_release` on a handle keeps the invariant, as long as no more
than `2^32` handles on the queue are outstanding. -/
theorem reg_release_invariant (fuel : Nat) (s : RegState) (B : Int → List Nat) (q : Nat)
    (hinv : RegInv s B) (hpre : q ∈ s.handles) (hbound : s.handles.count q ≤ 4294967296) :
    ∃ s' B', reg_step fuel s (RegOp.release q) = some s' ∧ RegInv s' B' ∧
      ∀ b, (B' b).length ≤ (B b).length := by
  obtain ⟨hreg, hmsg, hnd, hlive, hh, hcnt⟩ := hinv
  have hql : q ∈ s.live := hh q hpre
  obtain ⟨b, hb⟩ := (hlive q).mp hql
  obtain ⟨hq0, hc1, hrefs⟩ := hcnt q hql
  by_cases hr : wrap32 ((s.W.queues q).refs - 1) = 0
  · have hone : s.handles.count q = 1 :=
      wrap32_pred_eq_zero _ hc1 hbound (by rw [← hrefs]; exact hr)
    have hgone : q ∉ s.handles.erase q := by
      intro hm
      have := List.count_pos_iff.mpr hm
      rw [List.count_erase_self, hone] at this
      exact absurd this (by decide)
    have hreg1 : Registry (set_refs s.W q 0) B := set_refs_registry q 0 hreg
    obtain ⟨hP, hN⟩ := hreg.links_ne hb
    obtain ⟨hP1, hN1⟩ := hreg1.links_ne hb
    have hrel := (queue_release_last fuel s.W q hr (hmsg b q hb) hP hN).2
    have hregd := queues_detach_registry (set_refs s.W q 0) B q b hreg1 hb
    have hfield : ∀ a, a ≠ q →
        ((queues_detach (set_refs s.W q 0) q).queues a).refs = (s.W.queues a).refs ∧
        ((queues_detach (set_refs s.W q 0) q).queues a).msg_head =
          (s.W.queues a).msg_head := by
      intro a haq
      rw [queues_detach_other _ q a hP1 haq, set_refs_queue_other s.W q a 0 haq]
      exact ⟨rfl, rfl⟩
    refine ⟨{ W := { (queues_detach (set_refs s.W q 0) q) with
                freed_queues := s.W.freed_queues ++ [q] },
              handles := s.handles.erase q, live := s.live.erase q },
      Function.update B b ((B b).erase q), ?_, ⟨?_, ?_, hnd.erase q, ?_, ?_, ?_⟩, ?_⟩
    · simp only [reg_step, hql, if_true, hrel]
    · exact registry_congr (W := queues_detach (set_refs s.W q 0) q) rfl
        (fun _ _ _ => ⟨rfl, rfl, rfl, rfl⟩) hregd
    · intro b' a ha
      obtain ⟨hab, haq⟩ := (mem_bucket_erase hreg1 hb b' a).mp ha
      show ((queues_detach (set_refs s.W q 0) q).queues a).msg_head = 0
      rw [(hfield a haq).2]
      exact hmsg b' a hab
    · intro a
      show a ∈ s.live.erase q ↔ _
      rw [hnd.mem_erase_iff]
      constructor
      · rintro ⟨haq, ha⟩
        obtain ⟨b', hb'⟩ := (hlive a).mp ha
        exact ⟨b', (mem_bucket_erase hreg1 hb b' a).mpr ⟨hb', haq⟩⟩
      · rintro ⟨b', hb'⟩
        obtain ⟨hab, haq⟩ := (mem_bucket_erase hreg1 hb b' a).mp hb'
        exact ⟨haq, (hlive a).mpr ⟨b', hab⟩⟩
    · intro a ha
      show a ∈ s.live.erase q
      rw [hnd.mem_erase_iff]
      have haq : a ≠ q := fun he => hgone (he ▸ ha)
      exact ⟨haq, hh a (List.mem_of_mem_erase ha)⟩
    · intro a ha
      have ha' : a ∈ s.live.erase q := ha
      rw [hnd.mem_erase_iff] at ha'
      obtain ⟨haq, hal⟩ := ha'
      obtain ⟨k0, k1, k2⟩ := hcnt a hal
      show a ≠ 0 ∧ 1 ≤ (s.handles.erase q).count a ∧
        ((queues_detach (set_refs s.W q 0) q).queues a).refs =
          wrap32 ((s.handles.erase q).count a)
      rw [List.count_erase_of_ne haq, (hfield a haq).1]
      exact ⟨k0, k1, k2⟩
    · intro b'
      by_cases hb' : b' = b
      · subst hb'
        rw [Function.update_same]
        exact (List.erase_sublist q (B b')).length_le
      · rw [Function.update_noteq hb']
  · have hrel := queue_release_keep fuel s.W q hr
    have htwo : 2 ≤ s.handles.count q := by
      by_contra hlt
      have h1 : s.handles.count q = 1 := by omega
      rw [hrefs, h1] at hr
      exact hr (by decide)
    refine ⟨{ W := set_refs s.W q (wrap32 ((s.W.queues q).refs - 1)),
              handles := s.handles.erase q, live := s.live }, B, ?_,
      ⟨set_refs_registry q _ hreg, ?_, hnd, hlive, ?_, ?_⟩, fun _ => le_refl _⟩
    · simp only [reg_step, hql, if_true, hrel, hr, if_false]
    · intro b' a ha
      show ((set_refs s.W q _).queues a).msg_head = 0
      rw [(set_refs_fields s.W q _ a).2.2.2]
      exact hmsg b' a ha
    · intro a ha
      exact hh a (List.mem_of_mem_erase ha)
    · intro a ha
      obtain ⟨k0, k1, k2⟩ := hcnt a ha
      show a ≠ 0 ∧ 1 ≤ (s.handles.erase q).count a ∧
        ((set_refs s.W q (wrap32 ((s.W.queues q).refs - 1))).queues a).refs =
          wrap32 ((s.handles.erase q).count a)
      by_cases haq : a = q
      · rw [haq, List.count_erase_self, set_refs_queue_self]
        refine ⟨hq0, by omega, ?_⟩
        show wrap32 ((s.W.queues q).refs - 1) = _
        rw [hrefs]
        exact wrap32_pred_count _ hc1
      · rw [List.count_erase_of_ne haq, set_refs_queue_other s.W q a _ haq]
        exact ⟨k0, k1, k2⟩

/-- The invariant along a sequence of calls that keeps the contract and the bound on
the handles; with more loop iterations than calls every call returns. -/
theorem reg_run_invariant (fuel : Nat) : ∀ (ops : List RegOp) (s : RegState)
    (B : Int → List Nat), RegInv s B → (∀ b, (B b).length + ops.length < fuel) →
    reg_ok fuel s ops → handles_in_range fuel s ops →
    ∃ s' B', reg_run fuel s ops = some s' ∧ RegInv s' B'
  | [], s, B, hinv, _, _, _ => ⟨s, B, rfl, hinv⟩
  | op :: ops, s, B, hinv, hfuel, hok, hrange => by
    obtain ⟨hpre, hrest⟩ := hok
    obtain ⟨hrel, hrrest⟩ := hrange
    have hf : ∀ b, (B b).length < fuel := fun b => by
      have := hfuel b
      simp only [List.length_cons] at this
      omega
    have hstep : ∃ s₁ B₁, reg_step fuel s op = some s₁ ∧ RegInv s₁ B₁ ∧
        ∀ b, (B₁ b).length ≤ (B b).length + 1 := by
      cases op with
      | add q name limit => exact reg_add_invariant fuel s B q name limit hinv hf hpre
      | get name =>
        obtain ⟨s', h1, h2⟩ := reg_get_invariant fuel s B name hinv hf
        exact ⟨s', B, h1, h2, fun b => Nat.le_succ _⟩
      | release q =>
        obtain ⟨s', B', h1, h2, h3⟩ := reg_release_invariant fuel s B q hinv hpre hrel
        exact ⟨s', B', h1, h2, fun b => le_trans (h3 b) (Nat.le_succ _)⟩
    obtain ⟨s₁, B₁, h1, h2, h3⟩ := hstep
    obtain ⟨s', B', h4, h5⟩ := reg_run_invariant fuel ops s₁ B₁ h2
      (fun b => by
        have := hfuel b
        have := h3 b
        simp only [List.length_cons] at *
        omega)
      (hrest s₁ h1) (hrrest s₁ h1)
    exact ⟨s', B', by simp only [reg_run, h1]; exact h4, h5⟩

/-- No call hands out more than one handle. -/
theorem reg_step_handles (fuel : Nat) (s s' : RegState) (op : RegOp)
    (h : reg_step fuel s op = some s') : s'.handles.length ≤ s.handles.length + 1 := by
  cases op with
  | add q name limit =>
    simp only [reg_step] at h
    split at h
    · exact absurd h (by simp)
    · split at h
      · rw [← Option.some.inj h]; simp
      · split at h
        · exact absurd h (by simp)
        · rw [← Option.some.inj h]; simp
  | get name =>
    simp only [reg_step] at h
    split at h
    · exact absurd h (by simp)
    · rw [← Option.some.inj h]
      simp only
      split <;> simp
  | release q =>
    simp only [reg_step] at h
    split at h
    · split at h
      · exact absurd h (by simp)
      · rw [← Option.some.inj h]
        exact le_trans (List.erase_sublist q s.handles).length_le (Nat.le_succ _)
    · exact absurd h (by simp)

/-- A sequence of calls too short to hand out `2^32` handles keeps the bound on the
handles. -/
theorem handles_in_range_of_length (fuel : Nat) : ∀ (ops : List RegOp) (s : RegState),
    s.handles.length + ops.length ≤ 4294967296 → handles_in_range fuel s ops
  | [], _, _ => trivial
  | op :: ops, s, h => by
    simp only [List.length_cons] at h
    refine ⟨?_, fun s' hs => handles_in_range_of_length fuel ops s' ?_⟩
    · cases op with
      | add q name limit => trivial
      | get name => trivial
      | release q =>
        show s.handles.count q ≤ 4294967296
        exact le_trans (List.count_le_length q s.handles) (by omega)
    · have := reg_step_handles fuel s s' op hs
      omega

/-- The last queue of a list points to `NULL`. -/
theorem QList.last_next {Q : Nat → queue_t} : ∀ {l : List Nat} {before p : Nat},
    QList Q before p l → l ≠ [] → (Q (last_or_null l)).next = 0
  | [], _, _, _, h => absurd rfl h
  | [a], _, _, hq, _ => by
    obtain ⟨_, _, _, h⟩ := hq
    rw [last_or_null_singleton]
    exact h
  | a :: b :: t, _, _, hq, _ => by
    obtain ⟨_, _, _, h⟩ := hq
    rw [last_or_null_cons_cons]
    exact QList.last_next h (by simp)

/-- The successor of a queue of a list points back to it. -/
theorem QList.next_prev {Q : Nat → queue_t} {l : List Nat} {before p x : Nat}
    (h : QList Q before p l) (hx : x ∈ l) (hn : (Q x).next ≠ 0) :
    (Q (Q x).next).prev = x := by
  obtain ⟨l₁, l₂, hl⟩ := List.append_of_mem hx
  rw [hl] at h
  obtain ⟨_, _, hrest⟩ := QList.mid x l₂ l₁ before p h
  cases l₂ with
  | nil => exact absurd hrest hn
  | cons c t =>
    obtain ⟨h1, _, h3, _⟩ := hrest
    rw [h1]
    exact h3

/-- What the registry invariant says about the pointers of one bucket. -/
theorem Registry.pointers {W : World} {B : Int → List Nat} (hreg : Registry W B) (b : Int) :
    ((W._queues b).head ≠ 0 → (W.queues (W._queues b).head).prev = 0) ∧
    ((W._queues b).tail ≠ 0 → (W.queues (W._queues b).tail).next = 0) ∧
    ∀ x ∈ B b, (W.queues x).next ≠ 0 → (W.queues (W.queues x).next).prev = x := by
  obtain ⟨hq, ht, _⟩ := hreg.1 b
  refine ⟨?_, ?_, fun x hx hn => hq.next_prev hx hn⟩
  · intro h0
    cases hl : B b with
    | nil => rw [hl] at hq; exact absurd hq h0
    | cons a t =>
      rw [hl] at hq
      obtain ⟨h1, _, h3, _⟩ := hq
      rw [h1]
      exact h3
  · intro h0
    rw [ht] at h0 ⊢
    have hne : B b ≠ [] := by
      intro he
      rw [he] at h0
      exact h0 rfl
    exact hq.last_next hne

/-- A table whose entries are all `NULL` is the empty registry. -/
theorem registry_empty (W : World) (h : ∀ b, W._queues b = { head := 0, tail := 0 }) :
    Registry W (fun _ => []) := by
  refine ⟨fun b => ⟨?_, ?_, List.nodup_nil⟩, ?_, ?_⟩
  · show (W._queues b).head = 0
    rw [h b]
  · show (W._queues b).tail = 0
    rw [h b]
  · intro b a ha; simp at ha
  · intro b b' a ha; simp at ha

/-- C14 (as amended): starting from a table whose entries are all `NULL`, every
sequence of calls of `queues_add` (on a queue that `queue_create` has just built
in a block that is not allocated), `queues_get` and `queue_release` (only on
handles obtained from a successful `queues_add` or `queues_get`, each handle
released at most once, and never while more than `2^32` handles on that queue
are outstanding) returns, given more loop iterations than calls, and the state
it reaches satisfies the registry invariant for some contents `B` of the
buckets: no two queues of the table have equal names; every queue of bucket `b`
has `name_hash(name) == b` and `bucket == b`; each bucket is one doubly-linked
list from `head` to `tail` with `head->prev == NULL`, `tail->next == NULL` and
`x->next->prev == x`; the queues of the table are the allocated queue blocks,
and every outstanding handle is on one of them. -/
theorem registry_invariant (fuel : Nat) (W0 : World) (ops : List RegOp)
    (hempty : ∀ b, W0._queues b = { head := 0, tail := 0 })
    (hfuel : ops.length < fuel)
    (hok : reg_ok fuel { W := W0, handles := [], live := [] } ops)
    (hrange : handles_in_range fuel { W := W0, handles := [], live := [] } ops) :
    ∃ s B, reg_run fuel { W := W0, handles := [], live := [] } ops = some s ∧
      Registry s.W B ∧
      (∀ b b', ∀ a ∈ B b, ∀ a' ∈ B b',
        cstr (s.W.queues a).name = cstr (s.W.queues a').name → a = a') ∧
      (∀ b, ∀ a ∈ B b, name_hash (s.W.queues a).name = b ∧ (s.W.queues a).bucket = b) ∧
      (∀ b, QList s.W.queues 0 (s.W._queues b).head (B b) ∧
        (s.W._queues b).tail = last_or_null (B b) ∧
        ((s.W._queues b).head ≠ 0 → (s.W.queues (s.W._queues b).head).prev = 0) ∧
        ((s.W._queues b).tail ≠ 0 → (s.W.queues (s.W._queues b).tail).next = 0) ∧
        ∀ x ∈ B b, (s.W.queues x).next ≠ 0 → (s.W.queues (s.W.queues x).next).prev = x) ∧
      (∀ a, a ∈ s.live ↔ ∃ b, a ∈ B b) ∧ (∀ a ∈ s.handles, a ∈ s.live) := by
  have hinit : RegInv { W := W0, handles := [], live := [] } (fun _ => []) := by
    refine ⟨registry_empty W0 hempty, ?_, List.nodup_nil, ?_, ?_, ?_⟩
    · intro b a ha; simp at ha
    · intro a; simp
    · intro a ha; simp at ha
    · intro a ha; simp at ha
  obtain ⟨s, B, hrun, hreg, _, _, hlive, hh, _⟩ := reg_run_invariant fuel ops _ _ hinit
    (fun b => by simpa using hfuel) hok hrange
  refine ⟨s, B, hrun, hreg, hreg.2.2, hreg.2.1, fun b => ?_, hlive, hh⟩
  obtain ⟨k1, k2, k3⟩ := hreg.pointers b
  exact ⟨(hreg.1 b).1, (hreg.1 b).2.1, k1, k2, k3⟩

/-- C14, witness: a queue named "x" is registered, looked up once, and both handles
are released. -/
theorem registry_invariant_witness :
    ∃ s B, reg_run 5 { W := World.init, handles := [], live := [] }
        [RegOp.add 1 [120] 0, RegOp.get [120], RegOp.release 1, RegOp.release 1] = some s ∧
      Registry s.W B ∧ ∀ a ∈ s.handles, a ∈ s.live := by
  obtain ⟨hadd, hreg1, hn1, _, _, _, _⟩ := register_new 5 World.init (fun _ => []) 1 [120] 0
    registry_init (by decide) (by simp) (by simp) (by simp)
  have hget := queues_get_hit 5 _ _ [120] 1 (name_hash [120]) hreg1 (by simp)
    (by rw [hn1, cstr_idem]) (by simp)
  have hok : reg_ok 5 { W := World.init, handles := [], live := [] }
      [RegOp.add 1 [120] 0, RegOp.get [120], RegOp.release 1, RegOp.release 1] := by
    refine ⟨⟨by decide, by simp⟩, ?_⟩
    intro s₁ h₁
    simp only [reg_step, hadd, ne_eq, one_ne_zero, not_false_eq_true, if_true,
      Option.some.injEq] at h₁
    subst h₁
    refine ⟨trivial, ?_⟩
    intro s₂ h₂
    simp only [reg_step, hget, ne_eq, one_ne_zero, not_false_eq_true, if_true,
      Option.some.injEq] at h₂
    subst h₂
    refine ⟨by simp [reg_pre], ?_⟩
    intro s₃ h₃
    have hh : s₃.handles = [1] := by
      simp only [reg_step] at h₃
      split at h₃
      · split at h₃
        · exact absurd h₃ (by simp)
        · rw [← Option.some.inj h₃]
          simp
      · exact absurd h₃ (by simp)
    refine ⟨by simp [reg_pre, hh], ?_⟩
    intro s₄ _
    trivial
  obtain ⟨s, B, h, hreg, _, _, _, _, hh⟩ :=
    registry_invariant 5 World.init _ (fun _ => rfl) (by simp) hok
      (handles_in_range_of_length 5 _ _ (by simp))
  exact ⟨s, B, h, hreg, hh⟩

theorem reg_run_step (fuel : Nat) (s s' : RegState) (op : RegOp) (ops : List RegOp)
    (h : reg_step fuel s op = some s') : reg_run fuel s (op :: ops) = reg_run fuel s' ops := by
  simp only [reg_run, h]

/-- A lookup of the name of the registered queue `q` hands out one more handle on it
and stores the incremented count. -/
theorem reg_step_get_hit (fuel : Nat) (W : World) (B : Int → List Nat) (name : List Int)
    (q : Nat) (b : Int) (hreg : Registry W B) (hq : q ∈ B b) (hq0 : q ≠ 0)
    (hn : cstr (W.queues q).name = cstr name) (hfuel : (B (name_hash name)).length < fuel)
    (r : Int) (hs lv : List Nat) :
    reg_step fuel { W := set_refs W q r, handles := hs, live := lv } (RegOp.get name) =
      some { W := set_refs W q (wrap32 (r + 1)), handles := q :: hs, live := lv } := by
  have hhit := queues_get_hit fuel (set_refs W q r) B name q b (set_refs_registry q r hreg) hq
    (by rw [set_refs_queue_self]; exact hn) hfuel
  rw [queue_acquire_eq, set_refs_set_refs, set_refs_queue_self] at hhit
  simp only [reg_step, hhit, ne_eq, hq0, not_false_eq_true, if_true]

/-- `k` lookups of the name of the registered queue `q` in a row. -/
theorem reg_run_gets (fuel : Nat) (W : World) (B : Int → List Nat) (name : List Int)
    (q : Nat) (b : Int) (hreg : Registry W B) (hq : q ∈ B b) (hq0 : q ≠ 0)
    (hn : cstr (W.queues q).name = cstr name) (hfuel : (B (name_hash name)).length < fuel)
    (lv : List Nat) (rest : List RegOp) :
    ∀ (k : Nat) (r : Int) (hs : List Nat), -2147483648 ≤ r → r ≤ 2147483647 →
    reg_run fuel { W := set_refs W q r, handles := hs, live := lv }
        (List.replicate k (RegOp.get name) ++ rest) =
      reg_run fuel { W := set_refs W q (wrap32 (r + k)),
                     handles := List.replicate k q ++ hs, live := lv } rest ∧
    (reg_ok fuel { W := set_refs W q (wrap32 (r + k)),
                   handles := List.replicate k q ++ hs, live := lv } rest →
      reg_ok fuel { W := set_refs W q r, handles := hs, live := lv }
        (List.replicate k (RegOp.get name) ++ rest)) := by
  intro k
  induction k with
  | zero =>
    intro r hs h1 h2
    simp only [List.replicate_zero, List.nil_append, Nat.cast_zero, add_zero]
    rw [wrap32_of_range r h1 h2]
    exact ⟨rfl, fun h => h⟩
  | succ k ih =>
    intro r hs _ _
    have hstep := reg_step_get_hit fuel W B name q b hreg hq hq0 hn hfuel r hs lv
    have hr := wrap32_range (r + 1)
    obtain ⟨i1, i2⟩ := ih (wrap32 (r + 1)) (q :: hs) hr.1 hr.2
    have hw : wrap32 (wrap32 (r + 1) + (k : Int)) = wrap32 (r + ((k + 1 : Nat) : Int)) := by
      rw [wrap32_add_wrap32]
      congr 1
      push_cast
      ring
    have hl : List.replicate k q ++ q :: hs = List.replicate (k + 1) q ++ hs := by
      rw [List.replicate_succ', List.append_assoc]
      rfl
    rw [hw, hl] at i1 i2
    constructor
    · simp only [List.replicate_succ, List.cons_append, reg_run, hstep]
      exact i1
    · intro hok
      simp only [List.replicate_succ, List.cons_append]
      refine ⟨trivial, ?_⟩
      intro s' hs'
      rw [hstep] at hs'
      rw [← Option.some.inj hs']
      exact i2 hok

/-- With `k` lookups of a queue whose count is 1, where `1 + k` is 1 again in 32 bits,
the first release frees the queue while `k` handles on it are outstanding, and
the release of one of these handles is a call on a freed block. -/
theorem release_dangling_general (fuel : Nat) (W : World) (B : Int → List Nat)
    (name : List Int) (q : Nat) (b : Int) (hreg : Registry W B) (hq : q ∈ B b) (hq0 : q ≠ 0)
    (hn : cstr (W.queues q).name = cstr name) (hfuel : (B (name_hash name)).length < fuel)
    (hrefs : (W.queues q).refs = 1) (hmsg : (W.queues q).msg_head = 0)
    (k : Nat) (hk : wrap32 (1 + (k : Int)) = 1) (hk1 : 1 ≤ k) :
    reg_ok fuel { W := W, handles := [q], live := [q] }
      (List.replicate k (RegOp.get name) ++ [RegOp.release q, RegOp.release q]) ∧
    (∃ s, reg_run fuel { W := W, handles := [q], live := [q] }
        (List.replicate k (RegOp.get name) ++ [RegOp.release q]) = some s ∧
      s.handles.count q = k ∧ q ∈ s.handles ∧ q ∉ s.live ∧ q ∈ s.W.freed_queues) ∧
    reg_run fuel { W := W, handles := [q], live := [q] }
      (List.replicate k (RegOp.get name) ++ [RegOp.release q, RegOp.release q]) = none := by
  have hW : set_refs W q 1 = W := by
    rw [← hrefs]; exact set_refs_same W q
  have hcount : (List.replicate k q ++ [q]).count q = k + 1 := by
    rw [List.count_append, List.count_replicate_self]
    simp
  have hmemH : q ∈ List.replicate k q ++ [q] := by simp
  have hcountE : ((List.replicate k q ++ [q]).erase q).count q = k := by
    rw [List.count_erase_self, hcount]
    rfl
  have hmemE : q ∈ (List.replicate k q ++ [q]).erase q :=
    List.count_pos_iff.mp (by rw [hcountE]; exact hk1)
  obtain ⟨hP, hN⟩ := hreg.links_ne hq
  have hrel := (queue_release_last fuel W q (by rw [hrefs]; decide) hmsg hP hN).2
  obtain ⟨Wd, hrel', hfreed⟩ : ∃ Wd : World, queue_release fuel W q = some (Wd, 0) ∧
      q ∈ Wd.freed_queues := ⟨_, hrel, by simp⟩
  have hstep1 : reg_step fuel (RegState.mk W (List.replicate k q ++ [q]) [q])
      (RegOp.release q) =
      some (RegState.mk Wd ((List.replicate k q ++ [q]).erase q) []) := by
    simp only [reg_step, List.mem_singleton, if_true, hrel']
    simp
  have hstep2 : reg_step fuel (RegState.mk Wd ((List.replicate k q ++ [q]).erase q) [])
      (RegOp.release q) = none := by
    simp [reg_step]
  refine ⟨?_, ?_, ?_⟩
  · have h := (reg_run_gets fuel W B name q b hreg hq hq0 hn hfuel [q]
      [RegOp.release q, RegOp.release q] k 1 [q] (by decide) (by decide)).2
    rw [hk, hW] at h
    refine h ⟨hmemH, ?_⟩
    intro s' hs'
    rw [hstep1] at hs'
    rw [← Option.some.inj hs']
    refine ⟨hmemE, ?_⟩
    intro s'' hs''
    rw [hstep2] at hs''
    exact absurd hs'' (by simp)
  · have h := (reg_run_gets fuel W B name q b hreg hq hq0 hn hfuel [q]
      [RegOp.release q] k 1 [q] (by decide) (by decide)).1
    rw [hk, hW] at h
    refine ⟨RegState.mk Wd ((List.replicate k q ++ [q]).erase q) [], ?_, hcountE, hmemE,
      by simp, hfreed⟩
    rw [h]
    simp only [reg_run, hstep1]
  · have h := (reg_run_gets fuel W B name q b hreg hq hq0 hn hfuel [q]
      [RegOp.release q, RegOp.release q] k 1 [q] (by decide) (by decide)).1
    rw [hk, hW] at h
    rw [h]
    simp only [reg_run, hstep1, hstep2]

/-- C14, counterexample to the claim as stated: a queue named "x" is registered and
looked up `2^32` times, so that `2^32 + 1` handles on it are outstanding and its
count is 1 again.  Every handle is released at most once, yet the first
`queue_release` frees the queue while `2^32` handles are left, and the release
of the next handle is a call on the freed block: the run has no defined state. -/
theorem registry_invariant_counterexample :
    reg_ok 2 { W := World.init, handles := [], live := [] }
      (RegOp.add 1 [120] 0 :: (List.replicate 4294967296 (RegOp.get [120]) ++
        [RegOp.release 1, RegOp.release 1])) ∧
    (∃ s, reg_run 2 { W := World.init, handles := [], live := [] }
        (RegOp.add 1 [120] 0 :: (List.replicate 4294967296 (RegOp.get [120]) ++
          [RegOp.release 1])) = some s ∧
      s.handles.count 1 = 4294967296 ∧ 1 ∈ s.handles ∧ 1 ∉ s.live ∧
      1 ∈ s.W.freed_queues) ∧
    reg_run 2 { W := World.init, handles := [], live := [] }
      (RegOp.add 1 [120] 0 :: (List.replicate 4294967296 (RegOp.get [120]) ++
        [RegOp.release 1, RegOp.release 1])) = none := by
  obtain ⟨hadd, hreg1, hname1, hrefs1, hmsg1, _, _⟩ :=
    register_new 2 World.init (fun _ => []) 1 [120] 0 registry_init (by decide) (by simp)
      (by simp) (by simp)
  have hq1 : 1 ∈ Function.update (fun _ => ([] : List Nat)) (name_hash [120])
      (([] : List Nat) ++ [1]) (name_hash [120]) := by simp
  have hstep : reg_step 2 { W := World.init, handles := [], live := [] }
      (RegOp.add 1 [120] 0) =
      some { W := queues_link (queue_create World.init 1 [120] 0) 1 (name_hash [120]),
             handles := [1], live := [1] } := by
    simp only [reg_step, hadd]
    simp
  obtain ⟨g1, ⟨s, g2, g3⟩, g4⟩ := release_dangling_general 2 _ _ [120] 1 _ hreg1 hq1
    (by decide) (by rw [hname1, cstr_idem]) (by simp) hrefs1 hmsg1 4294967296 (by decide)
    (by decide)
  refine ⟨⟨⟨by decide, by simp⟩, ?_⟩, ⟨s, ?_, g3⟩, ?_⟩
  · intro s' hs'
    rw [hstep] at hs'
    rw [← Option.some.inj hs']
    exact g1
  · exact (reg_run_step 2 _ _ _ _ hstep).trans g2
  · exact (reg_run_step 2 _ _ _ _ hstep).trans g4

/-! ## Locks held when a queue is destroyed -/

theorem same_content_refl (M : msg_t) : same_content M M := ⟨rfl, rfl, rfl⟩

theorem same_content_trans {M₁ M₂ M₃ : msg_t} (h₁ : same_content M₁ M₂)
    (h₂ : same_content M₂ M₃) : same_content M₁ M₃ :=
  ⟨h₂.1.trans h₁.1, h₂.2.1.trans h₁.2.1, h₂.2.2.trans h₁.2.2⟩

/-- What `chan_recv` pushes depends on the value a message carries only. -/
theorem recv_push_congr {M M' : msg_t} (h : same_content M M') : recv_push M' = recv_push M := by
  obtain ⟨h1, h2, h3⟩ := h
  unfold recv_push
  rw [h1, h2, h3]

/-- Writing the `next` field of a message leaves the value of every message. -/
theorem update_next_content (M : Nat → msg_t) (x n a : Nat) :
    same_content (M a) (Function.update M x { (M x) with next := n } a) := by
  by_cases h : a = x
  · subst h
    rw [Function.update_same]
    exact ⟨rfl, rfl, rfl⟩
  · rw [Function.update_noteq h]
    exact ⟨rfl, rfl, rfl⟩

/-- `queue_send` writes `next` fields only. -/
theorem send_finish_content (W : World) (q msg a : Nat) :
    same_content (W.msgs a) ((send_finish W q msg).1.msgs a) := by
  unfold send_finish
  simp only
  split_ifs <;> first
    | exact ⟨rfl, rfl, rfl⟩
    | exact update_next_content W.msgs msg 0 a
    | exact same_content_trans (update_next_content W.msgs msg 0 a)
        (update_next_content _ _ msg a)

/-- `queue_recv` writes `next` fields only. -/
theorem recv_finish_content (W : World) (q a : Nat) :
    same_content (W.msgs a) ((recv_finish (recv_enter W q) q).1.msgs a) := by
  have h1 : (recv_enter W q).msgs = W.msgs := recv_enter_msgs W q
  have h2 : ∀ W' : World, (recv_revoke W' q).msgs = W'.msgs := fun W' => recv_revoke_msgs W' q
  unfold recv_finish
  simp only
  rw [h2]
  unfold recv_dequeue
  simp only
  split_ifs <;> simp only [h1] <;> first
    | exact ⟨rfl, rfl, rfl⟩
    | exact update_next_content W.msgs _ 0 a

/-- `chan_send` once its arguments have been read. -/
theorem chan_send_eq (conv : lua_conv) (W : World) (m : Nat) (L : List lua_value) (q : Nat)
    (type timeout : Int) (hq : _lua_arg_queue L = Except.ok q) (hlen : ¬ L.length < 2)
    (ht : send_type conv L = some type)
    (hto : _lua_arg_integer conv L 3 true (-1) _usage_send = Except.ok timeout) :
    chan_send conv W m L =
      (queue_send { W with msgs := Function.update W.msgs m (send_msg conv L type (W.msgs m)) }
        q m timeout).map
        (fun r => (if r.2 = 0 then { r.1 with freed_msgs := r.1.freed_msgs ++ [m] } else r.1,
          lua_result.ret [lua_value.boolean (decide (r.2 ≠ 0))])) := by
  unfold chan_send
  simp only [hq, hlen, if_false, ht, hto]
  cases queue_send _ q m timeout <;> rfl

/-- `chan_recv` once its arguments have been read and `queue_recv` has returned a
message. -/
theorem chan_recv_msg (conv : lua_conv) (W : World) (L : List lua_value) (q : Nat)
    (timeout : Int) (r : World × Nat) (hq : _lua_arg_queue L = Except.ok q)
    (hto : _lua_arg_integer conv L 2 true (-1) _usage_recv = Except.ok timeout)
    (hr : queue_recv W q timeout = some r) (hm : r.2 ≠ 0) :
    (∀ pushed, recv_push (r.1.msgs r.2) = lua_result.ret pushed →
      chan_recv conv W L =
        some ({ r.1 with freed_msgs := r.1.freed_msgs ++ [r.2] }, lua_result.ret pushed)) ∧
    ∃ W', chan_recv conv W L = some (W', recv_push (r.1.msgs r.2)) := by
  unfold chan_recv
  simp only [hq, hto, hr, ne_eq, hm, not_false_eq_true, if_true]
  constructor
  · intro pushed hp
    rw [hp]
  · cases recv_push (r.1.msgs r.2) with
    | ret pushed => exact ⟨_, rfl⟩
    | error v => exact ⟨_, rfl⟩
    | undefined => exact ⟨_, rfl⟩

/-- A message sent on an empty unbounded queue and received again, both without
timeout: `queue_send` returns 1, `queue_recv` returns the message, and the value
it carries is untouched. -/
theorem queue_round_trip (W : World) (q m : Nat) (hm : m ≠ 0) (hempty : Holds W q [])
    (hc : (W.queues q).count = 0) (hl : (W.queues q).limit < 0) :
    ∃ W1 W2, queue_send W q m (-1) = some (W1, 1) ∧ same_content (W.msgs m) (W1.msgs m) ∧
      queue_recv W1 q (-1) = some (W2, m) ∧ same_content (W.msgs m) (W2.msgs m) := by
  have hadm : (W.queues q).limit < 0 ∨
      (W.queues q).count + 1 ≤ (W.queues q).limit := Or.inl hl
  have hret := send_finish_ret W q m hm hadm
  have hholds := send_finish_holds W q m [] hm hadm hempty (by simp)
  have hcount := send_finish_queue W q m hadm
  have hcont := send_finish_content W q m m
  have hsend := queue_send_admit W q m (-1) hadm
  have hpos : ((send_finish W q m).1.queues q).count > 0 := by
    rw [hcount]
    show wrap32 ((W.queues q).count + 1) > 0
    rw [hc]; decide
  have hrecv := queue_recv_nonempty (send_finish W q m).1 q (-1) hpos
  have hbody := recv_body_holds_cons (send_finish W q m).1 q m [] hpos hholds
  have hcont2 := recv_finish_content (send_finish W q m).1 q m
  refine ⟨(send_finish W q m).1, (recv_finish (recv_enter (send_finish W q m).1 q) q).1,
    ?_, hcont, ?_, same_content_trans hcont hcont2⟩
  · rw [hsend]
    exact congrArg some (Prod.ext rfl hret)
  · rw [hrecv]
    exact congrArg some (Prod.ext rfl hbody.1)

/-- A value sent by `chan_send` on an empty unbounded queue and fetched by
`chan_recv`: the send returns `true`, the message holds what lines 373-398
wrote, and the receive pushes what the `switch` of `chan_recv` makes of it. -/
theorem chan_round_trip (conv : lua_conv) (W : World) (q m : Nat) (v : lua_value)
    (type : Int) (hq0 : q ≠ 0) (hm : m ≠ 0) (hempty : Holds W q [])
    (hc : (W.queues q).count = 0) (hl : (W.queues q).limit < 0)
    (ht : send_type conv [lua_value.lightuserdata q, v] = some type) :
    ∃ W1 W2,
      chan_send conv W m [lua_value.lightuserdata q, v] =
        some (W1, lua_result.ret [lua_value.boolean true]) ∧
      same_content (send_msg conv [lua_value.lightuserdata q, v] type (W.msgs m)) (W1.msgs m) ∧
      chan_recv conv W1 [lua_value.lightuserdata q] =
        some (W2, recv_push (send_msg conv [lua_value.lightuserdata q, v] type (W.msgs m))) := by
  have hqa : ∀ rest, _lua_arg_queue (lua_value.lightuserdata q :: rest) = Except.ok q := by
    intro rest
    simp [_lua_arg_queue, lua_topointer, lua_index, hq0]
  have hsend := chan_send_eq conv W m [lua_value.lightuserdata q, v] q type (-1) (hqa _)
    (by simp) ht (by simp [_lua_arg_integer])
  obtain ⟨W1, W2, h1, h2, h3, h4⟩ := queue_round_trip
    { W with msgs := (Function.update W.msgs m
        (send_msg conv [lua_value.lightuserdata q, v] type (W.msgs m))) } q m hm
    ⟨hempty.1, List.nodup_nil, hempty.2.2⟩ hc hl
  simp only [Function.update_same] at h2 h4
  rw [h1] at hsend
  simp only [Option.map_some', one_ne_zero, if_false, ne_eq, not_false_eq_true,
    decide_True] at hsend
  obtain ⟨_, W3, hW3⟩ := chan_recv_msg conv W1 [lua_value.lightuserdata q] q (-1) (W2, m)
    (hqa _) (by simp [_lua_arg_integer]) h3 hm
  refine ⟨W1, W3, hsend, h2, ?_⟩
  rw [hW3, recv_push_congr h4]

/-! ## Text payloads -/

theorem recv_push_string (M : msg_t) (bytes : List Nat) (h1 : M.type = LUA_TSTRING)
    (h2 : M.payload = msg_payload.str bytes) :
    recv_push M = lua_result.ret [lua_value.string (bytes.take M.str_len)] := by
  unfold recv_push
  rw [if_pos h1, h2]

/-- The message `chan_send` writes for a Lua string. -/
theorem send_msg_string (conv : lua_conv) (L : List lua_value) (s : List Nat) (M : msg_t)
    (hs : lua_index L 2 = some (lua_value.string s)) :
    send_type conv L = some LUA_TSTRING ∧
    send_msg conv L LUA_TSTRING M =
      { M with payload := msg_payload.str (s ++ [0]), str_len := s.length,
               type := LUA_TSTRING } := by
  constructor
  · simp [send_type, lua_isstring, hs]
  · simp [send_msg, lua_tolstring, hs]

/-- What `chan_send` leaves in the block of the message when it returns without a Lua
error: the value written by lines 373-398. -/
theorem chan_send_content (conv : lua_conv) (W W' : World) (m q : Nat) (L : List lua_value)
    (type : Int) (pushed : List lua_value) (hq : _lua_arg_queue L = Except.ok q)
    (hlen : ¬ L.length < 2) (ht : send_type conv L = some type)
    (hsend : chan_send conv W m L = some (W', lua_result.ret pushed)) :
    same_content (send_msg conv L type (W.msgs m)) (W'.msgs m) := by
  cases hto : _lua_arg_integer conv L 3 true (-1) _usage_send with
  | error e =>
    unfold chan_send at hsend
    simp only [hq, hlen, if_false, ht, hto, Option.some.injEq, Prod.mk.injEq,
      reduceCtorEq, and_false] at hsend
  | ok timeout =>
    rw [chan_send_eq conv W m L q type timeout hq hlen ht hto] at hsend
    cases hqs : queue_send { W with msgs := (Function.update W.msgs m
        (send_msg conv L type (W.msgs m))) } q m timeout with
    | none => rw [hqs] at hsend; exact absurd hsend (by simp)
    | some r =>
      rw [hqs] at hsend
      simp only [Option.map_some', Option.some.injEq, Prod.mk.injEq] at hsend
      have hr := queue_send_some _ q m timeout r hqs
      have hcont := send_finish_content { W with msgs := (Function.update W.msgs m
        (send_msg conv L type (W.msgs m))) } q m m
      rw [← hr] at hcont
      simp only [Function.update_same] at hcont
      have hmsgs : W'.msgs = r.1.msgs := by
        rw [← hsend.1]
        split_ifs <;> rfl
      rw [hmsgs]
      exact hcont

theorem freed_if_msgs (r : World × Int) (m : Nat) :
    (if r.2 = 0 then { r.1 with freed_msgs := r.1.freed_msgs ++ [m] } else r.1).msgs =
      r.1.msgs := by
  split_ifs <;> rfl

theorem recv_finish_freed_msgs (W : World) (q : Nat) :
    (recv_finish (recv_enter W q) q).1.freed_msgs = W.freed_msgs := by
  unfold recv_finish recv_revoke recv_dequeue recv_enter
  simp only
  split_ifs <;> rfl

/-- The only way `queue_send` does not return: an untimed wait on a bounded queue
without room. -/
theorem queue_send_none_iff (W : World) (q msg : Nat) (timeout : Int) :
    queue_send W q msg timeout = none ↔
      (timeout < 0 ∧ (W.queues q).limit ≥ 0 ∧ (W.queues q).count + 1 > (W.queues q).limit) := by
  constructor
  · intro h
    by_cases hadm : (W.queues q).limit < 0 ∨ (W.queues q).count + 1 ≤ (W.queues q).limit
    · rw [ queue_send_admit W q msg timeout hadm] at h
      exact absurd h (by simp)
    · by_cases ht : 0 ≤ timeout
      · rw [queue_send_timed W q msg timeout ht] at h
        exact absurd h (by simp)
      · exact ⟨not_le.mp ht, not_lt.mp (fun h1 => hadm (Or.inl h1)),
          not_le.mp (fun h2 => hadm (Or.inr h2))⟩
  · rintro ⟨ht, h1, h2⟩
    have hb : send_blocked (W.queues q) = true := by
      simp [send_blocked, h1, h2]
    have hne : timeout ≠ 0 := by omega
    have hnp : ¬ timeout > 0 := by omega
    simp [queue_send, hb, hne, hnp]

/-- C12: for every byte sequence `s` (any length, zero bytes allowed, the empty
sequence included) and every call of `chan_send` with the Lua string `s` as the
value and valid arguments: the call fails to return only when it waits without
timeout on a bounded queue without room; in every other case it returns a
boolean (`true` exactly when the message was queued), and the message it built
in the block `m` is tagged `LUA_TSTRING`, has `str_len` equal to the length of
`s` and holds the bytes of `s` followed by a zero byte, so its first `str_len`
bytes are `s`; and every `chan_recv` on a queue that has that message at its
head (with `count > 0`) returns, pushes the string `s` (same length, same
bytes) and frees the message. -/
theorem text_round_trip (conv : lua_conv) (W : World) (m q : Nat) (L : List lua_value)
    (s : List Nat) (timeout : Int) (hm : m ≠ 0)
    (hq : _lua_arg_queue L = Except.ok q) (hs : lua_index L 2 = some (lua_value.string s))
    (hto : _lua_arg_integer conv L 3 true (-1) _usage_send = Except.ok timeout) :
    (chan_send conv W m L = none ↔
      (timeout < 0 ∧ (W.queues q).limit ≥ 0 ∧ (W.queues q).count + 1 > (W.queues q).limit)) ∧
    ((0 ≤ timeout ∨ (W.queues q).limit < 0 ∨ (W.queues q).count + 1 ≤ (W.queues q).limit) →
      ∃ W' b, chan_send conv W m L = some (W', lua_result.ret [lua_value.boolean b]) ∧
        (b = true ↔
          ((W.queues q).limit < 0 ∨ (W.queues q).count + 1 ≤ (W.queues q).limit)) ∧
        (W'.msgs m).type = LUA_TSTRING ∧ (W'.msgs m).str_len = s.length ∧
        (W'.msgs m).payload = msg_payload.str (s ++ [0]) ∧
        (s ++ [0]).take (W'.msgs m).str_len = s ∧
        ∀ (W2 : World) (L2 : List lua_value) (q2 : Nat) (timeout2 : Int) (l : List Nat),
          _lua_arg_queue L2 = Except.ok q2 →
          _lua_arg_integer conv L2 2 true (-1) _usage_recv = Except.ok timeout2 →
          same_content (W'.msgs m) (W2.msgs m) →
          Holds W2 q2 (m :: l) → (W2.queues q2).count > 0 →
          ∃ W3, chan_recv conv W2 L2 = some (W3, lua_result.ret [lua_value.string s]) ∧
            W3.freed_msgs = W2.freed_msgs ++ [m] ∧ Holds W3 q2 l) := by
  have hlen : ¬ L.length < 2 := by
    intro h
    have : lua_index L 2 = none := by
      simp only [lua_index]
      simp only [OfNat.ofNat_ne_zero, if_false, Nat.add_one_sub_one]
      exact List.get?_eq_none.mpr (by omega)
    rw [this] at hs
    exact absurd hs (by simp)
  obtain ⟨ht, hmsg⟩ := send_msg_string conv L s (W.msgs m) hs
  have heq := chan_send_eq conv W m L q LUA_TSTRING timeout hq hlen ht hto
  have hnone := queue_send_none_iff { W with msgs := (Function.update W.msgs m
    (send_msg conv L LUA_TSTRING (W.msgs m))) } q m timeout
  constructor
  · rw [heq, Option.map_eq_none']
    exact hnone
  · intro hret
    have hsome : queue_send { W with msgs := (Function.update W.msgs m
        (send_msg conv L LUA_TSTRING (W.msgs m))) } q m timeout =
        some (send_finish { W with msgs := (Function.update W.msgs m
          (send_msg conv L LUA_TSTRING (W.msgs m))) } q m) := by
      rcases hret with h | h | h
      · exact queue_send_timed _ q m timeout h
      · exact queue_send_admit _ q m timeout (Or.inl h)
      · exact queue_send_admit _ q m timeout (Or.inr h)
    rw [hsome, Option.map_some'] at heq
    have hcont := send_finish_content { W with msgs := (Function.update W.msgs m
      (send_msg conv L LUA_TSTRING (W.msgs m))) } q m m
    simp only [Function.update_same] at hcont
    obtain ⟨h1, h2, h3⟩ := hcont
    have hlenS : (send_msg conv L LUA_TSTRING (W.msgs m)).str_len = s.length := by rw [hmsg]
    have hpayS : (send_msg conv L LUA_TSTRING (W.msgs m)).payload =
        msg_payload.str (s ++ [0]) := by rw [hmsg]
    have htypeS : (send_msg conv L LUA_TSTRING (W.msgs m)).type = LUA_TSTRING := by rw [hmsg]
    refine ⟨_, _, heq, ?_, ?_, ?_, ?_, ?_, ?_⟩
    · by_cases hadm : (W.queues q).limit < 0 ∨ (W.queues q).count + 1 ≤ (W.queues q).limit
      · have := send_finish_ret { W with msgs := (Function.update W.msgs m
          (send_msg conv L LUA_TSTRING (W.msgs m))) } q m hm hadm
        simp [this, hadm]
      · have := send_finish_reject { W with msgs := (Function.update W.msgs m
          (send_msg conv L LUA_TSTRING (W.msgs m))) } q m hadm
        simp [this, hadm]
    · rw [freed_if_msgs, h3, htypeS]
    · rw [freed_if_msgs, h2, hlenS]
    · rw [freed_if_msgs, h1, hpayS]
    · rw [freed_if_msgs, h2, hlenS, List.take_left]
    · intro W2 L2 q2 timeout2 l hq2 hto2 hsame hholds hpos
      rw [freed_if_msgs] at hsame
      have hrecv := queue_recv_nonempty W2 q2 timeout2 hpos
      have hbody := recv_body_holds_cons W2 q2 m l hpos hholds
      have hcont2 := recv_finish_content W2 q2 m
      obtain ⟨k1, k2, k3⟩ :=
        same_content_trans (same_content_trans ⟨h1, h2, h3⟩ hsame) hcont2
      have hpush := recv_push_string ((recv_finish (recv_enter W2 q2) q2).1.msgs m) (s ++ [0])
        (by rw [k3, htypeS]) (by rw [k1, hpayS])
      rw [k2, hlenS, List.take_left] at hpush
      have hfin := (chan_recv_msg conv W2 L2 q2 timeout2 (recv_finish (recv_enter W2 q2) q2)
        hq2 hto2 hrecv (by rw [hbody.1]; exact hm)).1
        [lua_value.string s] (by rw [hbody.1]; exact hpush)
      rw [hbody.1] at hfin
      refine ⟨_, hfin, ?_, ?_⟩
      · show (recv_finish (recv_enter W2 q2) q2).1.freed_msgs ++ [m] = W2.freed_msgs ++ [m]
        rw [recv_finish_freed_msgs]
      · exact holds_congr (W := (recv_finish (recv_enter W2 q2) q2).1) rfl rfl rfl hbody.2

/-- C12, witness: the three bytes `h`, zero, `i` sent through a fresh unbounded queue
named "x" arrive as the same three bytes. -/
theorem text_round_trip_witness :
    ∃ W1 W2,
      chan_send ⟨fun _ => [], fun _ => none, fun _ => 0⟩
          (queue_create World.init 1 [120] (-1)) 7
          [lua_value.lightuserdata 1, lua_value.string [104, 0, 105]] =
        some (W1, lua_result.ret [lua_value.boolean true]) ∧
      (W1.msgs 7).str_len = 3 ∧
      (W1.msgs 7).payload = msg_payload.str [104, 0, 105, 0] ∧
      chan_recv ⟨fun _ => [], fun _ => none, fun _ => 0⟩ W1 [lua_value.lightuserdata 1] =
        some (W2, lua_result.ret [lua_value.string [104, 0, 105]]) := by
  have hq : ((queue_create World.init 1 [120] (-1)).queues 1).count = 0 ∧
      ((queue_create World.init 1 [120] (-1)).queues 1).limit < 0 := by
    rw [queue_create_queue]
    exact ⟨rfl, by decide⟩
  obtain ⟨ht, hmsg⟩ := send_msg_string ⟨fun _ => [], fun _ => none, fun _ => 0⟩
    [lua_value.lightuserdata 1, lua_value.string [104, 0, 105]] [104, 0, 105]
    ((queue_create World.init 1 [120] (-1)).msgs 7) rfl
  obtain ⟨W1, W2, h1, _, h3⟩ := chan_round_trip ⟨fun _ => [], fun _ => none, fun _ => 0⟩
    (queue_create World.init 1 [120] (-1)) 1 7 (lua_value.string [104, 0, 105]) LUA_TSTRING
    (by decide) (by decide) (queue_create_holds _ _ _ _) hq.1 hq.2 ht
  obtain ⟨W', b, k1, _, _, k4, k5, _⟩ :=
    (text_round_trip ⟨fun _ => [], fun _ => none, fun _ => 0⟩
      (queue_create World.init 1 [120] (-1)) 7 1
      [lua_value.lightuserdata 1, lua_value.string [104, 0, 105]] [104, 0, 105] (-1)
      (by decide) rfl rfl rfl).2 (Or.inr (Or.inl hq.2))
  have hW : W' = W1 := by
    rw [h1] at k1
    exact ((Prod.mk.inj (Option.some.inj k1)).1).symm
  rw [hW] at k4 k5
  refine ⟨W1, W2, h1, k4, k5, ?_⟩
  rw [h3, hmsg]
  rfl

/-! ## Numbers and booleans -/

/-- The message `chan_send` writes for a Lua number: `lua_isstring` is true for a
number, so the first test of lines 365-369 already decides, and the message is
the text of the number, tagged as a string. -/
theorem send_msg_number (conv : lua_conv) (L : List lua_value) (x : Float) (M : msg_t)
    (hs : lua_index L 2 = some (lua_value.number x)) :
    send_type conv L = some LUA_TSTRING ∧
    send_msg conv L LUA_TSTRING M =
      { M with payload := msg_payload.str (conv.number2str x ++ [0]),
               str_len := (conv.number2str x).length, type := LUA_TSTRING } := by
  constructor
  · simp [send_type, lua_isstring, hs]
  · simp [send_msg, lua_tolstring, hs]

/-- The message `chan_send` writes for a Lua boolean. -/
theorem send_msg_boolean (conv : lua_conv) (L : List lua_value) (b : Bool) (M : msg_t)
    (hs : lua_index L 2 = some (lua_value.boolean b)) :
    send_type conv L = some LUA_TBOOLEAN ∧
    send_msg conv L LUA_TBOOLEAN M =
      { M with payload := msg_payload.bool_val (if b = true then 1 else 0),
               type := LUA_TBOOLEAN } := by
  constructor
  · simp [send_type, lua_isstring, lua_isnumber, lua_isboolean, hs]
  · simp [send_msg, lua_toboolean, hs, LUA_TBOOLEAN, LUA_TSTRING, LUA_TNUMBER]

/-- C19, the code at the failing input and at the part of the claim that holds.
For every Lua number `x`, `chan_send` on a fresh unbounded queue returns `true`
and enqueues a message tagged `LUA_TSTRING`, not `LUA_TNUMBER`, that holds the
text `lua_tolstring` makes of `x`; `chan_recv` then pushes that text as a
string, not the number `x`.  For every Lua boolean `b` the message is tagged
`LUA_TBOOLEAN`, carries `b` as 0 or 1, and `chan_recv` pushes the boolean `b`. -/
theorem number_sent_as_string (conv : lua_conv) (x : Float) (b : Bool) :
    (∃ W1 W2,
      chan_send conv (queue_create World.init 1 [120] (-1)) 7
          [lua_value.lightuserdata 1, lua_value.number x] =
        some (W1, lua_result.ret [lua_value.boolean true]) ∧
      (W1.msgs 7).type = LUA_TSTRING ∧ (W1.msgs 7).type ≠ LUA_TNUMBER ∧
      (W1.msgs 7).payload = msg_payload.str (conv.number2str x ++ [0]) ∧
      chan_recv conv W1 [lua_value.lightuserdata 1] =
        some (W2, lua_result.ret [lua_value.string (conv.number2str x)]) ∧
      lua_result.ret [lua_value.string (conv.number2str x)] ≠
        lua_result.ret [lua_value.number x]) ∧
    (∃ W1 W2,
      chan_send conv (queue_create World.init 1 [120] (-1)) 7
          [lua_value.lightuserdata 1, lua_value.boolean b] =
        some (W1, lua_result.ret [lua_value.boolean true]) ∧
      (W1.msgs 7).type = LUA_TBOOLEAN ∧
      (W1.msgs 7).payload = msg_payload.bool_val (if b = true then 1 else 0) ∧
      chan_recv conv W1 [lua_value.lightuserdata 1] =
        some (W2, lua_result.ret [lua_value.boolean b])) := by
  have hq : ((queue_create World.init 1 [120] (-1)).queues 1).count = 0 ∧
      ((queue_create World.init 1 [120] (-1)).queues 1).limit < 0 := by
    rw [queue_create_queue]
    exact ⟨rfl, by decide⟩
  constructor
  · obtain ⟨ht, hmsg⟩ := send_msg_number conv
      [lua_value.lightuserdata 1, lua_value.number x] x
      ((queue_create World.init 1 [120] (-1)).msgs 7) rfl
    obtain ⟨W1, W2, h1, h2, h3⟩ := chan_round_trip conv
      (queue_create World.init 1 [120] (-1)) 1 7 (lua_value.number x) LUA_TSTRING
      (by decide) (by decide) (queue_create_holds _ _ _ _) hq.1 hq.2 ht
    rw [hmsg] at h2 h3
    obtain ⟨k1, _, k3⟩ := h2
    simp only at k1 k3
    refine ⟨W1, W2, h1, k3, by rw [k3]; decide, k1, ?_, by simp⟩
    rw [h3, recv_push_string _ (conv.number2str x ++ [0]) rfl rfl]
    simp
  · obtain ⟨ht, hmsg⟩ := send_msg_boolean conv
      [lua_value.lightuserdata 1, lua_value.boolean b] b
      ((queue_create World.init 1 [120] (-1)).msgs 7) rfl
    obtain ⟨W1, W2, h1, h2, h3⟩ := chan_round_trip conv
      (queue_create World.init 1 [120] (-1)) 1 7 (lua_value.boolean b) LUA_TBOOLEAN
      (by decide) (by decide) (queue_create_holds _ _ _ _) hq.1 hq.2 ht
    rw [hmsg] at h2 h3
    obtain ⟨k1, _, k3⟩ := h2
    simp only at k1 k3
    refine ⟨W1, W2, h1, k3, k1, ?_⟩
    rw [h3]
    cases b <;> simp [recv_push, LUA_TBOOLEAN, LUA_TSTRING, LUA_TNUMBER]

/-! ## The default limit of `chan.new` -/

/-- A send on an empty queue of limit 0 while no receive is in flight: it returns 0
when the timeout is 0 or runs out, and never returns without a timeout. -/
theorem queue_send_alone (W : World) (q msg : Nat) (hl : (W.queues q).limit = 0)
    (hc : (W.queues q).count = 0) :
    queue_send W q msg 0 = some (W, 0) ∧
    (∀ timeout : Int, 0 < timeout → queue_send W q msg timeout = some (W, 0)) ∧
    (∀ timeout : Int, timeout < 0 → queue_send W q msg timeout = none) := by
  have hrej : ¬ ((W.queues q).limit < 0 ∨
      (W.queues q).count + 1 ≤ (W.queues q).limit) := by
    rw [hl, hc]; decide
  have hfin := send_finish_reject W q msg hrej
  have hblocked : send_blocked (W.queues q) = true := by
    unfold send_blocked
    rw [hl, hc]; decide
  refine ⟨by rw [queue_send_zero, hfin], ?_, ?_⟩
  · intro timeout ht
    rw [queue_send_timed W q msg timeout (le_of_lt ht), hfin]
  · intro timeout ht
    unfold queue_send
    have h0 : timeout ≠ 0 := by omega
    have h1 : ¬ timeout > 0 := by omega
    simp only [h0, ne_eq, not_false_eq_true, hblocked, and_self, if_true, h1, if_false]

/-- `chan_new` called with a name and no limit: the queue is built with limit 0; it
is registered and its handle returned when the name is new, and destroyed again
when the name is taken. -/
theorem chan_new_default (conv : lua_conv) (fuel : Nat) (char_signed : Bool) (W : World)
    (B : Int → List Nat) (q : Nat) (name : List Nat) (hreg : Registry W B) (hq0 : q ≠ 0)
    (hfresh : ∀ b, q ∉ B b) (hfuel : ∀ b, (B b).length < fuel) :
    ∃ W' r, chan_new conv fuel char_signed W q [lua_value.string name] = some (W', r) ∧
      (W'.queues q).limit = 0 ∧ (W'.queues q).count = 0 ∧
      ((∀ b, ∀ a ∈ B b, cstr (W.queues a).name ≠ cstr (as_chars char_signed name)) →
        r = lua_result.ret [lua_value.lightuserdata q]) := by
  have hargs : chan_new conv fuel char_signed W q [lua_value.string name] =
      match queues_add fuel (queue_create W q (as_chars char_signed name) 0) q with
      | none => none
      | some r =>
        if r.2 = 0 then
          match queue_destroy fuel r.1 q with
          | none => none
          | some W' =>
            some (W', lua_result.ret [lua_value.nil, lua_pushstring "chan name duplicated"])
        else some (r.1, lua_result.ret [lua_value.lightuserdata q]) := by
    simp [chan_new, _lua_arg_string, _lua_arg_integer, lua_tolstring, lua_index]
  have hcq := queue_create_queue W q (as_chars char_signed name) 0
  by_cases hnew : ∀ b, ∀ a ∈ B b, cstr (W.queues a).name ≠ cstr (as_chars char_signed name)
  · obtain ⟨hadd, _⟩ := register_new fuel W B q (as_chars char_signed name) 0 hreg hq0 hfresh
      hnew (hfuel _)
    rw [hadd] at hargs
    simp only [one_ne_zero, if_false] at hargs
    refine ⟨_, _, hargs, ?_, ?_, fun _ => rfl⟩
    · rw [(queues_link_payload _ q _ q).2.2.2.2.1, hcq]
    · rw [(queues_link_payload _ q _ q).2.2.2.2.2, hcq]
  · have hreg1 := queue_create_registry q (as_chars char_signed name) 0 hfresh hreg
    have hnew' := hnew
    push_neg at hnew'
    obtain ⟨b, a, ha, hna⟩ := hnew'
    have haq : a ≠ q := fun he => hfresh b (he ▸ ha)
    have hadd := queues_add_dup fuel (queue_create W q (as_chars char_signed name) 0) B q hreg1
      ⟨b, a, ha, by
        rw [queue_create_other W q a _ 0 haq, hcq]
        show cstr (W.queues a).name = cstr (cstr (as_chars char_signed name))
        rw [cstr_idem]; exact hna⟩ (hfuel _)
    have hhead : ((queue_create W q (as_chars char_signed name) 0).queues q).msg_head = 0 := by
      rw [hcq]
    rw [hadd] at hargs
    simp only [if_true, queue_destroy_empty fuel _ q hhead] at hargs
    refine ⟨_, _, hargs, ?_, ?_, fun h => absurd h hnew⟩
    · show ((queue_create W q (as_chars char_signed name) 0).queues q).limit = 0
      rw [hcq]
    · show ((queue_create W q (as_chars char_signed name) 0).queues q).count = 0
      rw [hcq]

/-- C11 (as amended): when `chan_new` is called with a name and no limit argument, in
any well-formed registry and with a new block for the queue, it returns, and the
queue it has built has limit 0 and holds no message; when the name is not
registered yet the queue is registered and its handle is returned.  On that
queue, while no `queue_recv` is in flight, a send does not succeed: with
timeout 0 or with a timeout that runs out `queue_send` returns 0 and changes
nothing, and without a timeout it does not return. -/
theorem default_limit_zero (conv : lua_conv) (fuel : Nat) (char_signed : Bool) (W : World)
    (B : Int → List Nat) (q : Nat) (name : List Nat) (hreg : Registry W B) (hq0 : q ≠ 0)
    (hfresh : ∀ b, q ∉ B b) (hfuel : ∀ b, (B b).length < fuel) :
    ∃ W' r, chan_new conv fuel char_signed W q [lua_value.string name] = some (W', r) ∧
      (W'.queues q).limit = 0 ∧ (W'.queues q).count = 0 ∧
      ((∀ b, ∀ a ∈ B b, cstr (W.queues a).name ≠ cstr (as_chars char_signed name)) →
        r = lua_result.ret [lua_value.lightuserdata q]) ∧
      ∀ msg, queue_send W' q msg 0 = some (W', 0) ∧
        (∀ timeout : Int, 0 < timeout → queue_send W' q msg timeout = some (W', 0)) ∧
        (∀ timeout : Int, timeout < 0 → queue_send W' q msg timeout = none) := by
  obtain ⟨W', r, h1, h2, h3, h4⟩ := chan_new_default conv fuel char_signed W B q name hreg hq0
    hfresh hfuel
  exact ⟨W', r, h1, h2, h3, h4, fun msg => queue_send_alone W' q msg h2 h3⟩

/-- C11, witness: `chan.new("x")` in the empty registry. -/
theorem default_limit_zero_witness :
    ∃ W', chan_new ⟨fun _ => [], fun _ => none, fun _ => 0⟩ 1 false World.init 1
        [lua_value.string [120]] = some (W', lua_result.ret [lua_value.lightuserdata 1]) ∧
      (W'.queues 1).limit = 0 := by
  obtain ⟨W', r, h1, h2, _, h4, _⟩ := default_limit_zero
    ⟨fun _ => [], fun _ => none, fun _ => 0⟩ 1 false World.init (fun _ => []) 1 [120]
    registry_init (by decide) (by simp) (by simp)
  rw [h4 (by simp)] at h1
  exact ⟨W', h1, h2⟩

/-- C11, counterexample to the claim as stated: `chan.new("x")` with no limit argument
builds a queue of limit 0, not -1, and the first send on it does not succeed:
with timeout 0 it returns 0, and with the default timeout -1 it does not
return. -/
theorem default_limit_counterexample :
    ∃ W', chan_new ⟨fun _ => [], fun _ => none, fun _ => 0⟩ 1 false World.init 1
        [lua_value.string [120]] = some (W', lua_result.ret [lua_value.lightuserdata 1]) ∧
      (W'.queues 1).limit = 0 ∧ (W'.queues 1).limit ≠ -1 ∧
      queue_send W' 1 5 0 = some (W', 0) ∧ queue_send W' 1 5 (-1) = none := by
  obtain ⟨W', r, h1, h2, h3, h4⟩ := chan_new_default
    ⟨fun _ => [], fun _ => none, fun _ => 0⟩ 1 false World.init (fun _ => []) 1 [120]
    registry_init (by decide) (by simp) (by simp)
  rw [h4 (by simp)] at h1
  obtain ⟨k1, _, k3⟩ := queue_send_alone W' 1 5 h2 h3
  exact ⟨W', h1, h2, by rw [h2]; decide, k1, k3 (-1) (by decide)⟩

end LuaChan
